import Mathlib

/-!
# soundify: packet framing, CRC32, the Reed-Solomon block layer and the FSK modem

A shallow embedding of the byte-level half of the codec
(`ErrorCorrection.cpp`, `AudioEncoder.cpp`, `AudioDecoder.cpp`), of the WAV reader
(`WavFile.cpp`) and of the control flow of the modem (`AudioModulator.cpp`). The
floating-point parts of the modem (the samples of a tone, the Goertzel magnitudes) are
parameters of the model.

Conventions of the embedding

* `std::vector<uint8_t>` and `std::string` are `List Byte`, with `Byte = Fin 256`.
* `v[i]` is `v.getD i 0`; every source access is inside the vector, the
  default is never observed on the paths the theorems talk about.
* `uint32_t` values are `Nat` reduced modulo `2 ^ 32`, `size_t` is 64 bits wide,
  `int` is 32 bits wide (two's complement).
* `for` loops with a fixed trip count are folds over `List.range`; loops whose
  index advances by a stride carry the index and a fuel equal to the vector
  length, which is never exhausted before the loop condition fails.
* An operation with undefined behaviour in C++ (a vector built from an iterator
  range that ends before it starts) is `none`.
-/

namespace Soundify

/-! ## Machine words -/

/-- An octet: `uint8_t`, and the `char` of a `std::string`. -/
abbrev Byte := Fin 256

/-- Conversion of an integer value to `uint8_t`. -/
def toByte (x : Nat) : Byte := ⟨x % 256, Nat.mod_lt _ (by decide)⟩

/-- Reduction to `uint32_t`. -/
def u32 (x : Nat) : Nat := x % 2 ^ 32

/-- Reduction to `size_t` (64 bits). -/
def sizeT (x : Nat) : Nat := x % 2 ^ 64

/-- The cast `(int)x` of an unsigned value: the low 32 bits read as two's complement. -/
def toInt32 (x : Nat) : Int :=
  if x % 2 ^ 32 < 2 ^ 31 then ((x % 2 ^ 32 : Nat) : Int) else ((x % 2 ^ 32 : Nat) : Int) - 2 ^ 32

/-- Bitwise exclusive or of two octets (`a ^ b` stored back into a `uint8_t`). -/
def bxor (a b : Byte) : Byte := toByte (a.val ^^^ b.val)

/-! ## CRC32 (`ErrorCorrection::calculateCRC32`) -/

/-- One pass of the inner loop: `if (crc & 1) crc = (crc >> 1) ^ 0xEDB88320; else crc >>= 1;`. -/
def crcBit (crc : Nat) : Nat :=
  if crc &&& 1 ≠ 0 then u32 ((crc >>> 1) ^^^ 0xEDB88320) else crc >>> 1

/-- Body of the outer loop: `crc ^= byte;` followed by eight `crcBit` passes. -/
def crcByte (crc : Nat) (byte : Byte) : Nat :=
  (List.range 8).foldl (fun c _ => crcBit c) (u32 (crc ^^^ byte.val))

/-- Source function `ErrorCorrection::calculateCRC32`: register initialised to `0xFFFFFFFF`, result `~crc`. -/
def calculateCRC32 (data : List Byte) : Nat :=
  u32 (0xFFFFFFFF - data.foldl crcByte 0xFFFFFFFF)

/-! ## GF(256) tables and arithmetic (`ErrorCorrection`) -/

/-- The two tables held by an `ErrorCorrection` object. -/
structure GaloisField where
  gf_exp : List Byte
  gf_log : List Byte
deriving DecidableEq

/-- Body of the first loop of `initGaloisField`; the state is the tables and the `int x`. -/
def initStep (s : GaloisField × Nat) (i : Nat) : GaloisField × Nat :=
  let x := s.2
  let e := s.1.gf_exp.set i (toByte x)
  let l := s.1.gf_log.set x (toByte i)
  let x1 := x <<< 1
  let x2 := if x1 &&& 0x100 ≠ 0 then x1 ^^^ 0x11D else x1
  (⟨e, l⟩, x2)

/-- Source function `ErrorCorrection::initGaloisField`: resize both tables, fill 255 powers of 2,
duplicate the exponent table into `[255, 512)`, set `gf_log[0] = 0`. -/
def initGaloisField : GaloisField :=
  let s0 : GaloisField × Nat := (⟨List.replicate 512 0, List.replicate 256 0⟩, 1)
  let s1 := (List.range 255).foldl initStep s0
  let e := (List.range' 255 257).foldl (fun e i => e.set i (e.getD (i - 255) 0)) s1.1.gf_exp
  ⟨e, s1.1.gf_log.set 0 0⟩

/-- The table `gf_exp` after construction. -/
def gf_exp : List Byte := initGaloisField.gf_exp

/-- The table `gf_log` after construction. -/
def gf_log : List Byte := initGaloisField.gf_log

/-- Source function `ErrorCorrection::gfMul`. -/
def gfMul (a b : Byte) : Byte :=
  if a = 0 ∨ b = 0 then 0
  else gf_exp.getD ((gf_log.getD a.val 0).val + (gf_log.getD b.val 0).val) 0

/-- Source function `ErrorCorrection::gfDiv`. -/
def gfDiv (a b : Byte) : Byte :=
  if a = 0 then 0
  else if b = 0 then 0
  else gf_exp.getD (((gf_log.getD a.val 0).val + 255 - (gf_log.getD b.val 0).val) % 255) 0

/-- Source function `ErrorCorrection::gfPolyMul` (both arguments non-empty at every call site, so
`a.size() + b.size() - 1` does not wrap). -/
def gfPolyMul (a b : List Byte) : List Byte :=
  (List.range a.length).foldl
    (fun r i => (List.range b.length).foldl
      (fun r j => r.set (i + j) (bxor (r.getD (i + j) 0) (gfMul (a.getD i 0) (b.getD j 0)))) r)
    (List.replicate (a.length + b.length - 1) 0)

/-- Source function `ErrorCorrection::rsGeneratorPoly`. -/
def rsGeneratorPoly (nsym : Nat) : List Byte :=
  (List.range nsym).foldl (fun g i => gfPolyMul g [1, gf_exp.getD i 0]) [1]

/-- Inner loop of the division in `rsEncode`: `result[i + j] ^= gfMul(gen[j], coef)`. -/
def rsDivRow (gen : List Byte) (coef : Byte) (i : Nat) (result : List Byte) : List Byte :=
  (List.range gen.length).foldl
    (fun r j => r.set (i + j) (bxor (r.getD (i + j) 0) (gfMul (gen.getD j 0) coef))) result

/-- Outer loop body of the division in `rsEncode`. -/
def rsDivStep (gen : List Byte) (result : List Byte) (i : Nat) : List Byte :=
  let coef := result.getD i 0
  if coef ≠ 0 then rsDivRow gen coef i result else result

/-- Source function `ErrorCorrection::rsEncode`: message followed by the remainder of the division. -/
def rsEncode (msg : List Byte) (nsym : Nat) : List Byte :=
  let gen := rsGeneratorPoly nsym
  let result := (List.range msg.length).foldl (rsDivStep gen) (msg ++ List.replicate nsym 0)
  msg ++ result.drop msg.length

/-- The counting loop of `rsDecode`: positions `i < msg.size()` with `msg[i] != reencoded[i]`. -/
def countErrors (msg reencoded : List Byte) : Nat :=
  (List.range msg.length).foldl
    (fun errors i => if msg.getD i 0 ≠ reencoded.getD i 0 then errors + 1 else errors) 0

/-- Source function `ErrorCorrection::rsDecode`: re-encode the message part and accept it when at
most `nsym / 2` positions disagree; the empty vector is the rejection value. -/
def rsDecode (msg : List Byte) (nsym : Nat) : List Byte :=
  if msg.length < nsym then []
  else
    let decoded := msg.take (msg.length - nsym)
    let reencoded := rsEncode decoded nsym
    if countErrors msg reencoded ≤ nsym / 2 then decoded else []

/-- Loop of `ErrorCorrection::encode`, index `i` advancing by 223. The block size is
`std::min(RS_BLOCK_SIZE, (int)(data.size() - i))`; when the cast is negative the
iterator range of `block` is invalid and the result is `none`. -/
def encodeLoop (data : List Byte) : Nat → Nat → List Byte → Option (List Byte)
  | 0, _, encoded => some encoded
  | fuel + 1, i, encoded =>
    if i < data.length then
      let blockSize : Int := min 223 (toInt32 (data.length - i))
      if blockSize < 0 then none
      else
        let block := (data.drop i).take blockSize.toNat
        let block := if block.length < 223 then block ++ List.replicate (223 - block.length) 0
          else block
        encodeLoop data fuel (i + 223) (encoded ++ rsEncode block 32)
    else some encoded

/-- Source function `ErrorCorrection::encode`. -/
def encode (data : List Byte) : Option (List Byte) :=
  encodeLoop data data.length 0 []

/-- Loop of `ErrorCorrection::decode`, index `i` advancing by 255. -/
def decodeLoop (data : List Byte) : Nat → Nat → List Byte → List Byte
  | 0, _, decoded => decoded
  | fuel + 1, i, decoded =>
    if i < data.length then
      if sizeT (i + 255) > data.length then decoded
      else
        let block := (data.drop i).take 255
        let decodedBlock := rsDecode block 32
        if decodedBlock.isEmpty then decodeLoop data fuel (i + 255) decoded
        else decodeLoop data fuel (i + 255) (decoded ++ decodedBlock)
    else decoded

/-- Source function `ErrorCorrection::decode`. -/
def decode (data : List Byte) : List Byte :=
  decodeLoop data data.length 0 []

/-! ## Packet framing (`AudioEncoder`, `AudioDecoder`) -/

/-- Source function `std::string::find_last_of(cs)`: the greatest index holding a character of `cs`. -/
def findLastOf (path cs : List Byte) : Option Nat :=
  (List.range path.length).foldl
    (fun r i => if path.getD i 0 ∈ cs then some i else r) none

/-- Source function `AudioEncoder::extractFileName`: what follows the last `/` (47) or `\` (92). -/
def extractFileName (path : List Byte) : List Byte :=
  match findLastOf path [47, 92] with
  | some lastSlash => path.drop (lastSlash + 1)
  | none => path

/-- The four `push_back((v >> 8k) & 0xFF)` calls that store a 32-bit value. -/
def pushU32 (packet : List Byte) (v : Nat) : List Byte :=
  packet ++ [toByte ((v >>> 0) &&& 0xFF), toByte ((v >>> 8) &&& 0xFF),
    toByte ((v >>> 16) &&& 0xFF), toByte ((v >>> 24) &&& 0xFF)]

/-- Source function `AudioEncoder::createDataPacket`. -/
def createDataPacket (filename fileData : List Byte) : List Byte :=
  let baseFilename := extractFileName filename
  let packet : List Byte := [65, 69, 68, 67]
  let filenameLen : Byte := toByte (min 255 baseFilename.length)
  let packet := packet ++ [filenameLen]
  let packet := (List.range filenameLen.val).foldl
    (fun p i => p ++ [baseFilename.getD i 0]) packet
  let fileDataLen := u32 fileData.length
  let packet := pushU32 packet fileDataLen
  let packet := packet ++ fileData
  let crc := calculateCRC32 packet
  pushU32 packet crc

/-- The four reads `v = p[pos]; v |= p[pos+1] << 8; v |= p[pos+2] << 16; v |= p[pos+3] << 24`. -/
def readU32 (packet : List Byte) (pos : Nat) : Nat :=
  u32 ((packet.getD pos 0).val ||| ((packet.getD (pos + 1) 0).val <<< 8)
    ||| ((packet.getD (pos + 2) 0).val <<< 16) ||| ((packet.getD (pos + 3) 0).val <<< 24))

/-- What `parseDataPacket` delivers when it returns `true`: the two output
parameters and the two checksums it compares. -/
structure ParsedPacket where
  filename : List Byte
  fileData : List Byte
  storedCrc : Nat
  calculatedCrc : Nat
deriving DecidableEq

/-- Source function `AudioDecoder::parseDataPacket`; `none` is the return value `false`. A checksum
mismatch only selects which message is printed. -/
def parseDataPacket (packet : List Byte) : Option ParsedPacket :=
  if packet.length < 14 then none
  else if packet.getD 0 0 ≠ 65 ∨ packet.getD 1 0 ≠ 69 ∨ packet.getD 2 0 ≠ 68
      ∨ packet.getD 3 0 ≠ 67 then none
  else
    let pos := 4
    let filenameLen := (packet.getD pos 0).val
    let pos := pos + 1
    if sizeT (pos + filenameLen + 4) > packet.length then none
    else
      let filename := (List.range filenameLen).map (fun i => packet.getD (pos + i) 0)
      let pos := pos + filenameLen
      let fileDataLen := readU32 packet pos
      let pos := pos + 4
      if sizeT (pos + fileDataLen + 4) > packet.length then none
      else
        let fileData := (packet.drop pos).take fileDataLen
        let pos := pos + fileDataLen
        let storedCrc := readU32 packet pos
        let pos := pos + 4
        let packetForCrc := packet.take (pos - 4)
        let calculatedCrc := calculateCRC32 packetForCrc
        some ⟨filename, fileData, storedCrc, calculatedCrc⟩

/-- The byte-level decode path of `decodeFile` after a successful encode:
`parseDataPacket(decode(encode(packet)))`. -/
def bytePipeline (filename fileData : List Byte) : Option ParsedPacket :=
  (encode (createDataPacket filename fileData)).bind (fun e => parseDataPacket (decode e))

/-! ## Specification-side vocabulary -/

/-- Number of positions at which two byte strings of the same length differ. -/
def diffCount (a b : List Byte) : Nat :=
  ((List.zip a b).filter (fun p => p.1 ≠ p.2)).length

/-- The little-endian bytes of a 32-bit value. -/
def le32 (v : Nat) : List Byte :=
  [toByte v, toByte (v / 256), toByte (v / 65536), toByte (v / 16777216)]

/-- One conditional right shift of the reference CRC-32: the register is halved and the
reflected polynomial `0xEDB88320` is added when the bit shifted out is set. -/
def crc32RefBit (c : Nat) : Nat :=
  if c % 2 = 1 then (c / 2) ^^^ 0xEDB88320 else c / 2

/-- The reference CRC-32 (IEEE 802.3, bit-serial form): register started at `0xFFFFFFFF`,
each octet added to the low end and followed by eight conditional right shifts, final
exclusive or with `0xFFFFFFFF`. -/
def crc32Ref (data : List Byte) : Nat :=
  (data.foldl (fun c b => crc32RefBit^[8] (c ^^^ b.val)) 0xFFFFFFFF) ^^^ 0xFFFFFFFF

/-- The value of the four octets at `pos`, read as a little-endian 32-bit number. -/
def leU32At (p : List Byte) (pos : Nat) : Nat :=
  (p.getD pos 0).val + 256 * (p.getD (pos + 1) 0).val
    + 65536 * (p.getD (pos + 2) 0).val + 16777216 * (p.getD (pos + 3) 0).val

/-- A data block filled with zero octets up to 223. -/
def zeroPad (b : List Byte) : List Byte := b ++ List.replicate (223 - b.length) 0

/-- The first `k` zero-padded 223-octet blocks of a byte string, stopping at its end. -/
def blocksOf : Nat → List Byte → List (List Byte)
  | 0, _ => []
  | k + 1, d => if d.length = 0 then [] else zeroPad (d.take 223) :: blocksOf k (d.drop 223)

/-- Concatenation of the code words of a list of blocks. -/
def encodeBlocks : List (List Byte) → List Byte
  | [] => []
  | b :: bs => rsEncode b 32 ++ encodeBlocks bs

/-- Concatenation of a list of blocks. -/
def concatBlocks : List (List Byte) → List Byte
  | [] => []
  | b :: bs => b ++ concatBlocks bs

/-- A name is a base name when it holds neither `/` nor `\`. -/
def isBaseName (n : List Byte) : Prop := ∀ c ∈ n, c ≠ 47 ∧ c ≠ 92


/-- The 512 entries of `gf_exp` after `initGaloisField`, written out. -/
def expTable : List Byte :=
  [
    1, 2, 4, 8, 16, 32, 64, 128, 29, 58, 116, 232, 205, 135, 19, 38, 76, 152, 45, 90, 180, 117, 234, 201,
    143, 3, 6, 12, 24, 48, 96, 192, 157, 39, 78, 156, 37, 74, 148, 53, 106, 212, 181, 119, 238, 193, 159, 35,
    70, 140, 5, 10, 20, 40, 80, 160, 93, 186, 105, 210, 185, 111, 222, 161, 95, 190, 97, 194, 153, 47, 94, 188,
    101, 202, 137, 15, 30, 60, 120, 240, 253, 231, 211, 187, 107, 214, 177, 127, 254, 225, 223, 163, 91, 182, 113, 226,
    217, 175, 67, 134, 17, 34, 68, 136, 13, 26, 52, 104, 208, 189, 103, 206, 129, 31, 62, 124, 248, 237, 199, 147,
    59, 118, 236, 197, 151, 51, 102, 204, 133, 23, 46, 92, 184, 109, 218, 169, 79, 158, 33, 66, 132, 21, 42, 84,
    168, 77, 154, 41, 82, 164, 85, 170, 73, 146, 57, 114, 228, 213, 183, 115, 230, 209, 191, 99, 198, 145, 63, 126,
    252, 229, 215, 179, 123, 246, 241, 255, 227, 219, 171, 75, 150, 49, 98, 196, 149, 55, 110, 220, 165, 87, 174, 65,
    130, 25, 50, 100, 200, 141, 7, 14, 28, 56, 112, 224, 221, 167, 83, 166, 81, 162, 89, 178, 121, 242, 249, 239,
    195, 155, 43, 86, 172, 69, 138, 9, 18, 36, 72, 144, 61, 122, 244, 245, 247, 243, 251, 235, 203, 139, 11, 22,
    44, 88, 176, 125, 250, 233, 207, 131, 27, 54, 108, 216, 173, 71, 142, 1, 2, 4, 8, 16, 32, 64, 128, 29,
    58, 116, 232, 205, 135, 19, 38, 76, 152, 45, 90, 180, 117, 234, 201, 143, 3, 6, 12, 24, 48, 96, 192, 157,
    39, 78, 156, 37, 74, 148, 53, 106, 212, 181, 119, 238, 193, 159, 35, 70, 140, 5, 10, 20, 40, 80, 160, 93,
    186, 105, 210, 185, 111, 222, 161, 95, 190, 97, 194, 153, 47, 94, 188, 101, 202, 137, 15, 30, 60, 120, 240, 253,
    231, 211, 187, 107, 214, 177, 127, 254, 225, 223, 163, 91, 182, 113, 226, 217, 175, 67, 134, 17, 34, 68, 136, 13,
    26, 52, 104, 208, 189, 103, 206, 129, 31, 62, 124, 248, 237, 199, 147, 59, 118, 236, 197, 151, 51, 102, 204, 133,
    23, 46, 92, 184, 109, 218, 169, 79, 158, 33, 66, 132, 21, 42, 84, 168, 77, 154, 41, 82, 164, 85, 170, 73,
    146, 57, 114, 228, 213, 183, 115, 230, 209, 191, 99, 198, 145, 63, 126, 252, 229, 215, 179, 123, 246, 241, 255, 227,
    219, 171, 75, 150, 49, 98, 196, 149, 55, 110, 220, 165, 87, 174, 65, 130, 25, 50, 100, 200, 141, 7, 14, 28,
    56, 112, 224, 221, 167, 83, 166, 81, 162, 89, 178, 121, 242, 249, 239, 195, 155, 43, 86, 172, 69, 138, 9, 18,
    36, 72, 144, 61, 122, 244, 245, 247, 243, 251, 235, 203, 139, 11, 22, 44, 88, 176, 125, 250, 233, 207, 131, 27,
    54, 108, 216, 173, 71, 142, 1, 2]

/-- The 256 entries of `gf_log` after `initGaloisField`, written out. -/
def logTable : List Byte :=
  [
    0, 0, 1, 25, 2, 50, 26, 198, 3, 223, 51, 238, 27, 104, 199, 75, 4, 100, 224, 14, 52, 141, 239, 129,
    28, 193, 105, 248, 200, 8, 76, 113, 5, 138, 101, 47, 225, 36, 15, 33, 53, 147, 142, 218, 240, 18, 130, 69,
    29, 181, 194, 125, 106, 39, 249, 185, 201, 154, 9, 120, 77, 228, 114, 166, 6, 191, 139, 98, 102, 221, 48, 253,
    226, 152, 37, 179, 16, 145, 34, 136, 54, 208, 148, 206, 143, 150, 219, 189, 241, 210, 19, 92, 131, 56, 70, 64,
    30, 66, 182, 163, 195, 72, 126, 110, 107, 58, 40, 84, 250, 133, 186, 61, 202, 94, 155, 159, 10, 21, 121, 43,
    78, 212, 229, 172, 115, 243, 167, 87, 7, 112, 192, 247, 140, 128, 99, 13, 103, 74, 222, 237, 49, 197, 254, 24,
    227, 165, 153, 119, 38, 184, 180, 124, 17, 68, 146, 217, 35, 32, 137, 46, 55, 63, 209, 91, 149, 188, 207, 205,
    144, 135, 151, 178, 220, 252, 190, 97, 242, 86, 211, 171, 20, 42, 93, 158, 132, 60, 57, 83, 71, 109, 65, 162,
    31, 45, 67, 216, 183, 123, 164, 118, 196, 23, 73, 236, 127, 12, 111, 246, 108, 161, 59, 82, 41, 157, 85, 170,
    251, 96, 134, 177, 187, 204, 62, 90, 203, 89, 95, 176, 156, 169, 160, 81, 11, 245, 22, 235, 122, 117, 44, 215,
    79, 174, 213, 233, 230, 231, 173, 232, 116, 214, 244, 234, 168, 80, 88, 175]

/-- Multiplication by `alpha = 2` modulo `0x11D`: shift left, reduce when bit 8 appears. -/
def gfDouble (x : Byte) : Byte :=
  toByte (if 256 ≤ 2 * x.val then (2 * x.val) ^^^ 0x11D else 2 * x.val)

/-- Value of a polynomial (highest coefficient first) at `x`, by Horner's rule with
`gfMul` and exclusive or. -/
def polyEval (p : List Byte) (x : Byte) : Byte :=
  p.foldl (fun acc c => bxor (gfMul acc x) c) 0

/-- The 33 coefficients of `rsGeneratorPoly 32`, written out. -/
def genTable : List Byte :=
  [1, 116, 64, 52, 174, 54, 126, 16, 194, 162, 33, 33, 157, 176, 197, 225, 12, 59, 55, 253,
    228, 148, 47, 179, 185, 24, 138, 253, 20, 142, 55, 172, 88]

/-- The part of a path after its last `/` or `\`: its longest suffix holding neither. -/
def afterLastSeparator (path : List Byte) : List Byte :=
  (path.reverse.takeWhile (fun c => decide (c ≠ 47 ∧ c ≠ 92))).reverse

/-- The `k`-th 255-octet block of a byte string. -/
def blockAt (d : List Byte) (k : Nat) : List Byte := (d.drop (255 * k)).take 255

/-- What an accepted block contributes (its first 223 octets) and what a rejected block
contributes (nothing); a block is accepted when the re-encoding of its first 223 octets
differs from it in at most 16 positions. -/
def keptPart (b : List Byte) : List Byte :=
  if diffCount (rsEncode (b.take 223) 32) b ≤ 16 then b.take 223 else []

/-- The contributions of the complete blocks of `d`, in block order. -/
def decodeSpec (d : List Byte) : List Byte :=
  concatBlocks ((List.range (d.length / 255)).map (fun k => keptPart (blockAt d k)))

/-- An octet with bit `k` inverted. -/
def flipBit (b : Byte) (k : Nat) : Byte := toByte (b.val ^^^ (1 <<< k))

/-- The fields of `WavHeader` that `WavFile::read` looks at, with their widths. -/
structure WavHeader where
  riff : List Byte
  wave : List Byte
  audioFormat : Fin 65536
  numChannels : Fin 65536
  sampleRate : Fin 4294967296
  bitsPerSample : Fin 65536
  dataSize : Fin 4294967296

/-- Outcome of `WavFile::read`. The samples are rationals: on this path every `float`
operation is exact (an integer of at most 17 bits scaled by a power of two). -/
inductive ReadResult where
  /-- Return value `true`, with the three output parameters. -/
  | ok (samples : List ℚ) (sampleRate channels : Nat)
  /-- Return value `false`. -/
  | failure
  /-- No defined result: integer division by zero, an uncaught `std::length_error`, or a
  value used after a failed stream read. -/
  | undefined
deriving DecidableEq

/-- A little-endian `int16_t` as stored by `file.read` into `pcmSample`. -/
def toInt16 (lo hi : Byte) : Int :=
  if lo.val + 256 * hi.val < 32768 then ((lo.val + 256 * hi.val : Nat) : Int)
  else ((lo.val + 256 * hi.val : Nat) : Int) - 65536

/-- The 16-bit loop of `WavFile::read`: `numSamples` times, read two octets and push
`static_cast<float>(pcmSample) / 32768.0f`. -/
def readLoop16 : Nat → List Byte → Option (List ℚ)
  | 0, _ => some []
  | n + 1, lo :: hi :: rest =>
    (readLoop16 n rest).map (fun s => ((toInt16 lo hi : Int) : ℚ) / 32768 :: s)
  | _ + 1, _ => none

/-- The 8-bit loop of `WavFile::read`: push `(static_cast<float>(pcmSample) - 128.0f) / 128.0f`. -/
def readLoop8 : Nat → List Byte → Option (List ℚ)
  | 0, _ => some []
  | n + 1, b :: rest => (readLoop8 n rest).map (fun s => (((b.val : Int) : ℚ) - 128) / 128 :: s)
  | _ + 1, _ => none

/-- Source function `WavFile::read`, from the header check on; `body` is what follows the
44 header octets in the file. -/
def wavRead (header : WavHeader) (body : List Byte) : ReadResult :=
  if header.riff ≠ [82, 73, 70, 70] ∨ header.wave ≠ [87, 65, 86, 69] then ReadResult.failure
  else if header.audioFormat.val ≠ 1 then ReadResult.failure
  else
    let sampleRate := header.sampleRate.val
    let channels := header.numChannels.val
    let divisor := channels * (header.bitsPerSample.val / 8)
    if divisor = 0 then ReadResult.undefined
    else
      let numSamples := toInt32 (header.dataSize.val / divisor)
      if numSamples < 0 then ReadResult.undefined
      else if header.bitsPerSample.val = 16 then
        match readLoop16 numSamples.toNat body with
        | some samples => ReadResult.ok samples sampleRate channels
        | none => ReadResult.undefined
      else if header.bitsPerSample.val = 8 then
        match readLoop8 numSamples.toNat body with
        | some samples => ReadResult.ok samples sampleRate channels
        | none => ReadResult.undefined
      else ReadResult.failure

/-- The stereo loop of `decodeFile`: `mono.push_back((s[i] + s[i + 1]) / 2.0f)` for
`i = 0, 2, 4, ...`; with an odd number of samples the last `s[i + 1]` is past the end. -/
def downmix : List ℚ → Option (List ℚ)
  | [] => some []
  | [_] => none
  | a :: b :: rest => (downmix rest).map (fun m => (a + b) / 2 :: m)

/-- The samples `decodeFile` hands to the demodulator: `WavFile::read`, then the downmix
when `channels == 2`. -/
def decodeInput (header : WavHeader) (body : List Byte) : Option (List ℚ) :=
  match wavRead header body with
  | ReadResult.ok samples _ channels =>
    if channels = 2 then downmix samples else some samples
  | _ => none

/-- The PCM data chunk of a mono file holding the 16-bit samples `x` (low octet first). -/
def monoData : List (Byte × Byte) → List Byte
  | [] => []
  | (lo, hi) :: rest => lo :: hi :: monoData rest

/-- The PCM data chunk of a stereo file holding `x` in both channels. -/
def stereoData : List (Byte × Byte) → List Byte
  | [] => []
  | (lo, hi) :: rest => lo :: hi :: lo :: hi :: stereoData rest

/-- The canonical 16-bit PCM header for `frames` sample frames. -/
def pcmHeader (channels frames : Nat) : WavHeader :=
  { riff := [82, 73, 70, 70], wave := [87, 65, 86, 69], audioFormat := 1,
    numChannels := Fin.ofNat channels, sampleRate := 44100, bitsPerSample := 16,
    dataSize := Fin.ofNat (frames * channels * 2) }

/-- A header with valid tags, one channel, 44100 Hz and 8 data octets, with the given
format and depth. -/
def headerWith (audioFormat bitsPerSample : Fin 65536) : WavHeader :=
  { riff := [82, 73, 70, 70], wave := [87, 65, 86, 69], audioFormat := audioFormat,
    numChannels := 1, sampleRate := 44100, bitsPerSample := bitsPerSample, dataSize := 8 }

/-- The samples read by the loop of `goertzelFilter(samples, startIdx, f)`, with
`samplesPerSymbol = 1323`. `none` stands for undefined behaviour: `startIdx +
samplesPerSymbol` overflows `int`, or the loop starts at a negative index. The magnitude
itself is floating point and is a function of this window. -/
def goertzelWindow {S : Type} (samples : List S) (startIdx : Int) : Option (List S) :=
  if startIdx + 1323 > 2147483647 then none
  else
    let endIdx := min (startIdx + 1323) (toInt32 samples.length)
    if startIdx < endIdx then
      if startIdx < 0 then none
      else some ((samples.drop startIdx.toNat).take (endIdx - startIdx).toNat)
    else some []

/-- The inner loop of `findPreamble` over `j`: count the windows at `i + j * 1323` whose
magnitude at `SYNC_FREQ` exceeds `10.0`; `syncStrong` is that floating-point test. -/
def matchLoop {S : Type} (syncStrong : List S → Bool) (samples : List S) (i : Nat) :
    List Nat → Nat → Option Nat
  | [], matchCount => some matchCount
  | j :: js, matchCount =>
    match goertzelWindow samples (toInt32 (sizeT (i + j * 1323))) with
    | none => none
    | some w => matchLoop syncStrong samples i js (if syncStrong w then matchCount + 1 else matchCount)

/-- Outcome of `findPreamble`. -/
inductive PreambleResult where
  /-- The vector of positions returned. -/
  | positions (ps : List Int)
  /-- Undefined behaviour was reached. -/
  | undefined
  /-- The loop was still running when the fuel of the model ran out. -/
  | outOfFuel
deriving DecidableEq

/-- The outer loop of `findPreamble`: `for (size_t i = 0; i < samples.size() -
samplesPerSymbol * 5; i += samplesPerSymbol / 2)`, the bound computed in `size_t`. -/
def findPreambleLoop {S : Type} (syncStrong : List S → Bool) (samples : List S) :
    Nat → Nat → List Int → PreambleResult
  | 0, _, _ => PreambleResult.outOfFuel
  | fuel + 1, i, positions =>
    if i < sizeT (samples.length + 2 ^ 64 - 6615) then
      match matchLoop syncStrong samples i [0, 1, 2, 3, 4] 0 with
      | none => PreambleResult.undefined
      | some matchCount =>
        if matchCount ≥ 4 then
          findPreambleLoop syncStrong samples fuel (sizeT (sizeT (i + 6615) + 661))
            (positions ++ [toInt32 (sizeT (i + 6615))])
        else findPreambleLoop syncStrong samples fuel (sizeT (i + 661)) positions
    else PreambleResult.positions positions

/-- Source function `AudioModulator::findPreamble`, run for at most `fuel` iterations. -/
def findPreamble {S : Type} (syncStrong : List S → Bool) (samples : List S) (fuel : Nat) :
    PreambleResult :=
  findPreambleLoop syncStrong samples fuel 0 []

/-- Source function `AudioEncoder::readInputFile`: the content of the file, or the empty
vector when the file cannot be opened (`none`). -/
def readInputFile (file : Option (List Byte)) : List Byte :=
  match file with
  | none => []
  | some content => content

/-- How far `AudioEncoder::encodeFile` gets. -/
inductive EncodeOutcome where
  /-- Return value `false` right after reading, before any framing. -/
  | refused
  /-- The packet was framed and encoded; `encodedData` is handed to the modulator and the
  samples to `WavFile::write`, whose success is the return value. -/
  | modulated (packet encodedData : List Byte)
  /-- The block encoder reached undefined behaviour. -/
  | undefined
deriving DecidableEq

/-- Source function `AudioEncoder::encodeFile`, up to the call of the modulator; `path` is
the input path and `file` what the file system holds there. -/
def encodeFile (path : List Byte) (file : Option (List Byte)) : EncodeOutcome :=
  let fileData := readInputFile file
  if fileData.isEmpty then EncodeOutcome.refused
  else
    let packet := createDataPacket path fileData
    match encode packet with
    | none => EncodeOutcome.undefined
    | some encodedData => EncodeOutcome.modulated packet encodedData

/-- Source function `AudioModulator::generateTone`: a vector of `numSamples` samples.
`wave frequency numSamples i` is the floating-point value stored in `tone[i]` (the sine
scaled by `0.7f`, ramped over the first and last `numSamples / 10` samples). -/
def generateTone {S : Type} (wave : Nat → Nat → Nat → S) (frequency numSamples : Nat) : List S :=
  (List.range numSamples).map (wave frequency numSamples)

/-- Source function `AudioModulator::generatePreamble`: five sync tones (`SYNC_FREQ` 1000 Hz,
`samplesPerSymbol` 1323) appended one after the other. -/
def generatePreamble {S : Type} (wave : Nat → Nat → Nat → S) : List S :=
  (List.range 5).foldl (fun preamble _ => preamble ++ generateTone wave 1000 1323) []

/-- Source function `AudioModulator::modulate`; the tone of octet `b` has frequency
`BASE_FREQ + b * FREQ_SPACING = 2000 + 50 b` Hz. -/
def modulate {S : Type} (wave : Nat → Nat → Nat → S) (data : List Byte) : List S :=
  let preamble := generatePreamble wave
  let samples := preamble
  let dataLength := u32 data.length
  let samples := (List.range 4).foldl
    (fun s i => s ++ generateTone wave
      (2000 + (toByte ((dataLength >>> (i * 8)) &&& 0xFF)).val * 50) 1323) samples
  let samples := data.foldl
    (fun s byte => s ++ generateTone wave (2000 + byte.val * 50) 1323) samples
  samples ++ preamble

/-- Concatenation of a list of symbols. -/
def concatSymbols {S : Type} : List (List S) → List S
  | [] => []
  | s :: ss => s ++ concatSymbols ss

/-- The symbols of a modem frame, in order: five sync tones, the tones of the four
little-endian octets of the length, one tone per data octet, five sync tones. -/
def frameSymbols {S : Type} (wave : Nat → Nat → Nat → S) (d : List Byte) : List (List S) :=
  List.replicate 5 (generateTone wave 1000 1323)
    ++ (le32 d.length).map (fun b => generateTone wave (2000 + 50 * b.val) 1323)
    ++ d.map (fun b => generateTone wave (2000 + 50 * b.val) 1323)
    ++ List.replicate 5 (generateTone wave 1000 1323)

/-- The comparison loop of `detectTone` over the magnitudes of the remaining candidate
tones: `if (magnitude > maxMagnitude) { maxMagnitude = magnitude; detectedTone = tone; }`.
A finite `double` is a rational, and the comparison of two of them is the rational one. -/
def detectLoop : List ℚ → Nat → ℚ → Int → Int
  | [], _, _, detectedTone => detectedTone
  | magnitude :: rest, tone, maxMagnitude, detectedTone =>
    if magnitude > maxMagnitude then detectLoop rest (tone + 1) magnitude (tone : Int)
    else detectLoop rest (tone + 1) maxMagnitude detectedTone

/-- The result of `detectTone` as a function of the magnitudes of the candidate tones in
order, from `maxMagnitude = 0.0` and `detectedTone = -1`. -/
def detectToneOf (magnitudes : List ℚ) : Int := detectLoop magnitudes 0 0 (-1)

/-- Source function `AudioModulator::detectTone`. `goertzel w f` is the floating-point
magnitude `goertzelFilter` returns on the window of samples `w` at `f` Hz; `none` is the
undefined behaviour of an invalid window. -/
def detectTone {S : Type} (goertzel : List S → Nat → ℚ) (samples : List S) (startIdx : Int) :
    Option Int :=
  match goertzelWindow samples startIdx with
  | none => none
  | some w => some (detectToneOf ((List.range 256).map (fun tone => goertzel w (2000 + tone * 50))))

/-- Loop invariant of `detectLoop` after the magnitudes `seen`: `maxMagnitude` bounds them,
and either nothing positive was seen, or `detectedTone` is the first index that attains
`maxMagnitude`. -/
def DetectInv (seen : List ℚ) (maxMagnitude : ℚ) (detectedTone : Int) : Prop :=
  0 ≤ maxMagnitude ∧ (∀ j, j < seen.length → seen.getD j 0 ≤ maxMagnitude)
    ∧ ((detectedTone = -1 ∧ maxMagnitude = 0)
      ∨ ∃ r : Nat, detectedTone = (r : Int) ∧ r < seen.length ∧ seen.getD r 0 = maxMagnitude
          ∧ 0 < maxMagnitude ∧ ∀ j, j < r → seen.getD j 0 < maxMagnitude)

/-- How the length loop of `demodulate` ends. -/
inductive LengthResult where
  /-- All four symbols were read; the value of `dataLength`. -/
  | length (dataLength : Nat)
  /-- One of the two `return data;` statements was taken, with `data` still empty. -/
  | aborted
  /-- Undefined behaviour (`int` overflow or an invalid window). -/
  | undefined
deriving DecidableEq

/-- The loop of `demodulate` that reads the four length symbols, `i` running over `is`. -/
def lengthLoop {S : Type} (goertzel : List S → Nat → ℚ) (samples : List S) (startPos : Int) :
    List Nat → Nat → LengthResult
  | [], dataLength => LengthResult.length dataLength
  | i :: is, dataLength =>
    if startPos + ((i : Int) + 1) * 1323 > 2147483647 then LengthResult.undefined
    else if startPos + ((i : Int) + 1) * 1323 > toInt32 samples.length then LengthResult.aborted
    else
      match detectTone goertzel samples (startPos + (i : Int) * 1323) with
      | none => LengthResult.undefined
      | some tone =>
        if tone < 0 ∨ tone ≥ 256 then LengthResult.aborted
        else lengthLoop goertzel samples startPos is
          (u32 (dataLength ||| ((toByte tone.toNat).val <<< (i * 8))))

/-- The data loop of `demodulate`; the first argument counts the iterations left of
`for (uint32_t i = 0; i < dataLength; i++)`. `none` is undefined behaviour. -/
def dataLoop {S : Type} (goertzel : List S → Nat → ℚ) (samples : List S) :
    Nat → Int → List Byte → Option (List Byte)
  | 0, _, data => some data
  | n + 1, startPos, data =>
    if startPos + 1323 > 2147483647 then none
    else if startPos + 1323 > toInt32 samples.length then some data
    else
      match detectTone goertzel samples startPos with
      | none => none
      | some tone =>
        dataLoop goertzel samples n (startPos + 1323)
          (data ++ [toByte (if tone < 0 ∨ tone ≥ 256 then (0 : Int) else tone).toNat])

/-- The part of `demodulate` after the preamble search, from `startPos = positions[0]`. -/
def demodulateFrom {S : Type} (goertzel : List S → Nat → ℚ) (samples : List S)
    (startPos : Int) : Option (List Byte) :=
  match lengthLoop goertzel samples startPos [0, 1, 2, 3] 0 with
  | LengthResult.undefined => none
  | LengthResult.aborted => some []
  | LengthResult.length dataLength =>
    dataLoop goertzel samples dataLength (startPos + 4 * 1323) []

/-- Outcome of `demodulate`. -/
inductive DemodResult where
  /-- The byte vector returned. -/
  | data (bytes : List Byte)
  /-- Undefined behaviour was reached. -/
  | undefined
  /-- The preamble search was still running when the fuel of the model ran out. -/
  | outOfFuel
deriving DecidableEq

/-- Source function `AudioModulator::demodulate`, the preamble search run for at most
`fuel` iterations. -/
def demodulate {S : Type} (syncStrong : List S → Bool) (goertzel : List S → Nat → ℚ)
    (samples : List S) (fuel : Nat) : DemodResult :=
  match findPreamble syncStrong samples fuel with
  | PreambleResult.outOfFuel => DemodResult.outOfFuel
  | PreambleResult.undefined => DemodResult.undefined
  | PreambleResult.positions [] => DemodResult.data []
  | PreambleResult.positions (startPos :: _) =>
    match demodulateFrom goertzel samples startPos with
    | none => DemodResult.undefined
    | some bytes => DemodResult.data bytes

/-- The octet stored for a detected tone: the tone, or 0 when it is out of range. -/
def toneByte (tone : Int) : Byte :=
  toByte (if tone < 0 ∨ tone ≥ 256 then (0 : Int) else tone).toNat

/-- Ten symbol lengths of samples of the one-point type. -/
def tenSymbols : List Unit := List.replicate 13230 ()

/-- A magnitude function that is positive at 2050 Hz only, whatever the window. -/
def peakAt2050 : List Unit → Nat → ℚ := fun _ f => if f = 2050 then 1 else 0

/-- Carry-less (polynomial over GF(2)) product of two naturals whose second factor has at
most eight bits: the exclusive or of the shifts of `a` by the set bits of `b`. -/
def clmul (a b : Nat) : Nat :=
  (List.range 8).foldl (fun acc i => if b.testBit i then acc ^^^ (a <<< i) else acc) 0

/-- One step of the reduction modulo `0x11D`: cancel bit `i` with the shifted modulus. -/
def reduceStep (x i : Nat) : Nat :=
  if x.testBit i then x ^^^ (0x11D <<< (i - 8)) else x

/-- Remainder of a polynomial of degree at most 14 modulo `x^8 + x^4 + x^3 + x^2 + 1`
(`0x11D`), by cancelling the bits 14 down to 8. -/
def reduce11D (x : Nat) : Nat :=
  [14, 13, 12, 11, 10, 9, 8].foldl reduceStep x

/-- Carry-less multiplication of two octets reduced modulo `0x11D`. -/
def gfMulRef (a b : Byte) : Byte := toByte (reduce11D (clmul a.val b.val))

/-- The power `alpha ^ n` of the generator `alpha = 2`, read in the exponent table with the
exponent reduced modulo 255. -/
def alphaPow (n : Nat) : Byte := expTable.getD (n % 255) 0

/-- An octet read as an element of GF(256): addition is exclusive or, multiplication is
`gfMul`, the inverse of `a` is `gfDiv 1 a`. -/
structure GF256 where
  /-- The octet. -/
  val : Byte
deriving DecidableEq

instance : Zero GF256 := ⟨⟨0⟩⟩

instance : One GF256 := ⟨⟨1⟩⟩

instance : Add GF256 := ⟨fun a b => ⟨bxor a.val b.val⟩⟩

instance : Neg GF256 := ⟨fun a => a⟩

instance : Mul GF256 := ⟨fun a b => ⟨gfMul a.val b.val⟩⟩

instance : Inv GF256 := ⟨fun a => ⟨gfDiv 1 a.val⟩⟩

/-- Value of a polynomial (highest coefficient first) at `x`, by Horner's rule in GF(256);
it is `polyEval` written with the field operations. -/
def evalGF (p : List Byte) (x : GF256) : GF256 :=
  p.foldl (fun acc c => acc * x + ⟨c⟩) 0

/-- A recording of `2 ^ 31 - 1` samples of the one-point type: the number of samples of a
16-bit mono WAV file whose data chunk has `2 ^ 32 - 2` bytes. -/
def longRecording : List Unit := List.replicate 2147483647 ()

/-- The magnitude function of silence: every candidate magnitude is zero. -/
def silentMagnitude : List ℚ → Nat → ℚ := fun _ _ => 0

/-- One symbol (1323 samples) of silence. -/
def silentSymbol : List ℚ := List.replicate 1323 0

/-- An all-zero block (a codeword), a block with one message octet changed, and one
trailing octet. -/
def twoBlocksAndTail : List Byte :=
  List.replicate 255 0 ++ ((1 :: List.replicate 254 0) ++ [7])

/-! ## Machine-word lemmas -/

theorem toByte_val (x : Nat) : (toByte x).val = x % 256 := rfl

theorem toByte_of_val (b : Byte) : toByte b.val = b := by
  apply Fin.ext
  simp [toByte, Nat.mod_eq_of_lt b.isLt]

theorem u32_lt (x : Nat) : u32 x < 2 ^ 32 := Nat.mod_lt _ (by decide)

theorem calculateCRC32_lt (data : List Byte) : calculateCRC32 data < 2 ^ 32 := u32_lt _

theorem sizeT_le (x : Nat) : sizeT x ≤ x := Nat.mod_le _ _

theorem toInt32_of_lt (x : Nat) (h : x < 2 ^ 31) : toInt32 x = (x : Int) := by
  unfold toInt32
  split <;> omega

theorem toInt32_neg (x : Nat) (h1 : 2 ^ 31 ≤ x) (h2 : x < 2 ^ 32) : toInt32 x < 0 := by
  unfold toInt32
  split <;> omega

/-! ## Reed-Solomon block lemmas -/

theorem rsDivRow_length (gen : List Byte) (coef : Byte) (i : Nat) (result : List Byte) :
    (rsDivRow gen coef i result).length = result.length := by
  unfold rsDivRow
  generalize List.range gen.length = js
  induction js generalizing result with
  | nil => rfl
  | cons j js ih => simp only [List.foldl_cons]; rw [ih]; simp

theorem rsDivStep_length (gen : List Byte) (result : List Byte) (i : Nat) :
    (rsDivStep gen result i).length = result.length := by
  unfold rsDivStep
  dsimp only
  split
  · exact rsDivRow_length _ _ _ _
  · rfl

theorem rsDiv_length (gen : List Byte) (is : List Nat) (result : List Byte) :
    (is.foldl (rsDivStep gen) result).length = result.length := by
  induction is generalizing result with
  | nil => rfl
  | cons i is ih => simp only [List.foldl_cons]; rw [ih, rsDivStep_length]

theorem rsEncode_length (msg : List Byte) (nsym : Nat) :
    (rsEncode msg nsym).length = msg.length + nsym := by
  simp [rsEncode, rsDiv_length]

theorem rsEncode_take (msg : List Byte) (nsym : Nat) :
    (rsEncode msg nsym).take msg.length = msg := by
  simp [rsEncode]

theorem diffCount_cons (x y : Byte) (a b : List Byte) :
    diffCount (x :: a) (y :: b) = (if x ≠ y then 1 else 0) + diffCount a b := by
  unfold diffCount
  by_cases h : x = y
  · simp [List.filter_cons, h]
  · simp [List.filter_cons, h]; omega

theorem diffCount_self (a : List Byte) : diffCount a a = 0 := by
  induction a with
  | nil => rfl
  | cons x a ih => rw [diffCount_cons, ih]; simp

theorem diffCount_comm (a b : List Byte) : diffCount a b = diffCount b a := by
  induction a generalizing b with
  | nil => cases b <;> rfl
  | cons x a ih =>
    cases b with
    | nil => rfl
    | cons y b =>
      rw [diffCount_cons, diffCount_cons, ih b]
      by_cases h : x = y
      · simp [h]
      · have h2 : ¬ y = x := fun e => h e.symm
        simp [h, h2]

theorem diffCount_append (a b c d : List Byte) (h : a.length = c.length) :
    diffCount (a ++ b) (c ++ d) = diffCount a c + diffCount b d := by
  induction a generalizing c with
  | nil =>
    cases c with
    | nil => simp [diffCount]
    | cons y c => simp at h
  | cons x a ih =>
    cases c with
    | nil => simp at h
    | cons y c =>
      simp only [List.cons_append, diffCount_cons]
      rw [ih c (by simpa using h)]
      omega

/-- The counting loop started from any value of `errors`. -/
theorem countLoop_eq (a b : List Byte) (h : a.length = b.length) (c : Nat) :
    (List.range a.length).foldl
      (fun errors i => if a.getD i 0 ≠ b.getD i 0 then errors + 1 else errors) c
      = c + diffCount a b := by
  induction a generalizing b c with
  | nil => simp [diffCount]
  | cons x a ih =>
    cases b with
    | nil => simp at h
    | cons y b =>
      have hl : a.length = b.length := by simpa using h
      simp only [List.length_cons, List.range_succ_eq_map, List.foldl_cons, List.foldl_map,
        List.getD_cons_zero, List.getD_cons_succ]
      rw [ih b hl, diffCount_cons]
      by_cases hxy : x = y
      · simp [hxy]
      · simp [hxy]; omega

theorem countErrors_eq_diffCount (a b : List Byte) (h : a.length = b.length) :
    countErrors a b = diffCount a b := by
  unfold countErrors
  rw [countLoop_eq a b h 0]
  omega

/-- Block accept criterion of `rsDecode` for any block at least `nsym` long. -/
theorem rsDecode_eq (r : List Byte) (nsym : Nat) (h : nsym ≤ r.length) :
    rsDecode r nsym =
      if diffCount (rsEncode (r.take (r.length - nsym)) nsym) r ≤ nsym / 2
      then r.take (r.length - nsym) else [] := by
  have hlen : r.length = (rsEncode (r.take (r.length - nsym)) nsym).length := by
    rw [rsEncode_length, List.length_take]; omega
  unfold rsDecode
  rw [if_neg (by omega)]
  dsimp only
  rw [countErrors_eq_diffCount _ _ hlen, diffCount_comm]

theorem rsDecode_rsEncode (m : List Byte) (nsym : Nat) :
    rsDecode (rsEncode m nsym) nsym = m := by
  have hl := rsEncode_length m nsym
  rw [rsDecode_eq _ _ (by omega), hl]
  have ht : (rsEncode m nsym).take (m.length + nsym - nsym) = m := by
    rw [Nat.add_sub_cancel]; exact rsEncode_take m nsym
  rw [ht, diffCount_self]
  simp

theorem rsDiv_zero (gen : List Byte) (is : List Nat) (n : Nat) :
    is.foldl (rsDivStep gen) (List.replicate n 0) = List.replicate n 0 := by
  induction is with
  | nil => rfl
  | cons i is ih =>
    have h0 : (List.replicate n (0 : Byte)).getD i 0 = 0 := by
      simp [List.getD_eq_getElem?_getD, List.getElem?_replicate]
      split <;> rfl
    simp only [List.foldl_cons]
    have : rsDivStep gen (List.replicate n 0) i = List.replicate n 0 := by
      unfold rsDivStep
      simp [h0]
    rw [this, ih]

theorem rsEncode_zero (k nsym : Nat) :
    rsEncode (List.replicate k 0) nsym = List.replicate (k + nsym) 0 := by
  unfold rsEncode
  dsimp only
  rw [← List.replicate_add, rsDiv_zero, List.length_replicate, List.drop_replicate,
    ← List.replicate_add]
  congr 1
  omega

/-! ## The block loops of `encode` and `decode` -/

theorem zeroPad_length (b : List Byte) (h : b.length ≤ 223) : (zeroPad b).length = 223 := by
  simp [zeroPad]; omega

theorem blocksOf_length (k : Nat) (d : List Byte) : ∀ b ∈ blocksOf k d, b.length = 223 := by
  induction k generalizing d with
  | zero => intro b hb; simp [blocksOf] at hb
  | succ k ih =>
    intro b hb
    unfold blocksOf at hb
    split at hb
    · simp at hb
    · rcases List.mem_cons.mp hb with h | h
      · rw [h]; exact zeroPad_length _ (by simp [List.length_take])
      · exact ih _ b h

theorem concatBlocks_blocksOf (k : Nat) (d : List Byte) (h : d.length ≤ 223 * k) :
    concatBlocks (blocksOf k d) = d ++ List.replicate ((223 - d.length % 223) % 223) 0 := by
  induction k generalizing d with
  | zero =>
    have hd : d = [] := List.length_eq_zero.mp (by omega)
    subst hd
    simp [blocksOf, concatBlocks]
  | succ k ih =>
    unfold blocksOf
    by_cases h0 : d.length = 0
    · have hd : d = [] := List.length_eq_zero.mp h0
      subst hd
      simp [concatBlocks]
    · rw [if_neg h0]
      simp only [concatBlocks]
      by_cases hlt : d.length < 223
      · have ht : d.take 223 = d := List.take_of_length_le (by omega)
        have hdr : d.drop 223 = [] := List.drop_of_length_le (by omega)
        have hb : blocksOf k ([] : List Byte) = [] := by cases k <;> simp [blocksOf]
        rw [ht, hdr, hb]
        simp only [concatBlocks, List.append_nil, zeroPad]
        congr 2
        rw [Nat.mod_eq_of_lt hlt, Nat.mod_eq_of_lt (by omega)]
      · have hl : (d.drop 223).length ≤ 223 * k := by simp; omega
        rw [ih _ hl]
        have hz : zeroPad (d.take 223) = d.take 223 := by
          have : (d.take 223).length = 223 := by simp [List.length_take]; omega
          simp [zeroPad, this]
        rw [hz, ← List.append_assoc, List.take_append_drop]
        congr 2
        have : (d.drop 223).length = d.length - 223 := by simp
        rw [this]
        omega

theorem encodeBlocks_length (bs : List (List Byte)) (h : ∀ b ∈ bs, b.length = 223) :
    (encodeBlocks bs).length = 255 * bs.length := by
  induction bs with
  | nil => rfl
  | cons b bs ih =>
    simp only [encodeBlocks, List.length_append, rsEncode_length, List.length_cons]
    rw [ih (fun c hc => h c (List.mem_cons_of_mem _ hc)), h b (List.mem_cons_self _ _)]
    omega

/-- The encode loop below the 2 GiB limit of the `(int)` cast: it returns, and appends the
code words of the zero-padded blocks that remain from index `i`. -/
theorem encodeLoop_eq (data : List Byte) (hd : data.length < 2 ^ 31) (k : Nat) :
    ∀ (fuel i : Nat) (acc : List Byte), data.length ≤ i + 223 * k → k ≤ fuel →
      encodeLoop data fuel i acc = some (acc ++ encodeBlocks (blocksOf k (data.drop i))) := by
  induction k with
  | zero =>
    intro fuel i acc hi _
    have hn : ¬ i < data.length := by omega
    cases fuel with
    | zero => simp [encodeLoop, blocksOf, encodeBlocks]
    | succ fuel => simp [encodeLoop, hn, blocksOf, encodeBlocks]
  | succ k ih =>
    intro fuel i acc hi hf
    cases fuel with
    | zero => omega
    | succ fuel =>
      unfold encodeLoop
      by_cases hlt : i < data.length
      · rw [if_pos hlt]
        have hc : toInt32 (data.length - i) = ((data.length - i : Nat) : Int) :=
          toInt32_of_lt _ (by omega)
        have hbs : (min 223 (toInt32 (data.length - i)) : Int)
            = ((min 223 (data.length - i) : Nat) : Int) := by
          rw [hc]; omega
        have hnn : ¬ (min 223 (toInt32 (data.length - i)) : Int) < 0 := by rw [hbs]; omega
        dsimp only
        rw [if_neg hnn, hbs, Int.toNat_ofNat]
        have htk : (data.drop i).take (min 223 (data.length - i)) = (data.drop i).take 223 := by
          by_cases h223 : 223 ≤ data.length - i
          · rw [Nat.min_eq_left h223]
          · rw [Nat.min_eq_right (by omega)]
            rw [List.take_of_length_le (by simp), List.take_of_length_le (by simp; omega)]
        have hpad : (if ((data.drop i).take 223).length < 223
            then (data.drop i).take 223 ++ List.replicate (223 - ((data.drop i).take 223).length) 0
            else (data.drop i).take 223) = zeroPad ((data.drop i).take 223) := by
          split
          · rfl
          · rename_i hge
            have : 223 - ((data.drop i).take 223).length = 0 := by omega
            rw [zeroPad, this]
            simp
        rw [htk, hpad, ih fuel (i + 223) _ (by omega) (by omega)]
        have hne : ¬ (data.drop i).length = 0 := by simp; omega
        have hb : blocksOf (k + 1) (data.drop i)
            = zeroPad ((data.drop i).take 223) :: blocksOf k (data.drop (i + 223)) := by
          rw [blocksOf, if_neg hne, List.drop_drop]
        rw [hb]
        simp [encodeBlocks, List.append_assoc]
      · rw [if_neg hlt]
        have he : data.drop i = [] := List.drop_of_length_le (by omega)
        rw [he]
        simp [blocksOf, encodeBlocks]

/-- The decode loop over a concatenation of unmodified code words keeps every block. -/
theorem decodeLoop_encodeBlocks (bs : List (List Byte)) :
    ∀ (pre acc : List Byte) (fuel : Nat), (∀ b ∈ bs, b.length = 223) → bs.length ≤ fuel →
      decodeLoop (pre ++ encodeBlocks bs) fuel pre.length acc = acc ++ concatBlocks bs := by
  induction bs with
  | nil =>
    intro pre acc fuel _ _
    cases fuel with
    | zero => simp [decodeLoop, concatBlocks]
    | succ fuel => simp [decodeLoop, encodeBlocks, concatBlocks]
  | cons b bs ih =>
    intro pre acc fuel hb hf
    cases fuel with
    | zero => simp at hf
    | succ fuel =>
      have hbl : b.length = 223 := hb b (List.mem_cons_self _ _)
      have hcl : (rsEncode b 32).length = 255 := by rw [rsEncode_length, hbl]
      unfold decodeLoop
      have hlt : pre.length < (pre ++ encodeBlocks (b :: bs)).length := by
        simp [encodeBlocks, hcl]
      have hsz : ¬ sizeT (pre.length + 255) > (pre ++ encodeBlocks (b :: bs)).length := by
        have := sizeT_le (pre.length + 255)
        simp [encodeBlocks, hcl]; omega
      rw [if_pos hlt, if_neg hsz]
      have hblock : ((pre ++ encodeBlocks (b :: bs)).drop pre.length).take 255 = rsEncode b 32 := by
        rw [List.drop_left]
        simp only [encodeBlocks]
        rw [← hcl, List.take_left]
      dsimp only
      rw [hblock, rsDecode_rsEncode]
      have hne : b.isEmpty = false := by
        cases b with
        | nil => simp at hbl
        | cons x xs => rfl
      rw [hne]
      simp only [Bool.false_eq_true, if_false]
      have hdata : pre ++ encodeBlocks (b :: bs) = (pre ++ rsEncode b 32) ++ encodeBlocks bs := by
        simp [encodeBlocks, List.append_assoc]
      have hi : pre.length + 255 = (pre ++ rsEncode b 32).length := by simp [hcl]
      rw [hdata, hi, ih _ _ fuel (fun c hc => hb c (List.mem_cons_of_mem _ hc))
        (by simpa using hf)]
      simp [concatBlocks, List.append_assoc]

theorem blocksOf_count (k : Nat) (d : List Byte) (h : d.length ≤ 223 * k) :
    (blocksOf k d).length = (d.length + 222) / 223 := by
  induction k generalizing d with
  | zero =>
    have hd : d.length = 0 := by omega
    simp [blocksOf, hd]
  | succ k ih =>
    unfold blocksOf
    by_cases h0 : d.length = 0
    · simp [h0]
    · rw [if_neg h0, List.length_cons, ih _ (by simp; omega)]
      have : (d.drop 223).length = d.length - 223 := by simp
      rw [this]
      omega

theorem encode_eq_of_lt (d : List Byte) (hd : d.length < 2 ^ 31) :
    encode d = some (encodeBlocks (blocksOf ((d.length + 222) / 223) d)) := by
  unfold encode
  rw [encodeLoop_eq d hd ((d.length + 222) / 223) d.length 0 [] (by omega) (by omega)]
  simp

theorem decode_encodeBlocks (bs : List (List Byte)) (h : ∀ b ∈ bs, b.length = 223) :
    decode (encodeBlocks bs) = concatBlocks bs := by
  unfold decode
  have hl := encodeBlocks_length bs h
  have := decodeLoop_encodeBlocks bs [] [] (encodeBlocks bs).length h (by omega)
  simpa using this

/-- Round trip of the block layer for inputs below the limit of the `(int)` cast: the
encoder returns `255 * ceil(|d| / 223)` octets and the decoder gives back `d` followed by
the zero padding of the last block. -/
theorem decode_encode_of_lt (d : List Byte) (hd : d.length < 2 ^ 31) :
    ∃ e, encode d = some e ∧ e.length = 255 * ((d.length + 222) / 223) ∧
      decode e = d ++ List.replicate ((223 - d.length % 223) % 223) 0 := by
  refine ⟨_, encode_eq_of_lt d hd, ?_, ?_⟩
  · rw [encodeBlocks_length _ (blocksOf_length _ _), blocksOf_count _ _ (by omega)]
  · rw [decode_encodeBlocks _ (blocksOf_length _ _), concatBlocks_blocksOf _ _ (by omega)]

/-- From 2 GiB up to 4 GiB the `(int)` cast of the first iteration is negative. -/
theorem encode_none_of_ge (d : List Byte) (h1 : 2 ^ 31 ≤ d.length) (h2 : d.length < 2 ^ 32) :
    encode d = none := by
  unfold encode
  obtain ⟨n, hn⟩ : ∃ n, d.length = n + 1 := ⟨d.length - 1, by omega⟩
  have hneg : toInt32 (d.length - 0) < 0 := toInt32_neg _ (by omega) (by omega)
  have hmin : (min 223 (toInt32 (d.length - 0)) : Int) < 0 := by omega
  have hpos : 0 < d.length := by omega
  rw [hn]
  unfold encodeLoop
  rw [if_pos hpos]
  dsimp only
  rw [if_pos hmin]

/-- Fuel beyond `ceil((|data| - i) / 223)` does not change the result of the encode loop:
the loop condition `i < data.size()` fails before the fuel is used up. -/
theorem encodeLoop_fuel (data : List Byte) (fuel : Nat) :
    ∀ (i : Nat) (acc : List Byte) (extra : Nat), data.length ≤ i + 223 * fuel →
      encodeLoop data (fuel + extra) i acc = encodeLoop data fuel i acc := by
  induction fuel with
  | zero =>
    intro i acc extra h
    have hn : ¬ i < data.length := by omega
    cases extra with
    | zero => rfl
    | succ extra =>
      rw [Nat.zero_add]
      unfold encodeLoop
      rw [if_neg hn]
  | succ fuel ih =>
    intro i acc extra h
    have e : fuel + 1 + extra = (fuel + extra) + 1 := by omega
    rw [e]
    unfold encodeLoop
    by_cases hlt : i < data.length
    · rw [if_pos hlt, if_pos hlt]
      dsimp only
      split
      · rfl
      · exact ih _ _ _ (by omega)
    · rw [if_neg hlt, if_neg hlt]

/-- Fuel beyond `ceil((|data| - i) / 255)` does not change the result of the decode loop. -/
theorem decodeLoop_fuel (data : List Byte) (fuel : Nat) :
    ∀ (i : Nat) (acc : List Byte) (extra : Nat), data.length ≤ i + 255 * fuel →
      decodeLoop data (fuel + extra) i acc = decodeLoop data fuel i acc := by
  induction fuel with
  | zero =>
    intro i acc extra h
    have hn : ¬ i < data.length := by omega
    cases extra with
    | zero => rfl
    | succ extra =>
      rw [Nat.zero_add]
      unfold decodeLoop
      rw [if_neg hn]
  | succ fuel ih =>
    intro i acc extra h
    have e : fuel + 1 + extra = (fuel + extra) + 1 := by omega
    rw [e]
    unfold decodeLoop
    by_cases hlt : i < data.length
    · rw [if_pos hlt, if_pos hlt]
      dsimp only
      split
      · rfl
      · split
        · exact ih _ _ _ (by omega)
        · exact ih _ _ _ (by omega)
    · rw [if_neg hlt, if_neg hlt]

/-- The fuel `data.size()` handed to the two loops is enough: any larger fuel gives the
same result. -/
theorem encode_decode_fuel (data : List Byte) (extra : Nat) :
    encodeLoop data (data.length + extra) 0 [] = encode data
      ∧ decodeLoop data (data.length + extra) 0 [] = decode data :=
  ⟨encodeLoop_fuel data data.length 0 [] extra (by omega),
   decodeLoop_fuel data data.length 0 [] extra (by omega)⟩

/-! ## Little-endian words -/

theorem pushU32_eq (packet : List Byte) (v : Nat) : pushU32 packet v = packet ++ le32 v := by
  have h : ∀ x : Nat, toByte (x &&& 0xFF) = toByte x := by
    intro x
    apply Fin.ext
    have := Nat.and_pow_two_sub_one_eq_mod x 8
    simp only [toByte_val]
    have h8 : (2 : Nat) ^ 8 - 1 = 0xFF := by norm_num
    rw [h8] at this
    rw [this]
    omega
  simp only [pushU32, le32, h, Nat.shiftRight_eq_div_pow]
  norm_num

theorem le32_length (v : Nat) : (le32 v).length = 4 := rfl

theorem or_shift_eq (a b k : Nat) (h : a < 2 ^ k) : a ||| (b <<< k) = a + b * 2 ^ k := by
  rw [Nat.or_comm, Nat.shiftLeft_eq, Nat.mul_comm, ← Nat.mul_add_lt_is_or h]
  omega

/-- The four reads assemble `b0 + 256 b1 + 65536 b2 + 16777216 b3`. -/
theorem readU32_eq (p : List Byte) (pos : Nat) :
    readU32 p pos = (p.getD pos 0).val + 256 * (p.getD (pos + 1) 0).val
      + 65536 * (p.getD (pos + 2) 0).val + 16777216 * (p.getD (pos + 3) 0).val := by
  have h0 := (p.getD pos 0).isLt
  have h1 := (p.getD (pos + 1) 0).isLt
  have h2 := (p.getD (pos + 2) 0).isLt
  have h3 := (p.getD (pos + 3) 0).isLt
  unfold readU32 u32
  rw [or_shift_eq _ _ 8 (by omega)]
  rw [or_shift_eq _ _ 16 (by omega)]
  rw [or_shift_eq _ _ 24 (by omega)]
  omega

theorem getD_append_add (a l : List Byte) (i : Nat) :
    (a ++ l).getD (a.length + i) 0 = l.getD i 0 := by
  simp [List.getD_eq_getElem?_getD, List.getElem?_append_right]

theorem readU32_le32 (a b : List Byte) (v : Nat) (hv : v < 2 ^ 32) :
    readU32 (a ++ (le32 v ++ b)) a.length = v := by
  rw [readU32_eq]
  have g0 := getD_append_add a (le32 v ++ b) 0
  rw [Nat.add_zero] at g0
  rw [g0, getD_append_add, getD_append_add, getD_append_add]
  simp only [le32, List.cons_append, List.getD_cons_zero, List.getD_cons_succ, toByte_val]
  omega

/-! ## Framing lemmas -/

theorem findLastOf_loop_none (path cs : List Byte) (h : ∀ c ∈ path, c ∉ cs) (is : List Nat)
    (his : ∀ i ∈ is, i < path.length) :
    is.foldl (fun r i => if path.getD i 0 ∈ cs then some i else r) none = none := by
  induction is with
  | nil => rfl
  | cons i is ih =>
    have hi : i < path.length := his i (List.mem_cons_self _ _)
    have hmem : path.getD i 0 ∈ path := by
      rw [List.getD_eq_getElem _ _ hi]
      exact List.getElem_mem hi
    simp only [List.foldl_cons, if_neg (h _ hmem)]
    exact ih (fun j hj => his j (List.mem_cons_of_mem _ hj))

theorem extractFileName_of_isBaseName (n : List Byte) (h : isBaseName n) :
    extractFileName n = n := by
  have hnone : findLastOf n [47, 92] = none := by
    unfold findLastOf
    apply findLastOf_loop_none
    · intro c hc hmem
      have := h c hc
      simp at hmem
      tauto
    · intro i hi
      exact List.mem_range.mp hi
  simp [extractFileName, hnone]

/-- The `push_back` loop that copies the first `k` characters of the name. -/
theorem pushName_eq (b p0 : List Byte) (k : Nat) (hk : k ≤ b.length) :
    (List.range k).foldl (fun p i => p ++ [b.getD i 0]) p0 = p0 ++ b.take k := by
  induction k with
  | zero => simp
  | succ k ih =>
    have hlt : k < b.length := by omega
    rw [List.range_succ, List.foldl_append, ih (by omega)]
    simp only [List.foldl_cons, List.foldl_nil, List.append_assoc]
    congr 1
    rw [List.take_succ, List.getD_eq_getElem _ _ hlt, List.getElem?_eq_getElem hlt]
    rfl

/-- The read loop of the name: `filenameLen` consecutive octets starting at `pos`. -/
theorem readName_eq (p : List Byte) (pos k : Nat) (h : pos + k ≤ p.length) :
    (List.range k).map (fun i => p.getD (pos + i) 0) = (p.drop pos).take k := by
  apply List.ext_getElem
  · simp; omega
  · intro i h1 h2
    simp only [List.length_map, List.length_range] at h1
    have hi : pos + i < p.length := by omega
    simp [List.getElem?_eq_getElem hi]

/-- What precedes the checksum in a packet: magic, name length, name, payload length, payload. -/
theorem packetBody_eq (n F : List Byte) :
    createDataPacket n F =
      ([65, 69, 68, 67] ++ [toByte (min 255 (extractFileName n).length)]
          ++ (extractFileName n).take (min 255 (extractFileName n).length)
          ++ le32 (u32 F.length) ++ F)
        ++ le32 (calculateCRC32 ([65, 69, 68, 67] ++ [toByte (min 255 (extractFileName n).length)]
          ++ (extractFileName n).take (min 255 (extractFileName n).length)
          ++ le32 (u32 F.length) ++ F)) := by
  unfold createDataPacket
  dsimp only
  have hk : (toByte (min 255 (extractFileName n).length)).val
      = min 255 (extractFileName n).length := by
    rw [toByte_val]; omega
  rw [hk, pushName_eq _ _ _ (by omega), pushU32_eq, pushU32_eq]

/-- Parsing a buffer that starts with a well-formed frame: the fields come back, the
recomputed checksum is the checksum of the frame body, and what follows the stored
checksum is not looked at. -/
theorem parse_frame (nm F t : List Byte) (c : Nat) (hL : nm.length ≤ 255)
    (hF : F.length < 2 ^ 32) (hc : c < 2 ^ 32) (hlen : 14 ≤ 13 + nm.length + F.length + t.length) :
    parseDataPacket
        (([65, 69, 68, 67] ++ [toByte nm.length] ++ nm ++ le32 F.length ++ F) ++ le32 c ++ t)
      = some ⟨nm, F, c,
          calculateCRC32 ([65, 69, 68, 67] ++ [toByte nm.length] ++ nm ++ le32 F.length ++ F)⟩ := by
  generalize hbody : ([65, 69, 68, 67] ++ [toByte nm.length] ++ nm ++ le32 F.length ++ F) = body
  generalize hp : body ++ le32 c ++ t = p
  have hbl : body.length = 9 + nm.length + F.length := by
    rw [← hbody]; simp [le32_length]; omega
  have hpl : p.length = 13 + nm.length + F.length + t.length := by
    rw [← hp]; simp [le32_length, hbl]; omega
  have e0 : p = 65 :: 69 :: 68 :: 67 :: toByte nm.length
      :: (nm ++ (le32 F.length ++ (F ++ (le32 c ++ t)))) := by
    rw [← hp, ← hbody]; simp [List.append_assoc]
  have e1 : p = ([65, 69, 68, 67, toByte nm.length] ++ nm) ++ (le32 F.length ++ (F ++ (le32 c ++ t))) := by
    rw [e0]; simp [List.append_assoc]
  have e2 : p = body ++ (le32 c ++ t) := by rw [← hp]; simp [List.append_assoc]
  have hnl : (p.getD 4 0).val = nm.length := by
    rw [e0]; simp [toByte_val]; omega
  have hname : (List.range nm.length).map (fun i => p.getD (5 + i) 0) = nm := by
    rw [readName_eq _ _ _ (by omega), e0]
    simp
  have hdl : readU32 p (5 + nm.length) = F.length := by
    have := readU32_le32 ([65, 69, 68, 67, toByte nm.length] ++ nm) (F ++ (le32 c ++ t))
      F.length hF
    rw [← e1] at this
    rw [← this]
    congr 1
    simp; omega
  have hdata : (p.drop (5 + nm.length + 4)).take F.length = F := by
    have h9 : 5 + nm.length + 4
        = (([65, 69, 68, 67, toByte nm.length] ++ nm) ++ le32 F.length).length := by
      simp [le32_length]; omega
    have e3 : p = (([65, 69, 68, 67, toByte nm.length] ++ nm) ++ le32 F.length)
        ++ (F ++ (le32 c ++ t)) := by
      rw [e1]; simp [List.append_assoc]
    rw [h9]
    conv => lhs; arg 2; arg 2; rw [e3]
    rw [List.drop_left, List.take_left]
  have hcrcpos : 5 + nm.length + 4 + F.length = body.length := by omega
  have hstored : readU32 p (5 + nm.length + 4 + F.length) = c := by
    rw [hcrcpos, e2]
    exact readU32_le32 body t c hc
  have hpre : p.take (5 + nm.length + 4 + F.length + 4 - 4) = body := by
    rw [Nat.add_sub_cancel, hcrcpos, e2, List.take_left]
  have hm0 : p.getD 0 0 = 65 := by rw [e0]; rfl
  have hm1 : p.getD 1 0 = 69 := by rw [e0]; rfl
  have hm2 : p.getD 2 0 = 68 := by rw [e0]; rfl
  have hm3 : p.getD 3 0 = 67 := by rw [e0]; rfl
  have hs1 : ¬ sizeT (4 + 1 + nm.length + 4) > p.length := by
    have := sizeT_le (4 + 1 + nm.length + 4); omega
  have hs2 : ¬ sizeT (4 + 1 + nm.length + 4 + F.length + 4) > p.length := by
    have := sizeT_le (4 + 1 + nm.length + 4 + F.length + 4); omega
  unfold parseDataPacket
  rw [if_neg (by omega)]
  rw [hm0, hm1, hm2, hm3, if_neg (by decide)]
  dsimp only
  rw [hnl, if_neg hs1, hdl, if_neg hs2]
  simp only [show 4 + 1 = 5 from rfl]
  rw [hname, hdata, hstored, hpre]

theorem createDataPacket_length (n F : List Byte) :
    (createDataPacket n F).length = 13 + min 255 (extractFileName n).length + F.length := by
  rw [packetBody_eq]
  simp [le32_length]
  omega

/-- The frame of a base name of at most 255 characters and a payload below 4 GiB. -/
theorem createDataPacket_of_isBaseName (n F : List Byte) (hb : isBaseName n)
    (hn : n.length ≤ 255) (hF : F.length < 2 ^ 32) :
    createDataPacket n F =
      ([65, 69, 68, 67] ++ [toByte n.length] ++ n ++ le32 F.length ++ F)
        ++ le32 (calculateCRC32 ([65, 69, 68, 67] ++ [toByte n.length] ++ n ++ le32 F.length ++ F)) := by
  have hmin : min 255 n.length = n.length := by omega
  have hu : u32 F.length = F.length := Nat.mod_eq_of_lt hF
  rw [packetBody_eq, extractFileName_of_isBaseName n hb, hmin, hu, List.take_length]

/-- Parsing a frame followed by arbitrary octets `t`. -/
theorem parse_createDataPacket_append (n F t : List Byte) (h1 : 1 ≤ n.length)
    (h2 : n.length ≤ 255) (hb : isBaseName n) (hF : F.length < 2 ^ 32) :
    parseDataPacket (createDataPacket n F ++ t)
      = some ⟨n, F,
          calculateCRC32 ([65, 69, 68, 67] ++ [toByte n.length] ++ n ++ le32 F.length ++ F),
          calculateCRC32 ([65, 69, 68, 67] ++ [toByte n.length] ++ n ++ le32 F.length ++ F)⟩ := by
  rw [createDataPacket_of_isBaseName n F hb h2 hF]
  exact parse_frame n F t _ h2 hF (calculateCRC32_lt _) (by omega)

/-- The byte-level pipeline on a frame shorter than 2 GiB. -/
theorem bytePipeline_of_lt (n F : List Byte) (h1 : 1 ≤ n.length) (h2 : n.length ≤ 255)
    (hb : isBaseName n) (hF : 13 + n.length + F.length < 2 ^ 31) :
    ∃ r, bytePipeline n F = some r ∧ r.filename = n ∧ r.fileData = F
      ∧ r.storedCrc = r.calculatedCrc := by
  have hF32 : F.length < 2 ^ 32 := by omega
  have hlen : (createDataPacket n F).length < 2 ^ 31 := by
    rw [createDataPacket_length, extractFileName_of_isBaseName n hb]; omega
  obtain ⟨e, he, _, hdec⟩ := decode_encode_of_lt (createDataPacket n F) hlen
  have hp := parse_createDataPacket_append n F
    (List.replicate ((223 - (createDataPacket n F).length % 223) % 223) 0) h1 h2 hb hF32
  rw [← hdec] at hp
  have hfin : bytePipeline n F = parseDataPacket (decode e) := by
    unfold bytePipeline
    rw [he]
    rfl
  rw [hp] at hfin
  exact ⟨_, hfin, rfl, rfl, rfl⟩

theorem isBaseName_x : isBaseName [120] := by
  intro c hc
  have : c = 120 := by simpa using hc
  subst this
  decide

/-! ## Claims -/

/-- C3. Packet round trip: for a base name `n` of 1 to 255 characters without a path
separator and a payload `F` shorter than `2 ^ 32`, `parseDataPacket (createDataPacket n F)`
succeeds with `filename = n`, `fileData = F`, and the stored checksum equals the recomputed
one. -/
theorem parse_createDataPacket (n F : List Byte) (h1 : 1 ≤ n.length) (h2 : n.length ≤ 255)
    (hb : isBaseName n) (hF : F.length < 2 ^ 32) :
    ∃ r, parseDataPacket (createDataPacket n F) = some r ∧ r.filename = n ∧ r.fileData = F
      ∧ r.storedCrc = r.calculatedCrc := by
  have h := parse_createDataPacket_append n F [] h1 h2 hb hF
  rw [List.append_nil] at h
  exact ⟨_, h, rfl, rfl, rfl⟩

/-- C3 at the name `x` and the payload `01 02 03`. -/
theorem parse_createDataPacket_witness :
    ∃ r, parseDataPacket (createDataPacket [120] [1, 2, 3]) = some r ∧ r.filename = [120]
      ∧ r.fileData = [1, 2, 3] ∧ r.storedCrc = r.calculatedCrc :=
  parse_createDataPacket [120] [1, 2, 3] (by decide) (by decide) isBaseName_x (by decide)

/-- C9. Packet layout: for a base name `n` and a payload `F` shorter than `2 ^ 32`,
`createDataPacket n F` is the magic `A E D C`, one octet `min 255 |n|`, the first
`min 255 |n|` octets of `n`, `|F|` as four little-endian octets, `F`, and the little-endian
CRC32 of everything before; its length is `13 + min 255 |n| + |F|`, at least 14 when the
name is not empty. -/
theorem createDataPacket_layout (n F : List Byte) (hb : isBaseName n) (hF : F.length < 2 ^ 32) :
    createDataPacket n F =
        ([65, 69, 68, 67] ++ [toByte (min 255 n.length)] ++ n.take (min 255 n.length)
          ++ le32 F.length ++ F)
        ++ le32 (calculateCRC32 ([65, 69, 68, 67] ++ [toByte (min 255 n.length)]
          ++ n.take (min 255 n.length) ++ le32 F.length ++ F))
      ∧ (toByte (min 255 n.length)).val = min 255 n.length
      ∧ (createDataPacket n F).length = 13 + min 255 n.length + F.length
      ∧ (1 ≤ n.length → 14 ≤ (createDataPacket n F).length) := by
  have hu : u32 F.length = F.length := Nat.mod_eq_of_lt hF
  have he := extractFileName_of_isBaseName n hb
  have hl := createDataPacket_length n F
  rw [he] at hl
  refine ⟨?_, ?_, hl, ?_⟩
  · rw [packetBody_eq, he, hu]
  · rw [toByte_val]; omega
  · intro h1; omega

/-- C9 at the name `x` and the payload `01 02 03`. -/
theorem createDataPacket_layout_witness :
    createDataPacket [120] [1, 2, 3] =
        ([65, 69, 68, 67] ++ [toByte (min 255 [(120 : Byte)].length)]
          ++ [(120 : Byte)].take (min 255 [(120 : Byte)].length)
          ++ le32 [(1 : Byte), 2, 3].length ++ [1, 2, 3])
        ++ le32 (calculateCRC32 ([65, 69, 68, 67] ++ [toByte (min 255 [(120 : Byte)].length)]
          ++ [(120 : Byte)].take (min 255 [(120 : Byte)].length)
          ++ le32 [(1 : Byte), 2, 3].length ++ [1, 2, 3]))
      ∧ (toByte (min 255 [(120 : Byte)].length)).val = min 255 [(120 : Byte)].length
      ∧ (createDataPacket [120] [1, 2, 3]).length
          = 13 + min 255 [(120 : Byte)].length + [(1 : Byte), 2, 3].length
      ∧ (1 ≤ [(120 : Byte)].length → 14 ≤ (createDataPacket [120] [1, 2, 3]).length) :=
  createDataPacket_layout [120] [1, 2, 3] isBaseName_x (by decide)

theorem sizeT_of_lt (x : Nat) (h : x < 2 ^ 64) : sizeT x = x := Nat.mod_eq_of_lt h

theorem readU32_eq_leU32At (p : List Byte) (pos : Nat) : readU32 p pos = leU32At p pos :=
  readU32_eq p pos

theorem leU32At_lt (p : List Byte) (pos : Nat) : leU32At p pos < 2 ^ 32 := by
  have h0 := (p.getD pos 0).isLt
  have h1 := (p.getD (pos + 1) 0).isLt
  have h2 := (p.getD (pos + 2) 0).isLt
  have h3 := (p.getD (pos + 3) 0).isLt
  unfold leU32At
  omega

theorem magic_iff (p : List Byte) (h : 4 ≤ p.length) :
    (p.getD 0 0 ≠ 65 ∨ p.getD 1 0 ≠ 69 ∨ p.getD 2 0 ≠ 68 ∨ p.getD 3 0 ≠ 67)
      ↔ p.take 4 ≠ [65, 69, 68, 67] := by
  match p, h with
  | a :: b :: c :: d :: rest, _ =>
    simp only [List.getD_cons_zero, List.getD_cons_succ, List.take_succ_cons, List.take_zero,
      ne_eq, List.cons.injEq, and_true]
    tauto

/-- C10. Parser hard failures: `parseDataPacket p` returns failure exactly when `p` has
fewer than 14 octets, or does not start with `A E D C`, or `9 + name_len` exceeds `|p|`,
or `13 + name_len + data_len` exceeds `|p|`, with `name_len = p[4]` and `data_len` the
little-endian 32-bit value after the name; otherwise (a checksum mismatch included) it
returns success. -/
theorem parseDataPacket_none_iff (p : List Byte) :
    parseDataPacket p = none ↔
      (p.length < 14 ∨ p.take 4 ≠ [65, 69, 68, 67]
        ∨ 9 + (p.getD 4 0).val > p.length
        ∨ 13 + (p.getD 4 0).val + leU32At p (5 + (p.getD 4 0).val) > p.length) := by
  have hnl := (p.getD 4 0).isLt
  have hdl := leU32At_lt p (5 + (p.getD 4 0).val)
  unfold parseDataPacket
  by_cases hlen : p.length < 14
  · simp [hlen]
  · rw [if_neg hlen]
    have hm := magic_iff p (by omega)
    by_cases hmag : (p.getD 0 0 ≠ 65 ∨ p.getD 1 0 ≠ 69 ∨ p.getD 2 0 ≠ 68 ∨ p.getD 3 0 ≠ 67)
    · rw [if_pos hmag]
      simp only [true_iff]
      exact Or.inr (Or.inl (hm.mp hmag))
    · rw [if_neg hmag]
      have hmag2 : ¬ p.take 4 ≠ [65, 69, 68, 67] := fun h => hmag (hm.mpr h)
      dsimp only
      rw [sizeT_of_lt (4 + 1 + (p.getD 4 0).val + 4) (by omega)]
      by_cases h3 : 4 + 1 + (p.getD 4 0).val + 4 > p.length
      · rw [if_pos h3]
        simp only [true_iff]
        exact Or.inr (Or.inr (Or.inl (by omega)))
      · rw [if_neg h3, readU32_eq_leU32At]
        have e5 : 4 + 1 + (p.getD 4 0).val = 5 + (p.getD 4 0).val := by omega
        rw [e5] at *
        rw [sizeT_of_lt (5 + (p.getD 4 0).val + 4 + leU32At p (5 + (p.getD 4 0).val) + 4)
          (by omega)]
        by_cases h4 : 5 + (p.getD 4 0).val + 4 + leU32At p (5 + (p.getD 4 0).val) + 4 > p.length
        · rw [if_pos h4]
          simp only [true_iff]
          exact Or.inr (Or.inr (Or.inr (by omega)))
        · rw [if_neg h4]
          simp only [reduceCtorEq, false_iff, not_or]
          exact ⟨hlen, hmag2, by omega, by omega⟩

theorem crcBit_eq (c : Nat) (h : c < 2 ^ 32) : crcBit c = crc32RefBit c ∧ crcBit c < 2 ^ 32 := by
  unfold crcBit crc32RefBit
  rw [Nat.and_one_is_mod, Nat.shiftRight_eq_div_pow, Nat.pow_one]
  have hx : (c / 2) ^^^ 0xEDB88320 < 2 ^ 32 :=
    Nat.xor_lt_two_pow (by omega) (by norm_num)
  by_cases hb : c % 2 = 1
  · have hb2 : c % 2 ≠ 0 := by omega
    rw [if_pos hb2, if_pos hb]
    unfold u32
    rw [Nat.mod_eq_of_lt hx]
    exact ⟨rfl, hx⟩
  · have hb2 : ¬ c % 2 ≠ 0 := by omega
    rw [if_neg hb2, if_neg hb]
    exact ⟨rfl, by omega⟩

theorem crcBit_iterate (k : Nat) (c : Nat) (h : c < 2 ^ 32) :
    crcBit^[k] c = crc32RefBit^[k] c ∧ crcBit^[k] c < 2 ^ 32 := by
  induction k with
  | zero => exact ⟨rfl, h⟩
  | succ k ih =>
    rw [Function.iterate_succ_apply', Function.iterate_succ_apply', ← ih.1]
    exact crcBit_eq _ ih.2

theorem crcByte_eq (c : Nat) (b : Byte) (h : c < 2 ^ 32) :
    crcByte c b = crc32RefBit^[8] (c ^^^ b.val) ∧ crcByte c b < 2 ^ 32 := by
  have hb : b.val < 2 ^ 32 := by have := b.isLt; omega
  have hx : c ^^^ b.val < 2 ^ 32 := Nat.xor_lt_two_pow h hb
  have hfold : crcByte c b = crcBit^[8] (u32 (c ^^^ b.val)) := rfl
  rw [hfold, u32, Nat.mod_eq_of_lt hx]
  exact crcBit_iterate 8 _ hx

theorem crcLoop_eq (data : List Byte) (c : Nat) (h : c < 2 ^ 32) :
    data.foldl crcByte c = data.foldl (fun c b => crc32RefBit^[8] (c ^^^ b.val)) c
      ∧ data.foldl crcByte c < 2 ^ 32 := by
  induction data generalizing c with
  | nil => exact ⟨rfl, h⟩
  | cons b data ih =>
    simp only [List.foldl_cons]
    rw [← (crcByte_eq c b h).1]
    exact ih _ (crcByte_eq c b h).2

theorem not32_eq_xor (c : Nat) (h : c < 2 ^ 32) : u32 (0xFFFFFFFF - c) = c ^^^ 0xFFFFFFFF := by
  unfold u32
  rw [Nat.mod_eq_of_lt (by omega)]
  apply Nat.eq_of_testBit_eq
  intro i
  have e1 : 0xFFFFFFFF - c = 2 ^ 32 - (c + 1) := by omega
  have e2 : (0xFFFFFFFF : Nat) = 2 ^ 32 - 1 := by norm_num
  rw [e1, Nat.testBit_two_pow_sub_succ h, Nat.testBit_xor, e2, Nat.testBit_two_pow_sub_one]
  by_cases hi : i < 32
  · simp [hi]
  · have hc : c.testBit i = false :=
      Nat.testBit_lt_two_pow (Nat.lt_of_lt_of_le h (Nat.pow_le_pow_right (by decide) (by omega)))
    simp [hi, hc]

theorem calculateCRC32_eq_ref (data : List Byte) : calculateCRC32 data = crc32Ref data := by
  have h := crcLoop_eq data 0xFFFFFFFF (by norm_num)
  unfold calculateCRC32 crc32Ref
  rw [not32_eq_xor _ h.2, h.1]

set_option maxRecDepth 100000 in
/-- C8. CRC32 known answers: the checksum of the empty sequence is `0x00000000`, of the
ASCII octets `123456789` it is `0xCBF43926`, of the single octet `a` it is `0xE8B7BE43`;
on every input the function is the bit-serial IEEE 802.3 CRC-32 (reflected polynomial
`0xEDB88320`, initial register and final exclusive or `0xFFFFFFFF`) and fits in 32 bits. -/
theorem calculateCRC32_known_answers :
    calculateCRC32 [] = 0x00000000
      ∧ calculateCRC32 [49, 50, 51, 52, 53, 54, 55, 56, 57] = 0xCBF43926
      ∧ calculateCRC32 [97] = 0xE8B7BE43
      ∧ ∀ data, calculateCRC32 data = crc32Ref data ∧ calculateCRC32 data < 2 ^ 32 :=
  ⟨by decide, by decide, by decide, fun data => ⟨calculateCRC32_eq_ref data, calculateCRC32_lt data⟩⟩

/-- C7. Reed-Solomon encoding is systematic: for a 223-octet block `m`, `rsEncode m 32` has
255 octets and starts with `m`; for a message `msg` of any length the output has
`|msg| + nsym` octets and starts with `msg`. -/
theorem rsEncode_systematic (m : List Byte) (hm : m.length = 223) (msg : List Byte)
    (nsym : Nat) :
    (rsEncode m 32).length = 255 ∧ (rsEncode m 32).take 223 = m
      ∧ (rsEncode msg nsym).length = msg.length + nsym
      ∧ (rsEncode msg nsym).take msg.length = msg := by
  refine ⟨?_, ?_, rsEncode_length msg nsym, rsEncode_take msg nsym⟩
  · rw [rsEncode_length, hm]
  · have := rsEncode_take m 32
    rw [hm] at this
    exact this

/-- C7 at the all-zero block and at the message `01 02 03` with four parity octets. -/
theorem rsEncode_systematic_witness :
    (rsEncode (List.replicate 223 0) 32).length = 255
      ∧ (rsEncode (List.replicate 223 0) 32).take 223 = List.replicate 223 0
      ∧ (rsEncode [1, 2, 3] 4).length = [(1 : Byte), 2, 3].length + 4
      ∧ (rsEncode [1, 2, 3] 4).take [(1 : Byte), 2, 3].length = [1, 2, 3] :=
  rsEncode_systematic (List.replicate 223 0) (List.length_replicate 223 0) [1, 2, 3] 4

/-- The accept criterion of `rsDecode` on a block of 255 octets with 32 parity octets. -/
theorem rsDecode_block (r : List Byte) (h : r.length = 255) :
    rsDecode r 32 =
      if diffCount (rsEncode (r.take 223) 32) r ≤ 16 then r.take 223 else [] := by
  have := rsDecode_eq r 32 (by omega)
  rw [h] at this
  exact this

/-- C6. Block accept criterion: for a 255-octet block `r`, `rsDecode r 32` is the first 223
octets of `r` when the re-encoding of those octets differs from `r` in at most 16
positions, and the empty vector otherwise. -/
theorem rsDecode_accept_criterion (r : List Byte) (h : r.length = 255) :
    rsDecode r 32 =
      if diffCount (rsEncode (r.take 223) 32) r ≤ 16 then r.take 223 else [] := by
  have := rsDecode_eq r 32 (by omega)
  rw [h] at this
  exact this

/-- C6 at the all-zero block. -/
theorem rsDecode_accept_criterion_witness :
    rsDecode (List.replicate 255 0) 32 =
      if diffCount (rsEncode ((List.replicate 255 (0 : Byte)).take 223) 32)
          (List.replicate 255 0) ≤ 16
      then (List.replicate 255 (0 : Byte)).take 223 else [] :=
  rsDecode_accept_criterion (List.replicate 255 0) (List.length_replicate 255 0)

/-- C5, at the failing input. The all-zero block `m` encodes to the all-zero code word; the
received block `r` is that code word with its first octet changed to `01`, one flipped
position out of the sixteen allowed, and `rsDecode r 32` is not `m`: the decoder only
re-encodes and compares, it repairs nothing. -/
theorem rsDecode_single_flip_not_corrected :
    (List.replicate 223 (0 : Byte)).length = 223
      ∧ ((1 : Byte) :: List.replicate 254 0).length = 255
      ∧ rsEncode (List.replicate 223 0) 32 = List.replicate 255 0
      ∧ diffCount (1 :: List.replicate 254 0) (rsEncode (List.replicate 223 0) 32) = 1
      ∧ rsDecode (1 :: List.replicate 254 0) 32 ≠ List.replicate 223 0 := by
  have henc : rsEncode (List.replicate 223 (0 : Byte)) 32 = List.replicate 255 0 :=
    rsEncode_zero 223 32
  have hr : ((1 : Byte) :: List.replicate 254 0).length = 255 := by
    rw [List.length_cons, List.length_replicate]
  refine ⟨List.length_replicate _ _, hr, henc, ?_, ?_⟩
  · rw [henc]
    have e : List.replicate 255 (0 : Byte) = 0 :: List.replicate 254 0 := rfl
    rw [e, diffCount_cons, diffCount_self]
    decide
  · rw [rsDecode_block _ hr]
    have e1 : ((1 : Byte) :: List.replicate 254 0).take 223
        = 1 :: (List.replicate 254 0).take 222 := rfl
    have e2 : List.replicate 223 (0 : Byte) = 0 :: List.replicate 222 0 := rfl
    split
    · intro hEq
      rw [e1, e2] at hEq
      exact absurd (List.cons.inj hEq).1 (by decide)
    · intro hEq
      have h0 := congrArg List.length hEq
      rw [List.length_replicate, List.length_nil] at h0
      omega

/-- C4, at the failing input. On a data vector of `2 ^ 31` octets the block size
`std::min(223, (int)(data.size() - i))` of the first iteration is negative, so
`ErrorCorrection::encode` does not return an encoding, and nothing can be decoded back. -/
theorem encode_fails_at_2GiB :
    (List.replicate (2 ^ 31) (0 : Byte)).length = 2 ^ 31
      ∧ toInt32 ((List.replicate (2 ^ 31) (0 : Byte)).length - 0) = -2147483648
      ∧ encode (List.replicate (2 ^ 31) 0) = none := by
  refine ⟨List.length_replicate _ _, ?_, ?_⟩
  · rw [List.length_replicate]
    decide
  · exact encode_none_of_ge _ (by rw [List.length_replicate]) (by rw [List.length_replicate]; norm_num)

/-- C2, at the failing input. For the name `x` and a payload of `2 ^ 31` zero octets (below
the claimed bound `2 ^ 32`) the frame has `2 ^ 31 + 14` octets, the `(int)` cast in
`ErrorCorrection::encode` is negative, and the pipeline delivers nothing. For the name `x`
and the empty payload the frame has 14 octets, its encoding is one block of 255 octets, and
the pipeline delivers the name `x` and the empty payload. -/
theorem bytePipeline_fails_at_2GiB :
    (List.replicate (2 ^ 31) (0 : Byte)).length < 2 ^ 32
      ∧ (createDataPacket [120] (List.replicate (2 ^ 31) 0)).length = 2 ^ 31 + 14
      ∧ bytePipeline [120] (List.replicate (2 ^ 31) 0) = none
      ∧ (createDataPacket [120] []).length = 14
      ∧ (∃ e, encode (createDataPacket [120] []) = some e ∧ e.length = 255)
      ∧ (∃ r, bytePipeline [120] [] = some r ∧ r.filename = [120] ∧ r.fileData = []
          ∧ r.storedCrc = r.calculatedCrc) := by
  have hx : extractFileName [120] = [120] := extractFileName_of_isBaseName _ isBaseName_x
  have hlen : (createDataPacket [120] (List.replicate (2 ^ 31) 0)).length = 2 ^ 31 + 14 := by
    rw [createDataPacket_length, hx, List.length_replicate]
    rfl
  have hlen0 : (createDataPacket [120] []).length = 14 := by
    rw [createDataPacket_length, hx]
    rfl
  refine ⟨by rw [List.length_replicate]; norm_num, hlen, ?_, hlen0, ?_, ?_⟩
  · unfold bytePipeline
    rw [encode_none_of_ge _ (by omega) (by omega)]
    rfl
  · obtain ⟨e, he, hel, _⟩ := decode_encode_of_lt (createDataPacket [120] []) (by omega)
    exact ⟨e, he, by rw [hel, hlen0]⟩
  · exact bytePipeline_of_lt [120] [] (by decide) (by decide) isBaseName_x (by decide)

/-! ## The GF(256) tables -/

set_option maxRecDepth 1000000 in
theorem gf_exp_eq : gf_exp = expTable := by decide!

set_option maxRecDepth 1000000 in
theorem gf_log_eq : gf_log = logTable := by decide!

theorem gfMul_table (a b : Byte) :
    gfMul a b = if a = 0 ∨ b = 0 then 0
      else expTable.getD ((logTable.getD a.val 0).val + (logTable.getD b.val 0).val) 0 := by
  unfold gfMul
  rw [gf_exp_eq, gf_log_eq]

theorem gfDiv_table (a b : Byte) :
    gfDiv a b = if a = 0 then 0 else if b = 0 then 0
      else expTable.getD (((logTable.getD a.val 0).val + 255 - (logTable.getD b.val 0).val) % 255) 0 := by
  unfold gfDiv
  rw [gf_exp_eq, gf_log_eq]

set_option maxRecDepth 1000000 in
theorem exp_log_table : ∀ a : Byte, a ≠ 0 → expTable.getD (logTable.getD a.val 0).val 0 = a := by
  decide!

set_option maxRecDepth 1000000 in
theorem log_exp_table : ∀ i : Fin 255, (logTable.getD (expTable.getD i.val 0).val 0).val = i.val := by
  decide!

set_option maxRecDepth 1000000 in
theorem exp_period_table : ∀ i : Fin 255, expTable.getD (i.val + 255) 0 = expTable.getD i.val 0 := by
  decide!

set_option maxRecDepth 1000000 in
theorem exp_double_table :
    ∀ i : Fin 254, expTable.getD (i.val + 1) 0 = gfDouble (expTable.getD i.val 0) := by
  decide!

set_option maxRecDepth 1000000 in
theorem exp_ne_zero_table : ∀ i : Fin 255, expTable.getD i.val 0 ≠ 0 := by
  decide!

set_option maxRecDepth 1000000 in
theorem mul_inv_table : ∀ a : Byte, a ≠ 0 →
    (if a = 0 ∨ (if (1 : Byte) = 0 then (0 : Byte) else if a = 0 then 0
        else expTable.getD (((logTable.getD (1 : Byte).val 0).val + 255
          - (logTable.getD a.val 0).val) % 255) 0) = 0 then (0 : Byte)
      else expTable.getD ((logTable.getD a.val 0).val
        + (logTable.getD (if (1 : Byte) = 0 then (0 : Byte) else if a = 0 then 0
            else expTable.getD (((logTable.getD (1 : Byte).val 0).val + 255
              - (logTable.getD a.val 0).val) % 255) 0).val 0).val) 0) = 1 := by
  decide!

theorem gfMul_comm (a b : Byte) : gfMul a b = gfMul b a := by
  unfold gfMul
  rw [Nat.add_comm]
  by_cases h : a = 0 ∨ b = 0
  · rw [if_pos h, if_pos (Or.symm h)]
  · rw [if_neg h, if_neg (fun h2 => h (Or.symm h2))]

theorem gfMul_zero (a : Byte) : gfMul a 0 = 0 := by
  unfold gfMul
  rw [if_pos (Or.inr rfl)]

theorem gfMul_one (a : Byte) : gfMul a 1 = a := by
  rw [gfMul_table]
  by_cases h : a = 0
  · rw [if_pos (Or.inl h), h]
  · have h1 : ¬ (a = 0 ∨ (1 : Byte) = 0) := by
      intro hh
      rcases hh with hh | hh
      · exact h hh
      · exact absurd hh (by decide)
    have hl : (logTable.getD (1 : Byte).val 0).val = 0 := by decide
    rw [if_neg h1, hl, Nat.add_zero]
    exact exp_log_table a h

/-- C16. GF(256) multiplication identities: for all octets `a` and `b`,
`gfMul a b = gfMul b a`, `gfMul a 1 = a` and `gfMul a 0 = 0`. -/
theorem gfMul_identities (a b : Byte) :
    gfMul a b = gfMul b a ∧ gfMul a 1 = a ∧ gfMul a 0 = 0 :=
  ⟨gfMul_comm a b, gfMul_one a, gfMul_zero a⟩

theorem gfMul_gfDiv_one (a : Byte) (ha : a ≠ 0) : gfMul a (gfDiv 1 a) = 1 := by
  rw [gfMul_table, gfDiv_table]
  exact mul_inv_table a ha

/-- C17. GF(256) inverse: for a non-zero octet `a`, `gfMul a (gfDiv 1 a) = 1`; and
`gfDiv b c = 0` whenever `b = 0` or `c = 0`. -/
theorem gfDiv_inverse (a b c : Byte) (ha : a ≠ 0) (hbc : b = 0 ∨ c = 0) :
    gfMul a (gfDiv 1 a) = 1 ∧ gfDiv b c = 0 := by
  refine ⟨gfMul_gfDiv_one a ha, ?_⟩
  unfold gfDiv
  by_cases hb : b = 0
  · rw [if_pos hb]
  · rw [if_neg hb]
    have hc : c = 0 := by tauto
    rw [if_pos hc]

/-- C17 at `a = 2` and at the division of `5` by `0`. -/
theorem gfDiv_inverse_witness : gfMul 2 (gfDiv 1 2) = 1 ∧ gfDiv 5 0 = 0 :=
  gfDiv_inverse 2 5 0 (by decide) (Or.inr rfl)

/-- C18. Log and exp tables are mutually inverse: after `initGaloisField`,
`gf_log[gf_exp[i]] = i` for `i` in `[0, 254]`, `gf_exp[gf_log[a]] = a` for every non-zero
octet `a`, and `gf_exp[i + 255] = gf_exp[i]` for `i` in `[0, 254]`; the entries
`gf_exp[0 .. 254]` are the successive powers of `alpha = 2` modulo `0x11D`, none of them
zero. -/
theorem tables_inverse (i : Nat) (hi : i ≤ 254) (a : Byte) (ha : a ≠ 0) :
    (gf_log.getD (gf_exp.getD i 0).val 0).val = i
      ∧ gf_exp.getD (gf_log.getD a.val 0).val 0 = a
      ∧ gf_exp.getD (i + 255) 0 = gf_exp.getD i 0
      ∧ gf_exp.getD 0 0 = 1
      ∧ (i < 254 → gf_exp.getD (i + 1) 0 = gfDouble (gf_exp.getD i 0))
      ∧ gf_exp.getD i 0 ≠ 0 := by
  rw [gf_exp_eq, gf_log_eq]
  have hi2 : i < 255 := by omega
  refine ⟨log_exp_table ⟨i, hi2⟩, exp_log_table a ha, exp_period_table ⟨i, hi2⟩, by decide, ?_,
    exp_ne_zero_table ⟨i, hi2⟩⟩
  intro h
  exact exp_double_table ⟨i, h⟩

/-- C18 at `i = 8` and `a = 29`. -/
theorem tables_inverse_witness :
    (gf_log.getD (gf_exp.getD 8 0).val 0).val = 8
      ∧ gf_exp.getD (gf_log.getD (29 : Byte).val 0).val 0 = 29
      ∧ gf_exp.getD (8 + 255) 0 = gf_exp.getD 8 0
      ∧ gf_exp.getD 0 0 = 1
      ∧ (8 < 254 → gf_exp.getD (8 + 1) 0 = gfDouble (gf_exp.getD 8 0))
      ∧ gf_exp.getD 8 0 ≠ 0 :=
  tables_inverse 8 (by decide) 29 (by decide)

set_option maxRecDepth 1000000 in
set_option maxHeartbeats 2000000 in
theorem rsGeneratorPoly_32 : rsGeneratorPoly 32 = genTable := by
  unfold rsGeneratorPoly gfPolyMul
  simp only [gfMul_table, gf_exp_eq]
  decide!

theorem polyEval_table (p : List Byte) (x : Byte) :
    polyEval p x = p.foldl (fun acc c => bxor
      (if acc = 0 ∨ x = 0 then 0
        else expTable.getD ((logTable.getD acc.val 0).val + (logTable.getD x.val 0).val) 0) c) 0 := by
  unfold polyEval
  simp only [gfMul_table]

set_option maxRecDepth 1000000 in
set_option maxHeartbeats 2000000 in
theorem genTable_roots : ∀ i : Fin 32,
    genTable.foldl (fun acc c => bxor
      (if acc = 0 ∨ expTable.getD i.val 0 = 0 then 0
        else expTable.getD ((logTable.getD acc.val 0).val
          + (logTable.getD (expTable.getD i.val 0).val 0).val) 0) c) 0 = 0 := by
  decide!

set_option maxRecDepth 1000000 in
theorem exp_distinct_table : ∀ i j : Fin 32,
    expTable.getD i.val 0 = expTable.getD j.val 0 → i = j := by
  decide!

/-- C20. Generator polynomial: `rsGeneratorPoly 32` has exactly 33 coefficients, its leading
coefficient is 1, and its value (Horner's rule with `gfMul` and exclusive or) at
`alpha ^ i = gf_exp[i]` is 0 for every `i` in `[0, 31]`; these 32 roots are pairwise
distinct, so the polynomial is the product of the 32 factors `x - alpha ^ i`. -/
theorem rsGeneratorPoly_roots (i : Nat) (hi : i < 32) :
    (rsGeneratorPoly 32).length = 33
      ∧ (rsGeneratorPoly 32).head? = some 1
      ∧ polyEval (rsGeneratorPoly 32) (gf_exp.getD i 0) = 0
      ∧ ∀ j, j < 32 → gf_exp.getD i 0 = gf_exp.getD j 0 → i = j := by
  rw [rsGeneratorPoly_32, polyEval_table, gf_exp_eq]
  refine ⟨rfl, rfl, genTable_roots ⟨i, hi⟩, ?_⟩
  intro j hj h
  have := exp_distinct_table ⟨i, hi⟩ ⟨j, hj⟩ h
  exact congrArg Fin.val this

/-- C20 at `i = 5`. -/
theorem rsGeneratorPoly_roots_witness :
    (rsGeneratorPoly 32).length = 33
      ∧ (rsGeneratorPoly 32).head? = some 1
      ∧ polyEval (rsGeneratorPoly 32) (gf_exp.getD 5 0) = 0
      ∧ ∀ j, j < 32 → gf_exp.getD 5 0 = gf_exp.getD j 0 → 5 = j :=
  rsGeneratorPoly_roots 5 (by decide)

theorem findLastOf_append_singleton (l cs : List Byte) (a : Byte) :
    findLastOf (l ++ [a]) cs = if a ∈ cs then some l.length else findLastOf l cs := by
  unfold findLastOf
  rw [List.length_append, List.length_singleton, List.range_succ, List.foldl_append]
  have hlast : (l ++ [a]).getD l.length 0 = a := by
    have := getD_append_add l [a] 0
    rw [Nat.add_zero] at this
    rw [this]; rfl
  have hpre : ∀ (is : List Nat), (∀ i ∈ is, i < l.length) → ∀ r0 : Option Nat,
      is.foldl (fun r i => if (l ++ [a]).getD i 0 ∈ cs then some i else r) r0
        = is.foldl (fun r i => if l.getD i 0 ∈ cs then some i else r) r0 := by
    intro is
    induction is with
    | nil => intro _ _; rfl
    | cons i is ih =>
      intro h r0
      have hi : i < l.length := h i (List.mem_cons_self _ _)
      have hg : (l ++ [a]).getD i 0 = l.getD i 0 := by
        rw [List.getD_eq_getElem?_getD, List.getD_eq_getElem?_getD, List.getElem?_append_left hi]
      simp only [List.foldl_cons, hg]
      exact ih (fun j hj => h j (List.mem_cons_of_mem _ hj)) _
  rw [hpre _ (fun i hi => List.mem_range.mp hi)]
  simp only [List.foldl_cons, List.foldl_nil, hlast]

theorem findLastOf_lt (l cs : List Byte) (k : Nat) (h : findLastOf l cs = some k) :
    k < l.length := by
  induction l using List.reverseRecOn generalizing k with
  | nil => simp [findLastOf] at h
  | append_singleton l a ih =>
    rw [findLastOf_append_singleton] at h
    rw [List.length_append, List.length_singleton]
    split at h
    · have : l.length = k := by simpa using h
      omega
    · have := ih k h
      omega

theorem afterLastSeparator_append_singleton (l : List Byte) (a : Byte) :
    afterLastSeparator (l ++ [a])
      = if a ≠ 47 ∧ a ≠ 92 then afterLastSeparator l ++ [a] else [] := by
  unfold afterLastSeparator
  rw [List.reverse_append, List.reverse_singleton, List.singleton_append, List.takeWhile_cons]
  by_cases h : a ≠ 47 ∧ a ≠ 92
  · simp [h]
  · simp [h]

/-- The source `extractFileName` returns the part of the path after its last separator. -/
theorem extractFileName_eq (path : List Byte) :
    extractFileName path = afterLastSeparator path := by
  induction path using List.reverseRecOn with
  | nil => rfl
  | append_singleton l a ih =>
    rw [afterLastSeparator_append_singleton]
    unfold extractFileName at ih ⊢
    rw [findLastOf_append_singleton]
    by_cases hsep : a ∈ [(47 : Byte), 92]
    · have hn : ¬ (a ≠ 47 ∧ a ≠ 92) := by
        simp at hsep
        tauto
      rw [if_pos hsep, if_neg hn]
      simp
    · have hn : a ≠ 47 ∧ a ≠ 92 := by
        simp at hsep
        tauto
      rw [if_neg hsep, if_pos hn, ← ih]
      cases hf : findLastOf l [47, 92] with
      | none => rfl
      | some k =>
        have hk := findLastOf_lt l _ k hf
        simp only
        rw [List.drop_append_of_le_length (by omega)]

theorem afterLastSeparator_isBaseName (path : List Byte) : isBaseName (afterLastSeparator path) := by
  intro c hc
  unfold afterLastSeparator at hc
  rw [List.mem_reverse] at hc
  have := List.mem_takeWhile_imp hc
  simpa using this

theorem afterLastSeparator_suffix (path : List Byte) :
    ∃ pre, path = pre ++ afterLastSeparator path
      ∧ (pre = [] ∨ ∃ q, pre = q ++ [47] ∨ pre = q ++ [92]) := by
  induction path using List.reverseRecOn with
  | nil => exact ⟨[], rfl, Or.inl rfl⟩
  | append_singleton l a ih =>
    rw [afterLastSeparator_append_singleton]
    by_cases h : a ≠ 47 ∧ a ≠ 92
    · rw [if_pos h]
      obtain ⟨pre, hp, hq⟩ := ih
      refine ⟨pre, ?_, hq⟩
      rw [← List.append_assoc, ← hp]
    · rw [if_neg h]
      refine ⟨l ++ [a], by simp, Or.inr ⟨l, ?_⟩⟩
      by_cases h47 : a = 47
      · left; rw [h47]
      · right
        have : a = 92 := by
          by_contra h92
          exact h ⟨h47, h92⟩
        rw [this]

/-- C19. Packet filename is a base name: for every path and payload, the filename field of
`createDataPacket path F` (the `name_len` octets after offset 5) is the first
`min 255 |b|` octets of `b`, where `b` is the part of `path` after its last `/` or `\`
(the whole path when it has neither); the field holds no `/` and no `\`. -/
theorem createDataPacket_filename (path F : List Byte) :
    ((createDataPacket path F).drop 5).take ((createDataPacket path F).getD 4 0).val
        = (afterLastSeparator path).take 255
      ∧ ((createDataPacket path F).getD 4 0).val = min 255 (afterLastSeparator path).length
      ∧ isBaseName (((createDataPacket path F).drop 5).take
          ((createDataPacket path F).getD 4 0).val)
      ∧ (isBaseName path → afterLastSeparator path = path)
      ∧ (∃ pre, path = pre ++ afterLastSeparator path
          ∧ (pre = [] ∨ ∃ q, pre = q ++ [47] ∨ pre = q ++ [92])) := by
  have hlen : ((createDataPacket path F).getD 4 0).val = min 255 (afterLastSeparator path).length := by
    rw [packetBody_eq, extractFileName_eq]
    simp only [List.append_assoc, List.cons_append, List.nil_append, List.getD_cons_zero,
      List.getD_cons_succ, toByte_val]
    omega
  have hfield : ((createDataPacket path F).drop 5).take ((createDataPacket path F).getD 4 0).val
      = (afterLastSeparator path).take 255 := by
    rw [hlen, packetBody_eq, extractFileName_eq]
    simp only [List.append_assoc, List.cons_append, List.nil_append, List.drop_succ_cons,
      List.drop_zero]
    have hl : ((afterLastSeparator path).take (min 255 (afterLastSeparator path).length)).length
        = min 255 (afterLastSeparator path).length := by
      rw [List.length_take]; omega
    rw [List.take_left' hl]
    by_cases h : 255 ≤ (afterLastSeparator path).length
    · rw [Nat.min_eq_left h]
    · rw [Nat.min_eq_right (by omega), List.take_length, List.take_of_length_le (by omega)]
  refine ⟨hfield, hlen, ?_, ?_, afterLastSeparator_suffix path⟩
  · rw [hfield]
    intro c hc
    exact afterLastSeparator_isBaseName path c (List.mem_of_mem_take hc)
  · intro hb
    rw [← extractFileName_eq]
    exact extractFileName_of_isBaseName path hb

theorem blockAt_length (d : List Byte) (k : Nat) (h : k < d.length / 255) :
    (blockAt d k).length = 255 := by
  unfold blockAt
  rw [List.length_take, List.length_drop]
  have := Nat.div_mul_le_self d.length 255
  have : (k + 1) * 255 ≤ d.length / 255 * 255 := Nat.mul_le_mul_right 255 h
  omega

theorem keptPart_length (b : List Byte) (h : b.length = 255) :
    (keptPart b).length = 0 ∨ (keptPart b).length = 223 := by
  unfold keptPart
  split
  · right; rw [List.length_take, h]; rfl
  · left; rfl

theorem decodeLoop_spec (d : List Byte) (hd : d.length < 2 ^ 63) (n : Nat) :
    ∀ (k fuel : Nat) (acc : List Byte), k + n = d.length / 255 → n ≤ fuel →
      decodeLoop d fuel (255 * k) acc
        = acc ++ concatBlocks ((List.range' k n).map (fun k => keptPart (blockAt d k))) := by
  have hdiv := Nat.div_mul_le_self d.length 255
  have hlt := Nat.lt_div_mul_add (a := d.length) (b := 255) (by decide)
  induction n with
  | zero =>
    intro k fuel acc hk _
    simp only [List.range'_zero, List.map_nil, concatBlocks, List.append_nil]
    cases fuel with
    | zero => rfl
    | succ fuel =>
      unfold decodeLoop
      by_cases h : 255 * k < d.length
      · rw [if_pos h]
        have hs : sizeT (255 * k + 255) > d.length := by
          rw [sizeT_of_lt _ (by omega)]
          rw [Nat.add_zero] at hk
          rw [hk]
          omega
        rw [if_pos hs]
      · rw [if_neg h]
  | succ n ih =>
    intro k fuel acc hk hf
    cases fuel with
    | zero => omega
    | succ fuel =>
      have hkN : k < d.length / 255 := by omega
      have hb := blockAt_length d k hkN
      have hk1 : (k + 1) * 255 ≤ d.length / 255 * 255 := Nat.mul_le_mul_right 255 hkN
      have hi : 255 * k < d.length := by omega
      have hs : ¬ sizeT (255 * k + 255) > d.length := by
        rw [sizeT_of_lt _ (by omega)]
        omega
      unfold decodeLoop
      rw [if_pos hi, if_neg hs]
      dsimp only
      have hblock : (d.drop (255 * k)).take 255 = blockAt d k := rfl
      rw [hblock, rsDecode_block _ hb]
      have hkp : (if diffCount (rsEncode ((blockAt d k).take 223) 32) (blockAt d k) ≤ 16
          then (blockAt d k).take 223 else []) = keptPart (blockAt d k) := rfl
      rw [hkp]
      have hnext : 255 * k + 255 = 255 * (k + 1) := by omega
      have hstep : (if (keptPart (blockAt d k)).isEmpty = true
            then decodeLoop d fuel (255 * k + 255) acc
            else decodeLoop d fuel (255 * k + 255) (acc ++ keptPart (blockAt d k)))
          = decodeLoop d fuel (255 * (k + 1)) (acc ++ keptPart (blockAt d k)) := by
        rw [hnext]
        cases hkp2 : keptPart (blockAt d k) with
        | nil => simp
        | cons x xs => simp
      rw [hstep, ih (k + 1) fuel _ (by omega) (by omega)]
      rw [List.range'_succ, List.map_cons]
      simp only [concatBlocks, List.append_assoc]

theorem concatKept_length (d : List Byte) (l : List Nat) (h : ∀ k ∈ l, k < d.length / 255) :
    ∃ m, m ≤ l.length
      ∧ (concatBlocks (l.map (fun k => keptPart (blockAt d k)))).length = 223 * m := by
  induction l with
  | nil => exact ⟨0, Nat.le_refl _, rfl⟩
  | cons k l ih =>
    obtain ⟨m, hm, hl⟩ := ih (fun j hj => h j (List.mem_cons_of_mem _ hj))
    have hk := keptPart_length _ (blockAt_length d k (h k (List.mem_cons_self _ _)))
    simp only [List.map_cons, concatBlocks, List.length_append, List.length_cons]
    rcases hk with hk | hk
    · exact ⟨m, by omega, by rw [hk, hl]; omega⟩
    · exact ⟨m + 1, by omega, by rw [hk, hl]; omega⟩

/-- C12. Batch decode drops silently and keeps order: for a byte vector `d` (a
`std::vector` holds fewer than `2 ^ 63` octets), `decode d` is the concatenation, in block
order, of the first 223 octets of each complete 255-octet block of `d` that `rsDecode`
accepts; rejected blocks and a trailing partial block contribute nothing, and the output
length is a multiple of 223 not above `223 * floor(|d| / 255)`. -/
theorem decode_eq_decodeSpec (d : List Byte) (hd : d.length < 2 ^ 63) :
    decode d = decodeSpec d
      ∧ (∀ k, k < d.length / 255 → rsDecode (blockAt d k) 32 = keptPart (blockAt d k))
      ∧ ∃ m, m ≤ d.length / 255 ∧ (decode d).length = 223 * m := by
  have hdiv := Nat.div_mul_le_self d.length 255
  have hspec : decode d = decodeSpec d := by
    unfold decode decodeSpec
    have := decodeLoop_spec d hd (d.length / 255) 0 d.length [] (by omega) (by omega)
    rw [Nat.mul_zero, List.nil_append] at this
    rw [this, List.range_eq_range']
  refine ⟨hspec, ?_, ?_⟩
  · intro k hk
    exact rsDecode_block _ (blockAt_length d k hk)
  · rw [hspec]
    unfold decodeSpec
    obtain ⟨m, hm, hl⟩ := concatKept_length d (List.range (d.length / 255))
      (fun k hk => List.mem_range.mp hk)
    rw [List.length_range] at hm
    exact ⟨m, hm, hl⟩

set_option maxRecDepth 1000000 in
theorem flipBit_ne : ∀ (b : Byte) (k : Fin 8), flipBit b k.val ≠ b := by decide!

theorem crc32RefBit_injective (c c' : Nat) (h : c < 2 ^ 32) (h' : c' < 2 ^ 32)
    (he : crc32RefBit c = crc32RefBit c') : c = c' := by
  have hp : Nat.testBit 0xEDB88320 31 = true := by decide
  have hhi : ∀ x : Nat, x < 2 ^ 32 → (x / 2).testBit 31 = false := fun x hx =>
    Nat.testBit_lt_two_pow (by omega)
  have hmix : ∀ x y : Nat, x < 2 ^ 32 → y < 2 ^ 32 → (x / 2) ^^^ 0xEDB88320 ≠ y / 2 := by
    intro x y hx hy heq
    have h1 : ((x / 2) ^^^ 0xEDB88320).testBit 31 = true := by
      rw [Nat.testBit_xor, hhi x hx, hp]; rfl
    rw [heq, hhi y hy] at h1
    exact absurd h1 (by decide)
  unfold crc32RefBit at he
  by_cases hc : c % 2 = 1
  · by_cases hc' : c' % 2 = 1
    · rw [if_pos hc, if_pos hc'] at he
      have := Nat.xor_left_inj.mp he
      omega
    · rw [if_pos hc, if_neg hc'] at he
      exact absurd he (hmix c c' h h')
  · by_cases hc' : c' % 2 = 1
    · rw [if_neg hc, if_pos hc'] at he
      exact absurd he.symm (hmix c' c h' h)
    · rw [if_neg hc, if_neg hc'] at he
      omega

theorem crcBit_iterate_injective (k : Nat) (c c' : Nat) (h : c < 2 ^ 32) (h' : c' < 2 ^ 32)
    (he : crcBit^[k] c = crcBit^[k] c') : c = c' := by
  induction k with
  | zero => exact he
  | succ k ih =>
    rw [Function.iterate_succ_apply', Function.iterate_succ_apply'] at he
    have b1 := (crcBit_iterate k c h).2
    have b2 := (crcBit_iterate k c' h').2
    rw [(crcBit_eq _ b1).1, (crcBit_eq _ b2).1] at he
    exact ih (crc32RefBit_injective _ _ b1 b2 he)

theorem crcByte_eq_iterate (c : Nat) (b : Byte) : crcByte c b = crcBit^[8] (u32 (c ^^^ b.val)) := rfl

/-- Different registers stay different after one more octet. -/
theorem crcByte_ne_of_reg (c c' : Nat) (b : Byte) (h : c < 2 ^ 32) (h' : c' < 2 ^ 32)
    (hne : c ≠ c') : crcByte c b ≠ crcByte c' b := by
  have hb : b.val < 2 ^ 32 := by have := b.isLt; omega
  intro he
  rw [crcByte_eq_iterate, crcByte_eq_iterate] at he
  have hx := Nat.xor_lt_two_pow h hb
  have hx' := Nat.xor_lt_two_pow h' hb
  rw [u32, u32, Nat.mod_eq_of_lt hx, Nat.mod_eq_of_lt hx'] at he
  have := crcBit_iterate_injective 8 _ _ hx hx' he
  exact hne (Nat.xor_left_inj.mp this)

/-- Different octets give different registers. -/
theorem crcByte_ne_of_byte (c : Nat) (b b' : Byte) (h : c < 2 ^ 32) (hne : b ≠ b') :
    crcByte c b ≠ crcByte c b' := by
  have hb : b.val < 2 ^ 32 := by have := b.isLt; omega
  have hb' : b'.val < 2 ^ 32 := by have := b'.isLt; omega
  intro he
  rw [crcByte_eq_iterate, crcByte_eq_iterate] at he
  have hx := Nat.xor_lt_two_pow h hb
  have hx' := Nat.xor_lt_two_pow h hb'
  rw [u32, u32, Nat.mod_eq_of_lt hx, Nat.mod_eq_of_lt hx'] at he
  have := crcBit_iterate_injective 8 _ _ hx hx' he
  exact hne (Fin.ext (Nat.xor_right_inj.mp this))

theorem crcLoop_ne (l : List Byte) (c c' : Nat) (h : c < 2 ^ 32) (h' : c' < 2 ^ 32)
    (hne : c ≠ c') : l.foldl crcByte c ≠ l.foldl crcByte c' := by
  induction l generalizing c c' with
  | nil => exact hne
  | cons b l ih =>
    simp only [List.foldl_cons]
    exact ih _ _ (crcByte_eq c b h).2 (crcByte_eq c' b h').2 (crcByte_ne_of_reg c c' b h h' hne)

/-- The checksum changes whenever exactly one octet of the input changes. -/
theorem calculateCRC32_ne (pre post : List Byte) (x x' : Byte) (hne : x ≠ x') :
    calculateCRC32 (pre ++ x :: post) ≠ calculateCRC32 (pre ++ x' :: post) := by
  unfold calculateCRC32
  rw [List.foldl_append, List.foldl_append, List.foldl_cons, List.foldl_cons]
  have h0 := (crcLoop_eq pre 0xFFFFFFFF (by norm_num)).2
  have h1 := (crcByte_eq _ x h0).2
  have h2 := (crcByte_eq _ x' h0).2
  have hd := crcLoop_ne post _ _ h1 h2 (crcByte_ne_of_byte _ x x' h0 hne)
  have b1 := (crcLoop_eq post _ h1).2
  have b2 := (crcLoop_eq post _ h2).2
  unfold u32
  omega

/-- C11. CRC mismatch is detected but not fatal: for a valid name `n` and payload `F`, an
octet index `j` inside the payload and a bit `k` of that octet, the frame with that one bit
inverted parses successfully, the filename is `n`, the payload is `F` with that bit
inverted, and the stored checksum differs from the recomputed one. -/
theorem parse_flipped_payload_bit (n F : List Byte) (h1 : 1 ≤ n.length) (h2 : n.length ≤ 255)
    (hb : isBaseName n) (hF : F.length < 2 ^ 32) (j : Nat) (hj : j < F.length) (k : Nat)
    (hk : k < 8) :
    (createDataPacket n F).getD (9 + n.length + j) 0 = F.getD j 0
      ∧ ∃ r, parseDataPacket
            ((createDataPacket n F).set (9 + n.length + j) (flipBit (F.getD j 0) k)) = some r
          ∧ r.filename = n
          ∧ r.fileData = F.set j (flipBit (F.getD j 0) k)
          ∧ r.storedCrc ≠ r.calculatedCrc := by
  generalize hx' : flipBit (F.getD j 0) k = x'
  have hxne : F.getD j 0 ≠ x' := by
    rw [← hx']
    exact fun e => flipBit_ne (F.getD j 0) ⟨k, hk⟩ e.symm
  generalize hH : ([65, 69, 68, 67] ++ [toByte n.length] ++ n ++ le32 F.length : List Byte) = H
  have hHl : H.length = 9 + n.length := by
    rw [← hH]; simp [le32_length]; omega
  have hpk : createDataPacket n F = H ++ F ++ le32 (calculateCRC32 (H ++ F)) := by
    rw [createDataPacket_of_isBaseName n F hb h2 hF, hH]
  have hsplit : F = F.take j ++ F.getD j 0 :: F.drop (j + 1) := by
    rw [List.getD_eq_getElem _ _ hj]
    exact (List.take_append_drop j F).symm.trans (by rw [List.drop_eq_getElem_cons hj])
  have hset : F.set j x' = F.take j ++ x' :: F.drop (j + 1) := by
    rw [List.set_eq_take_append_cons_drop, if_pos hj]
  have hsetp : (createDataPacket n F).set (9 + n.length + j) x'
      = (H ++ F.set j x') ++ le32 (calculateCRC32 (H ++ F)) ++ [] := by
    rw [hpk, ← hHl, List.append_nil, List.append_assoc H F,
      List.set_append_right _ _ (by omega), Nat.add_sub_cancel_left,
      List.set_append_left _ _ hj, List.append_assoc]
  have hget : (createDataPacket n F).getD (9 + n.length + j) 0 = F.getD j 0 := by
    rw [hpk, ← hHl, List.append_assoc, getD_append_add,
      List.getD_eq_getElem?_getD, List.getD_eq_getElem?_getD, List.getElem?_append_left hj]
  have hFl : (F.set j x').length = F.length := List.length_set _ _ _
  have hparse := parse_frame n (F.set j x') [] (calculateCRC32 (H ++ F)) h2
    (by rw [hFl]; exact hF) (calculateCRC32_lt _) (by omega)
  rw [hFl, hH] at hparse
  rw [← hsetp] at hparse
  refine ⟨hget, _, hparse, rfl, rfl, ?_⟩
  show calculateCRC32 (H ++ F) ≠ calculateCRC32 (H ++ F.set j x')
  rw [hset]
  conv => lhs; rw [hsplit]
  rw [← List.append_assoc, ← List.append_assoc]
  exact calculateCRC32_ne _ _ _ _ hxne

/-- C11 at the name `x`, the payload `01 02 03`, octet 1, bit 0. -/
theorem parse_flipped_payload_bit_witness :
    (createDataPacket [120] [1, 2, 3]).getD (9 + [(120 : Byte)].length + 1) 0
        = [(1 : Byte), 2, 3].getD 1 0
      ∧ ∃ r, parseDataPacket ((createDataPacket [120] [1, 2, 3]).set
              (9 + [(120 : Byte)].length + 1) (flipBit ([(1 : Byte), 2, 3].getD 1 0) 0)) = some r
          ∧ r.filename = [120]
          ∧ r.fileData = [(1 : Byte), 2, 3].set 1 (flipBit ([(1 : Byte), 2, 3].getD 1 0) 0)
          ∧ r.storedCrc ≠ r.calculatedCrc :=
  parse_flipped_payload_bit [120] [1, 2, 3] (by decide) (by decide) isBaseName_x (by decide)
    1 (by decide) 0 (by decide)

theorem toInt16_small (lo : Byte) (h : lo.val < 128) : toInt16 lo 0 = (lo.val : Int) := by
  unfold toInt16
  have : lo.val + 256 * (0 : Byte).val = lo.val := by simp
  rw [this, if_pos (by omega)]

theorem wavRead_failure_of_format (header : WavHeader) (body : List Byte)
    (hf : header.audioFormat.val ≠ 1) : wavRead header body = ReadResult.failure := by
  unfold wavRead
  split
  · rfl
  · rfl

/-- With valid tags and PCM format the sample count is computed first: a divisor
`channels * (bitsPerSample / 8)` equal to zero is divided by before the depth is checked. -/
theorem wavRead_undefined_of_divisor_zero (header : WavHeader) (body : List Byte)
    (hr : header.riff = [82, 73, 70, 70]) (hw : header.wave = [87, 65, 86, 69])
    (hf : header.audioFormat.val = 1)
    (hz : header.numChannels.val * (header.bitsPerSample.val / 8) = 0) :
    wavRead header body = ReadResult.undefined := by
  unfold wavRead
  rw [if_neg (by rw [hr, hw]; simp), if_neg (by rw [hf]; simp)]
  dsimp only
  rw [if_pos hz]

/-- With valid tags, PCM format, a non-zero divisor and a sample count that fits `int`,
every depth other than 8 and 16 is refused. -/
theorem wavRead_failure_of_depth (header : WavHeader) (body : List Byte)
    (hr : header.riff = [82, 73, 70, 70]) (hw : header.wave = [87, 65, 86, 69])
    (hf : header.audioFormat.val = 1)
    (hz : header.numChannels.val * (header.bitsPerSample.val / 8) ≠ 0)
    (hn : header.dataSize.val / (header.numChannels.val * (header.bitsPerSample.val / 8)) < 2 ^ 31)
    (h16 : header.bitsPerSample.val ≠ 16) (h8 : header.bitsPerSample.val ≠ 8) :
    wavRead header body = ReadResult.failure := by
  unfold wavRead
  rw [if_neg (by rw [hr, hw]; simp), if_neg (by rw [hf]; simp)]
  dsimp only
  rw [if_neg hz, toInt32_of_lt _ hn, if_neg (Int.not_lt.mpr (Int.ofNat_nonneg _)), if_neg h16,
    if_neg h8]

/-- C14, at the failing input. For a header with valid `RIFF`/`WAVE` tags, PCM format, one
channel and `bitsPerSample = 4` (or `0`), `WavFile::read` divides `dataSize` by
`channels * (bitsPerSample / 8) = 0` before it looks at the depth, whatever the file body:
it does not return failure. Depths 24 and 32 and a non-PCM format are refused as the claim
says. -/
theorem wavRead_divides_by_zero (body : List Byte) :
    wavRead (headerWith 1 4) body
        = ReadResult.undefined
      ∧ wavRead (headerWith 1 0) body
        = ReadResult.undefined
      ∧ wavRead (headerWith 1 24) body
        = ReadResult.failure
      ∧ wavRead (headerWith 1 32) body
        = ReadResult.failure
      ∧ wavRead (headerWith 3 16) body
        = ReadResult.failure := by
  refine ⟨?_, ?_, ?_, ?_, ?_⟩
  · exact wavRead_undefined_of_divisor_zero _ body rfl rfl rfl (by decide)
  · exact wavRead_undefined_of_divisor_zero _ body rfl rfl rfl (by decide)
  · exact wavRead_failure_of_depth _ body rfl rfl rfl (by decide) (by decide) (by decide)
      (by decide)
  · exact wavRead_failure_of_depth _ body rfl rfl rfl (by decide) (by decide) (by decide)
      (by decide)
  · exact wavRead_failure_of_format _ body (by decide)

/-- C13, at the failing input. For the two 16-bit samples `1, 2`, the mono file is read as
the two samples `1/32768, 2/32768`. The stereo file with each sample in both channels has
a data chunk of 8 octets; `WavFile::read` computes `numSamples = 8 / (2 * 2) = 2` and reads
only two of the four stored values, `1/32768, 1/32768`, and the downmix leaves the single
sample `1/32768`: half the length of the mono read. -/
theorem stereo_read_drops_half :
    decodeInput (pcmHeader 1 2) (monoData [(1, 0), (2, 0)]) = some [1 / 32768, 2 / 32768]
      ∧ stereoData [(1, 0), (2, 0)] = [1, 0, 1, 0, 2, 0, 2, 0]
      ∧ wavRead (pcmHeader 2 2) (stereoData [(1, 0), (2, 0)])
          = ReadResult.ok [1 / 32768, 1 / 32768] 44100 2
      ∧ decodeInput (pcmHeader 2 2) (stereoData [(1, 0), (2, 0)]) = some [1 / 32768] := by
  have h1 : decodeInput (pcmHeader 1 2) (monoData [(1, 0), (2, 0)])
      = some [((toInt16 1 0 : Int) : ℚ) / 32768, ((toInt16 2 0 : Int) : ℚ) / 32768] := rfl
  have h2 : wavRead (pcmHeader 2 2) (stereoData [(1, 0), (2, 0)])
      = ReadResult.ok [((toInt16 1 0 : Int) : ℚ) / 32768, ((toInt16 1 0 : Int) : ℚ) / 32768]
          44100 2 := rfl
  have h3 : decodeInput (pcmHeader 2 2) (stereoData [(1, 0), (2, 0)])
      = some [(((toInt16 1 0 : Int) : ℚ) / 32768 + ((toInt16 1 0 : Int) : ℚ) / 32768) / 2] := rfl
  rw [h1, h2, h3, toInt16_small 1 (by decide), toInt16_small 2 (by decide)]
  refine ⟨?_, rfl, ?_, ?_⟩
  · norm_num
  · norm_num
  · norm_num

theorem goertzelWindow_nil {S : Type} (s : Int) (h0 : 0 ≤ s) (h1 : s + 1323 ≤ 2147483647) :
    goertzelWindow ([] : List S) s = some [] := by
  unfold goertzelWindow
  rw [if_neg (by omega)]
  have hz : toInt32 ([] : List S).length = 0 := by
    rw [List.length_nil]; decide
  dsimp only
  rw [hz, if_neg (by omega)]

theorem goertzelWindow_overflow {S : Type} (samples : List S) (s : Int)
    (h1 : s + 1323 > 2147483647) : goertzelWindow samples s = none := by
  unfold goertzelWindow
  rw [if_pos h1]

theorem startIdx_eq (i j : Nat) (h : i + j * 1323 < 2 ^ 31) :
    toInt32 (sizeT (i + j * 1323)) = ((i + j * 1323 : Nat) : Int) := by
  rw [sizeT_of_lt _ (by omega), toInt32_of_lt _ h]

theorem matchLoop_nil {S : Type} (syncStrong : List S → Bool) (h0 : syncStrong [] = false)
    (i : Nat) (js : List Nat) (c : Nat) (h : ∀ j ∈ js, i + j * 1323 + 1323 ≤ 2147483647) :
    matchLoop syncStrong ([] : List S) i js c = some c := by
  induction js with
  | nil => rfl
  | cons j js ih =>
    have hj := h j (List.mem_cons_self _ _)
    unfold matchLoop
    rw [startIdx_eq i j (by omega), goertzelWindow_nil _ (by omega) (by omega)]
    simp only [h0]
    exact ih (fun k hk => h k (List.mem_cons_of_mem _ hk))

theorem bound_nil {S : Type} :
    sizeT (([] : List S).length + 2 ^ 64 - 6615) = 18446744073709545001 := by
  rw [List.length_nil]; decide

/-- On the empty recording one iteration only advances the cursor, as long as the five
window computations stay inside `int`. -/
theorem findPreambleLoop_nil_step {S : Type} (syncStrong : List S → Bool)
    (h0 : syncStrong [] = false) (fuel i : Nat) (h : i + 6615 ≤ 2147483647) :
    findPreambleLoop syncStrong ([] : List S) (fuel + 1) i []
      = findPreambleLoop syncStrong ([] : List S) fuel (i + 661) [] := by
  rw [findPreambleLoop, bound_nil, if_pos (by omega)]
  rw [matchLoop_nil syncStrong h0 i [0, 1, 2, 3, 4] 0 (by
    intro j hj
    simp only [List.mem_cons, List.mem_singleton, List.not_mem_nil, or_false] at hj
    rcases hj with hj | hj | hj | hj | hj <;> subst hj <;> omega)]
  dsimp only
  rw [if_neg (by omega), sizeT_of_lt _ (by omega)]

theorem findPreambleLoop_nil_advance {S : Type} (syncStrong : List S → Bool)
    (h0 : syncStrong [] = false) (k : Nat) (hk : k ≤ 3248831) (fuel : Nat) :
    findPreambleLoop syncStrong ([] : List S) (fuel + k) 0 []
      = findPreambleLoop syncStrong ([] : List S) fuel (661 * k) [] := by
  induction k generalizing fuel with
  | zero => rfl
  | succ k ih =>
    have e : fuel + (k + 1) = (fuel + 1) + k := by omega
    rw [e, ih (by omega) (fuel + 1), findPreambleLoop_nil_step syncStrong h0 fuel (661 * k) (by omega)]
    congr 1

/-- At cursor 2147477291 the fifth window starts at 2147482583 and `startIdx + 1323`
overflows `int`. -/
theorem findPreambleLoop_nil_overflow {S : Type} (syncStrong : List S → Bool)
    (h0 : syncStrong [] = false) (fuel : Nat) :
    findPreambleLoop syncStrong ([] : List S) (fuel + 1) 2147477291 []
      = PreambleResult.undefined := by
  rw [findPreambleLoop, bound_nil, if_pos (by norm_num)]
  have h4 : matchLoop syncStrong ([] : List S) 2147477291 [0, 1, 2, 3, 4] 0 = none := by
    unfold matchLoop
    rw [startIdx_eq _ 0 (by norm_num), goertzelWindow_nil _ (by norm_num) (by norm_num)]
    simp only [h0]
    unfold matchLoop
    rw [startIdx_eq _ 1 (by norm_num), goertzelWindow_nil _ (by norm_num) (by norm_num)]
    simp only [h0]
    unfold matchLoop
    rw [startIdx_eq _ 2 (by norm_num), goertzelWindow_nil _ (by norm_num) (by norm_num)]
    simp only [h0]
    unfold matchLoop
    rw [startIdx_eq _ 3 (by norm_num), goertzelWindow_nil _ (by norm_num) (by norm_num)]
    simp only [h0]
    unfold matchLoop
    rw [startIdx_eq _ 4 (by norm_num), goertzelWindow_overflow _ _ (by norm_num)]
  rw [h4]

/-- C15, at the failing input. On the empty recording the loop bound
`samples.size() - samplesPerSymbol * 5` wraps to `2 ^ 64 - 6615`, so the search does not
stop at once: it advances the cursor 3248831 times by 661 without finding a match, and at
cursor 2147477291 the fifth window start 2147482583 makes `startIdx + samplesPerSymbol`
overflow `int`. `findPreamble` reaches undefined behaviour instead of returning an empty
list, whatever fuel of at least 3248832 iterations it is given. -/
theorem findPreamble_empty_undefined (S : Type) (syncStrong : List S → Bool)
    (h0 : syncStrong [] = false) (extra : Nat) :
    sizeT (([] : List S).length + 2 ^ 64 - 6615) = 18446744073709545001
      ∧ findPreamble syncStrong ([] : List S) (3248832 + extra) = PreambleResult.undefined := by
  refine ⟨bound_nil, ?_⟩
  unfold findPreamble
  have e : 3248832 + extra = (extra + 1) + 3248831 := by omega
  rw [e, findPreambleLoop_nil_advance syncStrong h0 3248831 (Nat.le_refl _) (extra + 1)]
  exact findPreambleLoop_nil_overflow syncStrong h0 extra

/-- C15 with the magnitude test that holds for no window. -/
theorem findPreamble_empty_undefined_witness :
    sizeT (([] : List ℚ).length + 2 ^ 64 - 6615) = 18446744073709545001
      ∧ findPreamble (fun _ => false) ([] : List ℚ) (3248832 + 0) = PreambleResult.undefined :=
  findPreamble_empty_undefined ℚ (fun _ => false) rfl 0

theorem getD_append_left (p t : List Byte) (i : Nat) (h : i < p.length) :
    (p ++ t).getD i 0 = p.getD i 0 := by
  rw [List.getD_eq_getElem?_getD, List.getD_eq_getElem?_getD, List.getElem?_append_left h]

theorem readU32_append (p t : List Byte) (pos : Nat) (h : pos + 4 ≤ p.length) :
    readU32 (p ++ t) pos = readU32 p pos := by
  unfold readU32
  rw [getD_append_left p t pos (by omega), getD_append_left p t (pos + 1) (by omega),
    getD_append_left p t (pos + 2) (by omega), getD_append_left p t (pos + 3) (by omega)]

theorem take_drop_append (p t : List Byte) (pos k : Nat) (h : pos + k ≤ p.length) :
    ((p ++ t).drop pos).take k = (p.drop pos).take k := by
  rw [List.drop_append_of_le_length (by omega), List.take_append_of_le_length (by simp; omega)]

/-- C28. The parser ignores trailing bytes: when `parseDataPacket p` succeeds with a result
`r` (filename, payload, stored and recomputed checksum), `parseDataPacket (p ++ t)` succeeds
with the same `r` for every `t`; the checksum is read at offset `9 + name_len + data_len`,
not at the end of the buffer. -/
theorem parseDataPacket_append (p t : List Byte) (r : ParsedPacket)
    (h : parseDataPacket p = some r) :
    parseDataPacket (p ++ t) = some r
      ∧ r.storedCrc = readU32 (p ++ t) (9 + (p.getD 4 0).val + r.fileData.length) := by
  unfold parseDataPacket at h
  by_cases h14 : p.length < 14
  · rw [if_pos h14] at h; exact absurd h (by simp)
  rw [if_neg h14] at h
  by_cases hm : p.getD 0 0 ≠ 65 ∨ p.getD 1 0 ≠ 69 ∨ p.getD 2 0 ≠ 68 ∨ p.getD 3 0 ≠ 67
  · rw [if_pos hm] at h; exact absurd h (by simp)
  rw [if_neg hm] at h
  dsimp only at h
  by_cases h3 : sizeT (4 + 1 + (p.getD 4 0).val + 4) > p.length
  · rw [if_pos h3] at h; exact absurd h (by simp)
  rw [if_neg h3] at h
  by_cases h4 : sizeT (4 + 1 + (p.getD 4 0).val + 4 + readU32 p (4 + 1 + (p.getD 4 0).val) + 4)
      > p.length
  · rw [if_pos h4] at h; exact absurd h (by simp)
  rw [if_neg h4] at h
  have hnl := (p.getD 4 0).isLt
  have hdl : readU32 p (4 + 1 + (p.getD 4 0).val) < 2 ^ 32 := u32_lt _
  rw [sizeT_of_lt _ (by omega)] at h3 h4
  have hlen : (p ++ t).length = p.length + t.length := List.length_append _ _
  have g0 := getD_append_left p t 0 (by omega)
  have g1 := getD_append_left p t 1 (by omega)
  have g2 := getD_append_left p t 2 (by omega)
  have g3 := getD_append_left p t 3 (by omega)
  have g4 := getD_append_left p t 4 (by omega)
  have hname : (List.range (p.getD 4 0).val).map (fun i => (p ++ t).getD (4 + 1 + i) 0)
      = (List.range (p.getD 4 0).val).map (fun i => p.getD (4 + 1 + i) 0) := by
    apply List.map_congr_left
    intro i hi
    have := List.mem_range.mp hi
    exact getD_append_left p t _ (by omega)
  have hr1 := readU32_append p t (4 + 1 + (p.getD 4 0).val) (by omega)
  have hr2 := readU32_append p t
    (4 + 1 + (p.getD 4 0).val + 4 + readU32 p (4 + 1 + (p.getD 4 0).val)) (by omega)
  have hd := take_drop_append p t (4 + 1 + (p.getD 4 0).val + 4)
    (readU32 p (4 + 1 + (p.getD 4 0).val)) (by omega)
  have htk : (p ++ t).take
      (4 + 1 + (p.getD 4 0).val + 4 + readU32 p (4 + 1 + (p.getD 4 0).val) + 4 - 4)
      = p.take (4 + 1 + (p.getD 4 0).val + 4 + readU32 p (4 + 1 + (p.getD 4 0).val) + 4 - 4) := by
    rw [List.take_append_of_le_length (by omega)]
  have hfd : r.fileData.length = readU32 p (4 + 1 + (p.getD 4 0).val) := by
    have hr := Option.some.inj h
    rw [← hr]
    show (List.take _ _).length = _
    rw [List.length_take, List.length_drop]
    omega
  constructor
  · unfold parseDataPacket
    rw [if_neg (by omega), g0, g1, g2, g3, if_neg hm]
    dsimp only
    rw [g4, sizeT_of_lt _ (by omega), if_neg (by omega), hr1, sizeT_of_lt _ (by omega),
      if_neg (by omega), hname, hd, hr2, htk]
    exact h
  · have hs : r.storedCrc
        = readU32 p (4 + 1 + (p.getD 4 0).val + 4 + readU32 p (4 + 1 + (p.getD 4 0).val)) := by
      have hr := Option.some.inj h
      rw [← hr]
    rw [hs, hfd, ← hr2]
    congr 1
    omega

/-- C28 at the 14-octet frame of the name `x` with an empty payload, followed by `00 00`. -/
theorem parseDataPacket_append_witness :
    parseDataPacket (createDataPacket [120] [] ++ [0, 0])
        = some ⟨[120], [], calculateCRC32 [65, 69, 68, 67, 1, 120, 0, 0, 0, 0],
            calculateCRC32 [65, 69, 68, 67, 1, 120, 0, 0, 0, 0]⟩
      ∧ (⟨[120], [], calculateCRC32 [65, 69, 68, 67, 1, 120, 0, 0, 0, 0],
            calculateCRC32 [65, 69, 68, 67, 1, 120, 0, 0, 0, 0]⟩ : ParsedPacket).storedCrc
          = readU32 (createDataPacket [120] [] ++ [0, 0])
              (9 + ((createDataPacket [120] []).getD 4 0).val
                + (⟨[120], [], calculateCRC32 [65, 69, 68, 67, 1, 120, 0, 0, 0, 0],
                    calculateCRC32 [65, 69, 68, 67, 1, 120, 0, 0, 0, 0]⟩ :
                      ParsedPacket).fileData.length) :=
  parseDataPacket_append (createDataPacket [120] []) [0, 0] _
    (by
      have h := parse_createDataPacket_append [120] [] [] (by decide) (by decide) isBaseName_x
        (by decide)
      rw [List.append_nil] at h
      exact h)

/-- C29. Empty input is refused by the encoder: when the file cannot be opened or its
content is the empty byte sequence, `encodeFile` returns `false` before framing; it frames
a packet only for a non-empty content, so a packet with a zero-length payload is never
produced through `encodeFile`. -/
theorem encodeFile_refuses_empty (path : List Byte) (file : Option (List Byte)) :
    encodeFile path none = EncodeOutcome.refused
      ∧ encodeFile path (some []) = EncodeOutcome.refused
      ∧ (encodeFile path file = EncodeOutcome.refused ↔ (file = none ∨ file = some []))
      ∧ ∀ packet encodedData, encodeFile path file = EncodeOutcome.modulated packet encodedData →
          ∃ content, file = some content ∧ content ≠ []
            ∧ packet = createDataPacket path content := by
  refine ⟨rfl, rfl, ?_, ?_⟩
  · cases file with
    | none => simp [encodeFile, readInputFile]
    | some content =>
      cases content with
      | nil => simp [encodeFile, readInputFile]
      | cons x xs =>
        simp only [encodeFile, readInputFile, List.isEmpty_cons, Bool.false_eq_true, if_false]
        cases encode (createDataPacket path (x :: xs)) <;> simp
  · intro packet encodedData h
    cases file with
    | none => simp [encodeFile, readInputFile] at h
    | some content =>
      cases content with
      | nil => simp [encodeFile, readInputFile] at h
      | cons x xs =>
        refine ⟨x :: xs, rfl, by simp, ?_⟩
        simp only [encodeFile, readInputFile, List.isEmpty_cons, Bool.false_eq_true, if_false] at h
        cases he : encode (createDataPacket path (x :: xs)) with
        | none => rw [he] at h; simp at h
        | some e =>
          rw [he] at h
          simp only [EncodeOutcome.modulated.injEq] at h
          exact h.1.symm

set_option maxRecDepth 1000000 in
theorem table_lengths : expTable.length = 512 ∧ logTable.length = 256 := by decide!

set_option maxRecDepth 1000000 in
theorem log_le_table : ∀ a : Byte, (logTable.getD a.val 0).val ≤ 254 := by decide!

/-- C30. Table lookups in the field operations are in bounds: `gf_exp` has 512 entries and
`gf_log` has 256, every `gf_log` entry is at most 254, so the index `gf_log[a] + gf_log[b]`
of `gfMul` is at most 508 and the index of `gfDiv` at most 254; and the entry `gf_log[0]`
is never consulted: with any other octet `v` stored there, `gfMul` and `gfDiv` compute the
same values. -/
theorem table_lookups_in_bounds (a b v : Byte) :
    gf_exp.length = 512 ∧ gf_log.length = 256
      ∧ a.val < gf_log.length
      ∧ (gf_log.getD a.val 0).val ≤ 254
      ∧ (gf_log.getD a.val 0).val + (gf_log.getD b.val 0).val ≤ 508
      ∧ (gf_log.getD a.val 0).val + (gf_log.getD b.val 0).val < gf_exp.length
      ∧ ((gf_log.getD a.val 0).val + 255 - (gf_log.getD b.val 0).val) % 255 ≤ 254
      ∧ gfMul a b = (if a = 0 ∨ b = 0 then 0
          else gf_exp.getD (((gf_log.set 0 v).getD a.val 0).val
            + ((gf_log.set 0 v).getD b.val 0).val) 0)
      ∧ gfDiv a b = (if a = 0 then 0 else if b = 0 then 0
          else gf_exp.getD ((((gf_log.set 0 v).getD a.val 0).val + 255
            - ((gf_log.set 0 v).getD b.val 0).val) % 255) 0) := by
  have hel : gf_exp.length = 512 := by rw [gf_exp_eq]; exact table_lengths.1
  have hll : gf_log.length = 256 := by rw [gf_log_eq]; exact table_lengths.2
  have hla : (gf_log.getD a.val 0).val ≤ 254 := by rw [gf_log_eq]; exact log_le_table a
  have hlb : (gf_log.getD b.val 0).val ≤ 254 := by rw [gf_log_eq]; exact log_le_table b
  have hset : ∀ c : Byte, c ≠ 0 → (gf_log.set 0 v).getD c.val 0 = gf_log.getD c.val 0 := by
    intro c hc
    have hne : 0 ≠ c.val := fun h => hc (Fin.ext h.symm)
    rw [List.getD_eq_getElem?_getD, List.getD_eq_getElem?_getD, List.getElem?_set_ne hne]
  refine ⟨hel, hll, by rw [hll]; exact a.isLt, hla, by omega, by omega, by omega, ?_, ?_⟩
  · unfold gfMul
    by_cases h : a = 0 ∨ b = 0
    · rw [if_pos h, if_pos h]
    · rw [if_neg h, if_neg h]
      have ha : a ≠ 0 := fun e => h (Or.inl e)
      have hb : b ≠ 0 := fun e => h (Or.inr e)
      rw [hset a ha, hset b hb]
  · unfold gfDiv
    by_cases ha : a = 0
    · rw [if_pos ha, if_pos ha]
    · rw [if_neg ha, if_neg ha]
      by_cases hb : b = 0
      · rw [if_pos hb, if_pos hb]
      · rw [if_neg hb, if_neg hb, hset a ha, hset b hb]

theorem generateTone_length {S : Type} (wave : Nat → Nat → Nat → S) (f n : Nat) :
    (generateTone wave f n).length = n := by
  unfold generateTone
  rw [List.length_map, List.length_range]

theorem concatSymbols_append {S : Type} (a b : List (List S)) :
    concatSymbols (a ++ b) = concatSymbols a ++ concatSymbols b := by
  induction a with
  | nil => rfl
  | cons s a ih =>
    show s ++ concatSymbols (a ++ b) = (s ++ concatSymbols a) ++ concatSymbols b
    rw [ih, List.append_assoc]

theorem foldl_append_symbols {S T : Type} (f : T → List S) (l : List T) (init : List S) :
    l.foldl (fun s x => s ++ f x) init = init ++ concatSymbols (l.map f) := by
  induction l generalizing init with
  | nil => simp [concatSymbols]
  | cons x l ih => simp only [List.foldl_cons, ih, List.map_cons, concatSymbols, List.append_assoc]

theorem concatSymbols_length {S : Type} (ss : List (List S)) (n : Nat)
    (h : ∀ s ∈ ss, s.length = n) : (concatSymbols ss).length = ss.length * n := by
  induction ss with
  | nil => simp [concatSymbols]
  | cons s ss ih =>
    simp only [concatSymbols, List.length_append, List.length_cons]
    rw [ih (fun t ht => h t (List.mem_cons_of_mem _ ht)), h s (List.mem_cons_self _ _)]
    ring

/-- The three emission loops of `modulate` for an arbitrary tone generator. -/
theorem frame_loops {S : Type} (tone : Nat → List S) (v : Nat) (d : List Byte) :
    d.foldl (fun s byte => s ++ tone (2000 + byte.val * 50))
        ((List.range 4).foldl
          (fun s i => s ++ tone (2000 + (toByte ((v >>> (i * 8)) &&& 0xFF)).val * 50))
          ((List.range 5).foldl (fun preamble _ => preamble ++ tone 1000) []))
      ++ (List.range 5).foldl (fun preamble _ => preamble ++ tone 1000) []
    = concatSymbols (List.replicate 5 (tone 1000)
        ++ (le32 v).map (fun b => tone (2000 + 50 * b.val))
        ++ d.map (fun b => tone (2000 + 50 * b.val))
        ++ List.replicate 5 (tone 1000)) := by
  have hpre : (List.range 5).foldl (fun preamble _ => preamble ++ tone 1000) []
      = concatSymbols (List.replicate 5 (tone 1000)) := by
    rw [foldl_append_symbols (fun _ : Nat => tone 1000)]
    rfl
  have hlen : ∀ init : List S, (List.range 4).foldl
        (fun s i => s ++ tone (2000 + (toByte ((v >>> (i * 8)) &&& 0xFF)).val * 50)) init
      = init ++ concatSymbols ((le32 v).map (fun b => tone (2000 + 50 * b.val))) := by
    intro init
    have h := pushU32_eq [] v
    rw [List.nil_append] at h
    rw [← h, foldl_append_symbols
      (fun i : Nat => tone (2000 + (toByte ((v >>> (i * 8)) &&& 0xFF)).val * 50))]
    have e : List.range 4 = [0, 1, 2, 3] := rfl
    rw [e]
    simp only [pushU32, List.nil_append, List.map_cons, List.map_nil, Nat.mul_comm 50]
  rw [hpre, hlen, foldl_append_symbols (fun b : Byte => tone (2000 + b.val * 50)),
    concatSymbols_append, concatSymbols_append, concatSymbols_append]
  simp only [Nat.mul_comm 50]

/-- C21. Modem frame structure: for a byte sequence `d` shorter than `2 ^ 32`, `modulate d`
is the concatenation of `14 + |d|` symbols of 1323 samples each: five sync tones, the four
tones of the little-endian octets of `|d|`, for each `i` the tone of frequency
`2000 + 50 * d[i]`, and five sync tones; it has `(14 + |d|) * 1323` samples and the length
field reads back as `|d|`, the number of data symbols that follow. -/
theorem modulate_frame {S : Type} (wave : Nat → Nat → Nat → S) (d : List Byte)
    (h : d.length < 2 ^ 32) :
    modulate wave d = concatSymbols (frameSymbols wave d)
      ∧ (frameSymbols wave d).length = 14 + d.length
      ∧ (∀ s ∈ frameSymbols wave d, s.length = 1323)
      ∧ (modulate wave d).length = (14 + d.length) * 1323
      ∧ readU32 (le32 d.length) 0 = d.length := by
  have hu : u32 d.length = d.length := Nat.mod_eq_of_lt h
  have hmod : modulate wave d = concatSymbols (frameSymbols wave d) := by
    unfold modulate frameSymbols generatePreamble
    dsimp only
    rw [hu]
    exact frame_loops (fun f => generateTone wave f 1323) d.length d
  have hlen : (frameSymbols wave d).length = 14 + d.length := by
    unfold frameSymbols
    rw [List.length_append, List.length_append, List.length_append, List.length_replicate,
      List.length_map, List.length_map, le32_length]
    omega
  have hsym : ∀ s ∈ frameSymbols wave d, s.length = 1323 := by
    intro s hs
    simp only [frameSymbols, List.mem_append, List.mem_replicate, List.mem_map] at hs
    rcases hs with ((⟨_, e⟩ | ⟨b, _, e⟩) | ⟨b, _, e⟩) | ⟨_, e⟩
    · rw [e]; exact generateTone_length _ _ _
    · rw [← e]; exact generateTone_length _ _ _
    · rw [← e]; exact generateTone_length _ _ _
    · rw [e]; exact generateTone_length _ _ _
  refine ⟨hmod, hlen, hsym, ?_, ?_⟩
  · rw [hmod, concatSymbols_length _ 1323 hsym, hlen]
  · have := readU32_le32 [] [] d.length h
    rw [List.append_nil, List.nil_append] at this
    exact this

/-- C21 at the two octets `07 09`, with samples named by frequency and index. -/
theorem modulate_frame_witness :
    modulate (fun f _ i => (f, i)) [7, 9] = concatSymbols (frameSymbols (fun f _ i => (f, i)) [7, 9])
      ∧ (frameSymbols (fun f _ i => (f, i)) [7, 9]).length = 14 + [(7 : Byte), 9].length
      ∧ (∀ s ∈ frameSymbols (fun f _ i => (f, i)) [7, 9], s.length = 1323)
      ∧ (modulate (fun f _ i => (f, i)) [7, 9]).length = (14 + [(7 : Byte), 9].length) * 1323
      ∧ readU32 (le32 [(7 : Byte), 9].length) 0 = [(7 : Byte), 9].length :=
  modulate_frame (fun f _ i => (f, i)) [7, 9] (by norm_num)

theorem getD_append_lt (l : List ℚ) (m : ℚ) (j : Nat) (h : j < l.length) :
    (l ++ [m]).getD j 0 = l.getD j 0 := by
  rw [List.getD_eq_getElem?_getD, List.getD_eq_getElem?_getD, List.getElem?_append_left h]

theorem getD_append_eq (l : List ℚ) (m : ℚ) : (l ++ [m]).getD l.length 0 = m := by
  rw [List.getD_eq_getElem?_getD, List.getElem?_append_right (Nat.le_refl _)]
  simp

theorem detectLoop_inv (rest : List ℚ) :
    ∀ (seen : List ℚ) (maxMagnitude : ℚ) (detectedTone : Int),
      DetectInv seen maxMagnitude detectedTone →
      ∃ M, DetectInv (seen ++ rest) M (detectLoop rest seen.length maxMagnitude detectedTone) := by
  induction rest with
  | nil =>
    intro seen M d h
    exact ⟨M, by rw [List.append_nil]; exact h⟩
  | cons m rest ih =>
    intro seen M d h
    obtain ⟨h0, hle, hcase⟩ := h
    have hstep : ∃ M' d', DetectInv (seen ++ [m]) M' d'
        ∧ detectLoop (m :: rest) seen.length M d = detectLoop rest (seen ++ [m]).length M' d' := by
      have hl : (seen ++ [m]).length = seen.length + 1 := by simp
      have e : detectLoop (m :: rest) seen.length M d
          = (if m > M then detectLoop rest (seen.length + 1) m (seen.length : Int)
              else detectLoop rest (seen.length + 1) M d) := rfl
      rw [e]
      by_cases hgt : m > M
      · refine ⟨m, (seen.length : Int), ?_, ?_⟩
        · refine ⟨le_of_lt (lt_of_le_of_lt h0 hgt), ?_, Or.inr ⟨seen.length, rfl, ?_, ?_, ?_, ?_⟩⟩
          · intro j hj
            rw [hl] at hj
            by_cases hjl : j < seen.length
            · rw [getD_append_lt _ _ _ hjl]
              exact le_of_lt (lt_of_le_of_lt (hle j hjl) hgt)
            · have : j = seen.length := by omega
              rw [this, getD_append_eq]
          · rw [hl]; omega
          · exact getD_append_eq _ _
          · exact lt_of_le_of_lt h0 hgt
          · intro j hj
            rw [getD_append_lt _ _ _ hj]
            exact lt_of_le_of_lt (hle j hj) hgt
        · rw [if_pos hgt, hl]
      · refine ⟨M, d, ?_, ?_⟩
        · refine ⟨h0, ?_, ?_⟩
          · intro j hj
            rw [hl] at hj
            by_cases hjl : j < seen.length
            · rw [getD_append_lt _ _ _ hjl]
              exact hle j hjl
            · have : j = seen.length := by omega
              rw [this, getD_append_eq]
              exact not_lt.mp hgt
          · rcases hcase with hc | ⟨r, hr, hrl, hrv, hpos, hfirst⟩
            · exact Or.inl hc
            · refine Or.inr ⟨r, hr, by rw [hl]; omega, ?_, hpos, ?_⟩
              · rw [getD_append_lt _ _ _ hrl]; exact hrv
              · intro j hj
                rw [getD_append_lt _ _ _ (by omega)]
                exact hfirst j hj
        · rw [if_neg hgt, hl]
    obtain ⟨M', d', hinv, heq⟩ := hstep
    obtain ⟨M'', hfin⟩ := ih (seen ++ [m]) M' d' hinv
    refine ⟨M'', ?_⟩
    rw [heq]
    have : seen ++ m :: rest = seen ++ [m] ++ rest := by simp
    rw [this]
    exact hfin

theorem detectToneOf_inv (magnitudes : List ℚ) :
    ∃ M, DetectInv magnitudes M (detectToneOf magnitudes) := by
  have h := detectLoop_inv magnitudes [] 0 (-1)
    ⟨le_refl _, fun j hj => absurd hj (by simp), Or.inl ⟨rfl, rfl⟩⟩
  simpa [detectToneOf] using h

/-- What the comparison loop returns: `-1` when no magnitude is positive, otherwise the
first index of a greatest magnitude. -/
theorem detectToneOf_spec (magnitudes : List ℚ) :
    -1 ≤ detectToneOf magnitudes ∧ detectToneOf magnitudes < magnitudes.length
      ∧ (detectToneOf magnitudes = -1 ↔ ∀ j, j < magnitudes.length → magnitudes.getD j 0 ≤ 0)
      ∧ (0 ≤ detectToneOf magnitudes →
          (∀ j, j < magnitudes.length →
            magnitudes.getD j 0 ≤ magnitudes.getD (detectToneOf magnitudes).toNat 0)
          ∧ ∀ j, j < (detectToneOf magnitudes).toNat →
            magnitudes.getD j 0 < magnitudes.getD (detectToneOf magnitudes).toNat 0) := by
  obtain ⟨M, h0, hle, hcase⟩ := detectToneOf_inv magnitudes
  rcases hcase with ⟨hd, hM⟩ | ⟨r, hr, hrl, hrv, hpos, hfirst⟩
  · rw [hd]
    refine ⟨le_refl _, by omega, ?_, ?_⟩
    · constructor
      · intro _ j hj
        have := hle j hj
        rw [hM] at this
        exact this
      · intro _; trivial
    · intro h; omega
  · rw [hr]
    refine ⟨by omega, by omega, ?_, ?_⟩
    · constructor
      · intro h; omega
      · intro h
        have := h r hrl
        rw [hrv] at this
        exact absurd hpos (not_lt.mpr this)
    · intro _
      rw [Int.toNat_ofNat, hrv]
      exact ⟨hle, hfirst⟩

theorem magnitudes_getD {S : Type} (goertzel : List S → Nat → ℚ) (w : List S) (j : Nat)
    (h : j < 256) :
    ((List.range 256).map (fun tone => goertzel w (2000 + tone * 50))).getD j 0
      = goertzel w (2000 + j * 50) := by
  rw [List.getD_eq_getElem?_getD, List.getElem?_map, List.getElem?_range h]
  rfl

theorem magnitudes_length {S : Type} (goertzel : List S → Nat → ℚ) (w : List S) :
    ((List.range 256).map (fun tone => goertzel w (2000 + tone * 50))).length = 256 := by
  rw [List.length_map, List.length_range]

/-- On a valid window `detectTone` returns a value in `[-1, 255]`, and `-1` exactly when no
candidate magnitude is positive. -/
theorem detectTone_range {S : Type} (goertzel : List S → Nat → ℚ) (samples : List S)
    (startIdx : Int) (w : List S) (hw : goertzelWindow samples startIdx = some w) :
    ∃ t, detectTone goertzel samples startIdx = some t ∧ -1 ≤ t ∧ t ≤ 255
      ∧ (t = -1 ↔ ∀ k, k < 256 → goertzel w (2000 + k * 50) ≤ 0) := by
  have hs := detectToneOf_spec ((List.range 256).map (fun tone => goertzel w (2000 + tone * 50)))
  rw [magnitudes_length] at hs
  obtain ⟨h1, h2, h3, _⟩ := hs
  refine ⟨_, by unfold detectTone; rw [hw], h1, by omega, ?_⟩
  rw [h3]
  constructor
  · intro h k hk
    rw [← magnitudes_getD goertzel w k hk]; exact h k hk
  · intro h k hk
    rw [magnitudes_getD goertzel w k hk]; exact h k hk

/-- C23. Tone detection is an argmax with lowest-index tie-break: on a symbol window `w` in
which at least one of the 256 candidate magnitudes is strictly positive, `detectTone`
returns an index `r` in `[0, 255]` whose magnitude at `2000 + 50 r` Hz is at least the
magnitude of every candidate and strictly above that of every candidate before `r`. -/
theorem detectTone_argmax {S : Type} (goertzel : List S → Nat → ℚ) (samples : List S)
    (startIdx : Int) (w : List S) (hw : goertzelWindow samples startIdx = some w)
    (hpos : ∃ k, k < 256 ∧ goertzel w (2000 + k * 50) > 0) :
    ∃ r : Nat, detectTone goertzel samples startIdx = some (r : Int) ∧ r < 256
      ∧ (∀ j, j < 256 → goertzel w (2000 + j * 50) ≤ goertzel w (2000 + r * 50))
      ∧ ∀ j, j < r → goertzel w (2000 + j * 50) < goertzel w (2000 + r * 50) := by
  have hs := detectToneOf_spec ((List.range 256).map (fun tone => goertzel w (2000 + tone * 50)))
  rw [magnitudes_length] at hs
  obtain ⟨h1, h2, h3, h4⟩ := hs
  obtain ⟨k, hk, hkpos⟩ := hpos
  have hne : detectToneOf ((List.range 256).map (fun tone => goertzel w (2000 + tone * 50))) ≠ -1 := by
    intro h
    have := (h3.mp h) k hk
    rw [magnitudes_getD goertzel w k hk] at this
    exact absurd hkpos (not_lt.mpr this)
  have hnn : 0 ≤ detectToneOf ((List.range 256).map (fun tone => goertzel w (2000 + tone * 50))) := by
    omega
  obtain ⟨hmax, hfirst⟩ := h4 hnn
  generalize hd : detectToneOf ((List.range 256).map (fun tone => goertzel w (2000 + tone * 50))) = d
    at h1 h2 hnn hmax hfirst
  have hr : (d.toNat : Int) = d := Int.toNat_of_nonneg hnn
  have hr256 : d.toNat < 256 := by omega
  refine ⟨d.toNat, by unfold detectTone; rw [hw]; dsimp only; rw [hd, hr], hr256, ?_, ?_⟩
  · intro j hj
    have := hmax j hj
    rw [magnitudes_getD goertzel w j hj, magnitudes_getD goertzel w _ hr256] at this
    exact this
  · intro j hj
    have := hfirst j hj
    rw [magnitudes_getD goertzel w j (by omega), magnitudes_getD goertzel w _ hr256] at this
    exact this

theorem goertzelWindow_nil_zero : goertzelWindow ([] : List ℚ) 0 = some [] :=
  goertzelWindow_nil 0 (le_refl _) (by norm_num)

/-- C23 on the empty window with a magnitude that is positive at 2350 Hz only. -/
theorem detectTone_argmax_witness :
    ∃ r : Nat, detectTone (fun _ f => if f = 2350 then (1 : ℚ) else 0) ([] : List ℚ) 0
        = some (r : Int) ∧ r < 256
      ∧ (∀ j, j < 256 → (fun (_ : List ℚ) f => if f = 2350 then (1 : ℚ) else 0) [] (2000 + j * 50)
          ≤ (fun (_ : List ℚ) f => if f = 2350 then (1 : ℚ) else 0) [] (2000 + r * 50))
      ∧ ∀ j, j < r → (fun (_ : List ℚ) f => if f = 2350 then (1 : ℚ) else 0) [] (2000 + j * 50)
          < (fun (_ : List ℚ) f => if f = 2350 then (1 : ℚ) else 0) [] (2000 + r * 50) :=
  detectTone_argmax (fun _ f => if f = 2350 then (1 : ℚ) else 0) [] 0 []
    goertzelWindow_nil_zero ⟨7, by norm_num, by norm_num⟩

theorem goertzelWindow_some {S : Type} (samples : List S) (s : Int)
    (hsize : samples.length < 2 ^ 31) (h0 : 0 ≤ s) (h1 : s + 1323 ≤ samples.length) :
    ∃ w, goertzelWindow samples s = some w := by
  unfold goertzelWindow
  have hc : toInt32 samples.length = (samples.length : Int) := toInt32_of_lt _ hsize
  rw [if_neg (by omega)]
  dsimp only
  rw [hc, if_pos (by omega), if_neg (by omega)]
  exact ⟨_, rfl⟩

theorem goertzelWindow_nonneg {S : Type} (samples : List S) (s : Int) (w : List S)
    (hsize : samples.length < 2 ^ 31) (h1 : s + 1323 ≤ samples.length)
    (hw : goertzelWindow samples s = some w) : 0 ≤ s := by
  unfold goertzelWindow at hw
  have hc : toInt32 samples.length = (samples.length : Int) := toInt32_of_lt _ hsize
  by_contra hneg
  rw [if_neg (by omega)] at hw
  dsimp only at hw
  rw [hc, if_pos (by omega), if_pos (by omega)] at hw
  exact absurd hw (by simp)

/-- One successful iteration of the length loop. -/
theorem lengthLoop_step {S : Type} (goertzel : List S → Nat → ℚ) (samples : List S)
    (startPos : Int) (i : Nat) (is : List Nat) (acc L : Nat)
    (h : lengthLoop goertzel samples startPos (i :: is) acc = LengthResult.length L) :
    startPos + ((i : Int) + 1) * 1323 ≤ toInt32 samples.length
      ∧ ∃ tone, detectTone goertzel samples (startPos + (i : Int) * 1323) = some tone
        ∧ 0 ≤ tone ∧ tone < 256
        ∧ lengthLoop goertzel samples startPos is
            (u32 (acc ||| ((toByte tone.toNat).val <<< (i * 8)))) = LengthResult.length L := by
  have e : lengthLoop goertzel samples startPos (i :: is) acc
      = (if startPos + ((i : Int) + 1) * 1323 > 2147483647 then LengthResult.undefined
        else if startPos + ((i : Int) + 1) * 1323 > toInt32 samples.length then LengthResult.aborted
        else
          match detectTone goertzel samples (startPos + (i : Int) * 1323) with
          | none => LengthResult.undefined
          | some tone =>
            if tone < 0 ∨ tone ≥ 256 then LengthResult.aborted
            else lengthLoop goertzel samples startPos is
              (u32 (acc ||| ((toByte tone.toNat).val <<< (i * 8))))) := rfl
  rw [e] at h
  by_cases h1 : startPos + ((i : Int) + 1) * 1323 > 2147483647
  · rw [if_pos h1] at h; exact absurd h (by simp)
  rw [if_neg h1] at h
  by_cases h2 : startPos + ((i : Int) + 1) * 1323 > toInt32 samples.length
  · rw [if_pos h2] at h; exact absurd h (by simp)
  rw [if_neg h2] at h
  refine ⟨by omega, ?_⟩
  cases hd : detectTone goertzel samples (startPos + (i : Int) * 1323) with
  | none => rw [hd] at h; exact absurd h (by simp)
  | some tone =>
    rw [hd] at h
    dsimp only at h
    by_cases h3 : tone < 0 ∨ tone ≥ 256
    · rw [if_pos h3] at h; exact absurd h (by simp)
    · rw [if_neg h3] at h
      exact ⟨tone, rfl, by omega, by omega, h⟩

/-- The data loop from a start position inside the recording: it stops after the symbols
that fit, and each byte is the octet of the tone detected in its window. -/
theorem dataLoop_spec {S : Type} (goertzel : List S → Nat → ℚ) (samples : List S)
    (hsize : samples.length + 1323 < 2 ^ 31) (n : Nat) :
    ∀ (startPos : Int) (data : List Byte), 0 ≤ startPos → startPos ≤ samples.length →
      ∃ ext, dataLoop goertzel samples n startPos data = some (data ++ ext)
        ∧ ext.length = min n ((samples.length - startPos.toNat) / 1323)
        ∧ ∀ i, i < ext.length → ∃ tone,
            detectTone goertzel samples (startPos + (i : Int) * 1323) = some tone
              ∧ ext.getD i 0 = toneByte tone := by
  have hc : toInt32 samples.length = (samples.length : Int) := toInt32_of_lt _ (by omega)
  induction n with
  | zero =>
    intro startPos data _ _
    exact ⟨[], by simp [dataLoop], by simp, fun i hi => absurd hi (by simp)⟩
  | succ n ih =>
    intro startPos data h0 hle
    have e : dataLoop goertzel samples (n + 1) startPos data
        = (if startPos + 1323 > 2147483647 then none
          else if startPos + 1323 > toInt32 samples.length then some data
          else
            match detectTone goertzel samples startPos with
            | none => none
            | some tone =>
              dataLoop goertzel samples n (startPos + 1323)
                (data ++ [toByte (if tone < 0 ∨ tone ≥ 256 then (0 : Int) else tone).toNat])) := rfl
    rw [e, if_neg (by omega), hc]
    have hsn : (startPos.toNat : Int) = startPos := Int.toNat_of_nonneg h0
    by_cases hfit : startPos + 1323 > samples.length
    · rw [if_pos hfit]
      refine ⟨[], by simp, ?_, fun i hi => absurd hi (by simp)⟩
      have : (samples.length - startPos.toNat) / 1323 = 0 := by
        apply Nat.div_eq_of_lt
        omega
      rw [this]; simp
    · rw [if_neg hfit]
      obtain ⟨w, hw⟩ := goertzelWindow_some samples startPos (by omega) h0 (by omega)
      obtain ⟨tone, htone, _⟩ := detectTone_range goertzel samples startPos w hw
      rw [htone]
      dsimp only
      obtain ⟨ext, hext, hlen, hbytes⟩ := ih (startPos + 1323)
        (data ++ [toByte (if tone < 0 ∨ tone ≥ 256 then (0 : Int) else tone).toNat])
        (by omega) (by omega)
      refine ⟨toneByte tone :: ext, ?_, ?_, ?_⟩
      · rw [hext]; simp [toneByte]
      · rw [List.length_cons, hlen]
        have h2 : (startPos + 1323).toNat = startPos.toNat + 1323 := by omega
        rw [h2]
        have h3 : startPos.toNat + 1323 ≤ samples.length := by omega
        omega
      · intro i hi
        cases i with
        | zero =>
          refine ⟨tone, ?_, rfl⟩
          simpa using htone
        | succ i =>
          rw [List.length_cons] at hi
          obtain ⟨t, ht, hb⟩ := hbytes i (by omega)
          refine ⟨t, ?_, ?_⟩
          · have : startPos + ((i + 1 : Nat) : Int) * 1323 = startPos + 1323 + (i : Int) * 1323 := by
              push_cast; ring
            rw [this]; exact ht
          · rw [List.getD_cons_succ]; exact hb

/-- Truncation returns a prefix, below the overflow bound: on a recording shorter than
`2 ^ 31 - 1323` samples, when the preamble search returns a first data start `p` and the
four length symbols decode to `L`, `demodulate` returns exactly
`min L (floor((|samples| - p - 4 N) / N))` bytes, `N = 1323`, and byte `i` is the octet
stored for the tone detected in the window starting at `p + 4 N + i N`: the tone itself
when it is in `[0, 255]`, and 0 when `detectTone` returned `-1`. -/
theorem demodulate_truncation {S : Type} (syncStrong : List S → Bool)
    (goertzel : List S → Nat → ℚ) (samples : List S) (fuel : Nat) (p : Int) (rest : List Int)
    (L : Nat) (hsize : samples.length + 1323 < 2 ^ 31)
    (hp : findPreamble syncStrong samples fuel = PreambleResult.positions (p :: rest))
    (hL : lengthLoop goertzel samples p [0, 1, 2, 3] 0 = LengthResult.length L) :
    ∃ bytes, demodulate syncStrong goertzel samples fuel = DemodResult.data bytes
      ∧ 0 ≤ p ∧ p + 4 * 1323 ≤ samples.length
      ∧ bytes.length = min L ((samples.length - p.toNat - 4 * 1323) / 1323)
      ∧ ∀ i, i < bytes.length → ∃ tone,
          detectTone goertzel samples (p + 4 * 1323 + (i : Int) * 1323) = some tone
            ∧ bytes.getD i 0 = toneByte tone
            ∧ (0 ≤ tone → tone < 256 → ((bytes.getD i 0).val : Int) = tone) := by
  have hc : toInt32 samples.length = (samples.length : Int) := toInt32_of_lt _ (by omega)
  obtain ⟨hb0, t0, ht0, _, _, h1⟩ := lengthLoop_step goertzel samples p 0 _ _ _ hL
  obtain ⟨_, t1, _, _, _, h2⟩ := lengthLoop_step goertzel samples p 1 _ _ _ h1
  obtain ⟨_, t2, _, _, _, h3⟩ := lengthLoop_step goertzel samples p 2 _ _ _ h2
  obtain ⟨hb3, t3, _, _, _, _⟩ := lengthLoop_step goertzel samples p 3 _ _ _ h3
  rw [hc] at hb0 hb3
  have hp0 : 0 ≤ p := by
    unfold detectTone at ht0
    cases hw : goertzelWindow samples (p + ((0 : Nat) : Int) * 1323) with
    | none => rw [hw] at ht0; exact absurd ht0 (by simp)
    | some w =>
      have := goertzelWindow_nonneg samples _ w (by omega) (by push_cast at hb0 ⊢; omega) hw
      push_cast at this
      omega
  have hfit : p + 4 * 1323 ≤ samples.length := by push_cast at hb3; omega
  obtain ⟨ext, hext, hlen, hbytes⟩ := dataLoop_spec goertzel samples hsize L (p + 4 * 1323) []
    (by omega) hfit
  have hdem : demodulate syncStrong goertzel samples fuel = DemodResult.data ext := by
    unfold demodulate
    rw [hp]
    dsimp only
    unfold demodulateFrom
    rw [hL]
    dsimp only
    rw [hext]
    rfl
  refine ⟨ext, hdem, hp0, hfit, ?_, ?_⟩
  · rw [hlen]
    have : (p + 4 * 1323).toNat = p.toNat + 4 * 1323 := by omega
    rw [this, Nat.sub_sub]
  · intro i hi
    obtain ⟨tone, ht, hb⟩ := hbytes i hi
    refine ⟨tone, ht, hb, ?_⟩
    intro h0 h256
    rw [hb]
    unfold toneByte
    rw [if_neg (by omega), toByte_val]
    omega

/-- A candidate that is positive and strictly above every other candidate is detected. -/
theorem detectTone_of_peak {S : Type} (goertzel : List S → Nat → ℚ) (samples : List S)
    (startIdx : Int) (w : List S) (hw : goertzelWindow samples startIdx = some w) (k : Nat)
    (hk : k < 256) (hpos : goertzel w (2000 + k * 50) > 0)
    (hpeak : ∀ j, j < 256 → j ≠ k → goertzel w (2000 + j * 50) < goertzel w (2000 + k * 50)) :
    detectTone goertzel samples startIdx = some (k : Int) := by
  have hs := detectToneOf_spec ((List.range 256).map (fun tone => goertzel w (2000 + tone * 50)))
  rw [magnitudes_length] at hs
  obtain ⟨h1, h2, h3, h4⟩ := hs
  have hne : detectToneOf ((List.range 256).map (fun tone => goertzel w (2000 + tone * 50))) ≠ -1 := by
    intro h
    have := (h3.mp h) k hk
    rw [magnitudes_getD goertzel w k hk] at this
    exact absurd hpos (not_lt.mpr this)
  have hnn : 0 ≤ detectToneOf ((List.range 256).map (fun tone => goertzel w (2000 + tone * 50))) := by
    omega
  obtain ⟨hmax, _⟩ := h4 hnn
  generalize hd : detectToneOf ((List.range 256).map (fun tone => goertzel w (2000 + tone * 50))) = d
    at h1 h2 hnn hmax
  have hr : (d.toNat : Int) = d := Int.toNat_of_nonneg hnn
  have hr256 : d.toNat < 256 := by omega
  have hkd : d.toNat = k := by
    by_contra hne2
    have h5 := hmax k hk
    rw [magnitudes_getD goertzel w k hk, magnitudes_getD goertzel w _ hr256] at h5
    exact absurd (hpeak d.toNat hr256 hne2) (not_lt.mpr h5)
  unfold detectTone
  rw [hw]
  dsimp only
  rw [hd, ← hr, hkd]

/-- A window in which no candidate magnitude is positive yields the initial index `-1`. -/
theorem detectTone_of_silence {S : Type} (goertzel : List S → Nat → ℚ) (samples : List S)
    (startIdx : Int) (w : List S) (hw : goertzelWindow samples startIdx = some w)
    (h : ∀ k, k < 256 → goertzel w (2000 + k * 50) ≤ 0) :
    detectTone goertzel samples startIdx = some (-1) := by
  obtain ⟨t, ht, _, _, hiff⟩ := detectTone_range goertzel samples startIdx w hw
  rw [ht, hiff.mpr h]

/-- One iteration of the length loop on a tone in range. -/
theorem lengthLoop_cons {S : Type} (goertzel : List S → Nat → ℚ) (samples : List S)
    (startPos : Int) (i : Nat) (is : List Nat) (acc : Nat) (tone : Int)
    (h1 : startPos + ((i : Int) + 1) * 1323 ≤ 2147483647)
    (h2 : startPos + ((i : Int) + 1) * 1323 ≤ toInt32 samples.length)
    (hd : detectTone goertzel samples (startPos + (i : Int) * 1323) = some tone)
    (h3 : 0 ≤ tone) (h4 : tone < 256) :
    lengthLoop goertzel samples startPos (i :: is) acc
      = lengthLoop goertzel samples startPos is
          (u32 (acc ||| ((toByte tone.toNat).val <<< (i * 8)))) := by
  have e : lengthLoop goertzel samples startPos (i :: is) acc
      = (if startPos + ((i : Int) + 1) * 1323 > 2147483647 then LengthResult.undefined
        else if startPos + ((i : Int) + 1) * 1323 > toInt32 samples.length then LengthResult.aborted
        else
          match detectTone goertzel samples (startPos + (i : Int) * 1323) with
          | none => LengthResult.undefined
          | some tone =>
            if tone < 0 ∨ tone ≥ 256 then LengthResult.aborted
            else lengthLoop goertzel samples startPos is
              (u32 (acc ||| ((toByte tone.toNat).val <<< (i * 8))))) := rfl
  rw [e, if_neg (by omega), if_neg (by omega), hd]
  dsimp only
  rw [if_neg (by omega)]

/-- One iteration of the length loop on the index `-1`: the read is abandoned. -/
theorem lengthLoop_abort {S : Type} (goertzel : List S → Nat → ℚ) (samples : List S)
    (startPos : Int) (i : Nat) (is : List Nat) (acc : Nat)
    (h1 : startPos + ((i : Int) + 1) * 1323 ≤ 2147483647)
    (h2 : startPos + ((i : Int) + 1) * 1323 ≤ toInt32 samples.length)
    (hd : detectTone goertzel samples (startPos + (i : Int) * 1323) = some (-1)) :
    lengthLoop goertzel samples startPos (i :: is) acc = LengthResult.aborted := by
  have e : lengthLoop goertzel samples startPos (i :: is) acc
      = (if startPos + ((i : Int) + 1) * 1323 > 2147483647 then LengthResult.undefined
        else if startPos + ((i : Int) + 1) * 1323 > toInt32 samples.length then LengthResult.aborted
        else
          match detectTone goertzel samples (startPos + (i : Int) * 1323) with
          | none => LengthResult.undefined
          | some tone =>
            if tone < 0 ∨ tone ≥ 256 then LengthResult.aborted
            else lengthLoop goertzel samples startPos is
              (u32 (acc ||| ((toByte tone.toNat).val <<< (i * 8))))) := rfl
  rw [e, if_neg (by omega), if_neg (by omega), hd]
  dsimp only
  rw [if_pos (by omega)]

theorem tenSymbols_length : tenSymbols.length = 13230 := List.length_replicate _ _

theorem tenSymbols_detect (s : Int) (h0 : 0 ≤ s) (h1 : s + 1323 ≤ 13230) :
    detectTone peakAt2050 tenSymbols s = some ((1 : Nat) : Int) := by
  obtain ⟨w, hw⟩ := goertzelWindow_some tenSymbols s (by rw [tenSymbols_length]; norm_num) h0
    (by rw [tenSymbols_length]; exact_mod_cast h1)
  refine detectTone_of_peak peakAt2050 tenSymbols s w hw 1 (by norm_num) ?_ ?_
  · unfold peakAt2050; norm_num
  · intro j _ hj
    unfold peakAt2050
    rw [if_neg (by omega), if_pos (by norm_num)]
    norm_num

set_option maxRecDepth 1000000 in
theorem tenSymbols_preamble :
    findPreamble (fun _ => true) tenSymbols 2 = PreambleResult.positions [6615] := by
  decide!

theorem tenSymbols_toInt32 : toInt32 tenSymbols.length = 13230 := by
  rw [tenSymbols_length]; exact toInt32_of_lt _ (by norm_num)

theorem tenSymbols_lengthLoop :
    lengthLoop peakAt2050 tenSymbols 6615 [0, 1, 2, 3] 0 = LengthResult.length 16843009 := by
  rw [lengthLoop_cons peakAt2050 tenSymbols 6615 0 _ _ 1 (by norm_num)
      (by rw [tenSymbols_toInt32]; norm_num)
      (tenSymbols_detect _ (by norm_num) (by norm_num)) (by norm_num) (by norm_num),
    lengthLoop_cons peakAt2050 tenSymbols 6615 1 _ _ 1 (by norm_num)
      (by rw [tenSymbols_toInt32]; norm_num)
      (tenSymbols_detect _ (by norm_num) (by norm_num)) (by norm_num) (by norm_num),
    lengthLoop_cons peakAt2050 tenSymbols 6615 2 _ _ 1 (by norm_num)
      (by rw [tenSymbols_toInt32]; norm_num)
      (tenSymbols_detect _ (by norm_num) (by norm_num)) (by norm_num) (by norm_num),
    lengthLoop_cons peakAt2050 tenSymbols 6615 3 _ _ 1 (by norm_num)
      (by rw [tenSymbols_toInt32]; norm_num)
      (tenSymbols_detect _ (by norm_num) (by norm_num)) (by norm_num) (by norm_num)]
  have e : (u32 (u32 (u32 (u32 (0 ||| ((toByte (1 : Int).toNat).val <<< (0 * 8)))
      ||| ((toByte (1 : Int).toNat).val <<< (1 * 8)))
      ||| ((toByte (1 : Int).toNat).val <<< (2 * 8)))
      ||| ((toByte (1 : Int).toNat).val <<< (3 * 8)))) = 16843009 := by decide
  rw [e]
  rfl

/-- Ten symbols of audio in which every window is strong at the sync frequency and peaks
at tone 1: the preamble search returns data start 6615, the length field reads 16843009,
and only one data symbol fits, so one byte is returned. -/
theorem demodulate_truncation_witness :
    ∃ bytes, demodulate (fun _ => true) peakAt2050 tenSymbols 2 = DemodResult.data bytes
      ∧ 0 ≤ (6615 : Int) ∧ (6615 : Int) + 4 * 1323 ≤ tenSymbols.length
      ∧ bytes.length = min 16843009 ((tenSymbols.length - (6615 : Int).toNat - 4 * 1323) / 1323)
      ∧ ∀ i, i < bytes.length → ∃ tone,
          detectTone peakAt2050 tenSymbols ((6615 : Int) + 4 * 1323 + (i : Int) * 1323) = some tone
            ∧ bytes.getD i 0 = toneByte tone
            ∧ (0 ≤ tone → tone < 256 → ((bytes.getD i 0).val : Int) = tone) :=
  demodulate_truncation (fun _ => true) peakAt2050 tenSymbols 2 6615 [] 16843009
    (by rw [tenSymbols_length]; norm_num) tenSymbols_preamble tenSymbols_lengthLoop

/-- C24, refuted. On a window in which every candidate magnitude is zero (the empty or the
silent window) no candidate exceeds the initial maximum `0.0`, so `detectTone` returns its
initial index `-1`, which is outside `[0, 255]`; and on one symbol of silence the length
loop of `demodulate` takes its invalid-tone branch and abandons the read. -/
theorem detectTone_silent_minus_one :
    detectTone (fun _ _ => (0 : ℚ)) ([] : List ℚ) 0 = some (-1)
      ∧ lengthLoop (fun _ _ => (0 : ℚ)) (List.replicate 1323 (0 : ℚ)) 0 [0, 1, 2, 3] 0
          = LengthResult.aborted := by
  have hlen : (List.replicate 1323 (0 : ℚ)).length = 1323 := List.length_replicate _ _
  refine ⟨detectTone_of_silence _ _ _ [] goertzelWindow_nil_zero (fun _ _ => le_refl _), ?_⟩
  obtain ⟨w, hw⟩ := goertzelWindow_some (List.replicate 1323 (0 : ℚ)) (0 + ((0 : Nat) : Int) * 1323)
    (by rw [hlen]; norm_num) (by norm_num) (by rw [hlen]; norm_num)
  have hc : toInt32 (List.replicate 1323 (0 : ℚ)).length = 1323 := by
    rw [hlen]; exact toInt32_of_lt _ (by norm_num)
  exact lengthLoop_abort _ _ 0 0 _ 0 (by norm_num) (by rw [hc]; norm_num)
    (detectTone_of_silence _ _ _ w hw (fun _ _ => le_refl _))

theorem toByte_xor (x y : Nat) : toByte (x ^^^ y) = bxor (toByte x) (toByte y) := by
  apply Fin.ext
  rw [bxor, toByte_val, toByte_val, toByte_val, toByte_val]
  apply Nat.eq_of_testBit_eq
  intro i
  have e : (256 : Nat) = 2 ^ 8 := rfl
  rw [e]
  simp only [Nat.testBit_mod_two_pow, Nat.testBit_xor]
  by_cases h : i < 8 <;> simp [h]

theorem bxor_val (a b : Byte) : (bxor a b).val = a.val ^^^ b.val := by
  rw [bxor, toByte_val]
  exact Nat.mod_eq_of_lt (Nat.xor_lt_two_pow (n := 8) a.isLt b.isLt)

theorem bxor_comm (a b : Byte) : bxor a b = bxor b a := by
  apply Fin.ext; rw [bxor_val, bxor_val, Nat.xor_comm]

theorem bxor_assoc (a b c : Byte) : bxor (bxor a b) c = bxor a (bxor b c) := by
  apply Fin.ext; rw [bxor_val, bxor_val, bxor_val, bxor_val, Nat.xor_assoc]

theorem bxor_self (a : Byte) : bxor a a = 0 := by
  apply Fin.ext; rw [bxor_val, Nat.xor_self]; rfl

theorem bxor_zero (a : Byte) : bxor a 0 = a := by
  apply Fin.ext; rw [bxor_val]; exact Nat.xor_zero _

theorem zero_bxor (a : Byte) : bxor 0 a = a := by
  rw [bxor_comm, bxor_zero]

theorem shiftLeft_xor (x y i : Nat) : (x ^^^ y) <<< i = (x <<< i) ^^^ (y <<< i) := by
  apply Nat.eq_of_testBit_eq
  intro j
  simp only [Nat.testBit_shiftLeft, Nat.testBit_xor]
  by_cases h : j ≥ i <;> simp [h]

theorem reduceStep_xor (x y i : Nat) :
    reduceStep (x ^^^ y) i = reduceStep x i ^^^ reduceStep y i := by
  unfold reduceStep
  rw [Nat.testBit_xor]
  cases hx : x.testBit i <;> cases hy : y.testBit i
  · simp
  · simp [Nat.xor_assoc]
  · simp only [Bool.true_xor, Bool.not_false, if_true, Bool.false_eq_true, if_false]
    rw [Nat.xor_assoc, Nat.xor_comm y, ← Nat.xor_assoc]
  · simp only [Bool.true_xor, Bool.not_true, Bool.false_eq_true, if_false, if_true]
    rw [Nat.xor_assoc, Nat.xor_comm y, ← Nat.xor_assoc (285 <<< (i - 8)),
      Nat.xor_self, Nat.zero_xor]

theorem reduce11D_xor (x y : Nat) : reduce11D (x ^^^ y) = reduce11D x ^^^ reduce11D y := by
  unfold reduce11D
  simp only [List.foldl_cons, List.foldl_nil, reduceStep_xor]

theorem reduce11D_zero : reduce11D 0 = 0 := by decide

set_option maxRecDepth 1000000 in
theorem gfDouble_eq_reduce : ∀ x : Byte, gfDouble x = toByte (reduce11D (x.val <<< 1)) := by
  decide!

theorem gfDouble_linear (x y : Byte) :
    gfDouble (bxor x y) = bxor (gfDouble x) (gfDouble y) := by
  rw [gfDouble_eq_reduce, gfDouble_eq_reduce, gfDouble_eq_reduce, bxor_val, shiftLeft_xor,
    reduce11D_xor, toByte_xor]

set_option maxRecDepth 1000000 in
theorem exp_reduce_table :
    ∀ k : Fin 510, expTable.getD k.val 0 = expTable.getD (k.val % 255) 0 := by
  decide!

theorem alphaPow_ne_zero (n : Nat) : alphaPow n ≠ 0 :=
  exp_ne_zero_table ⟨n % 255, Nat.mod_lt _ (by decide)⟩

theorem log_alphaPow (n : Nat) : (logTable.getD (alphaPow n).val 0).val = n % 255 :=
  log_exp_table ⟨n % 255, Nat.mod_lt _ (by decide)⟩

theorem alphaPow_log (a : Byte) (h : a ≠ 0) : alphaPow (logTable.getD a.val 0).val = a := by
  unfold alphaPow
  rw [Nat.mod_eq_of_lt (by have := log_le_table a; omega)]
  exact exp_log_table a h

theorem alphaPow_mod (n : Nat) : alphaPow (n % 255) = alphaPow n := by
  unfold alphaPow; rw [Nat.mod_mod]

theorem gfMul_alphaPow (n m : Nat) : gfMul (alphaPow n) (alphaPow m) = alphaPow (n + m) := by
  have hne : ¬ (alphaPow n = 0 ∨ alphaPow m = 0) := by
    intro h
    rcases h with h | h
    · exact alphaPow_ne_zero n h
    · exact alphaPow_ne_zero m h
  rw [gfMul_table, if_neg hne, log_alphaPow, log_alphaPow]
  have hn : n % 255 < 255 := Nat.mod_lt _ (by decide)
  have hm : m % 255 < 255 := Nat.mod_lt _ (by decide)
  have h := exp_reduce_table ⟨n % 255 + m % 255, by omega⟩
  rw [h]
  unfold alphaPow
  rw [← Nat.add_mod]

theorem zero_gfMul (a : Byte) : gfMul 0 a = 0 := by
  rw [gfMul_comm, gfMul_zero]

theorem one_gfMul (a : Byte) : gfMul 1 a = a := by
  rw [gfMul_comm, gfMul_one]

theorem gfMul_assoc (a b c : Byte) : gfMul a (gfMul b c) = gfMul (gfMul a b) c := by
  by_cases ha : a = 0
  · rw [ha, zero_gfMul, zero_gfMul, zero_gfMul]
  by_cases hb : b = 0
  · rw [hb, zero_gfMul, gfMul_zero, zero_gfMul]
  by_cases hc : c = 0
  · rw [hc, gfMul_zero, gfMul_zero, gfMul_zero]
  rw [← alphaPow_log a ha, ← alphaPow_log b hb, ← alphaPow_log c hc, gfMul_alphaPow,
    gfMul_alphaPow, gfMul_alphaPow, gfMul_alphaPow, Nat.add_assoc]

theorem gfMul_eq_zero (a b : Byte) (h : gfMul a b = 0) : a = 0 ∨ b = 0 := by
  by_contra hne
  have ha : a ≠ 0 := fun e => hne (Or.inl e)
  have hb : b ≠ 0 := fun e => hne (Or.inr e)
  rw [← alphaPow_log a ha, ← alphaPow_log b hb, gfMul_alphaPow] at h
  exact alphaPow_ne_zero _ h

theorem alphaPow_zero : alphaPow 0 = 1 := by decide

theorem alphaPow_one : alphaPow 1 = 2 := by decide

set_option maxRecDepth 1000000 in
theorem gfDouble_table : ∀ x : Byte, gfDouble x = (if (2 : Byte) = 0 ∨ x = 0 then 0
    else expTable.getD ((logTable.getD (2 : Byte).val 0).val + (logTable.getD x.val 0).val) 0) := by
  decide!

theorem gfDouble_eq_mul (x : Byte) : gfDouble x = gfMul 2 x := by
  rw [gfMul_table]; exact gfDouble_table x

theorem gfMul_iterate (n : Nat) (x : Byte) : gfMul (alphaPow n) x = gfDouble^[n] x := by
  induction n with
  | zero => rw [alphaPow_zero, one_gfMul]; rfl
  | succ n ih =>
    rw [Function.iterate_succ_apply', ← ih, gfDouble_eq_mul, gfMul_assoc, ← alphaPow_one,
      gfMul_alphaPow, Nat.add_comm]

theorem gfDouble_iterate_linear (n : Nat) (x y : Byte) :
    gfDouble^[n] (bxor x y) = bxor (gfDouble^[n] x) (gfDouble^[n] y) := by
  induction n with
  | zero => rfl
  | succ n ih =>
    rw [Function.iterate_succ_apply', Function.iterate_succ_apply',
      Function.iterate_succ_apply', ih, gfDouble_linear]

theorem gfMul_bxor (a b c : Byte) : gfMul a (bxor b c) = bxor (gfMul a b) (gfMul a c) := by
  by_cases ha : a = 0
  · rw [ha, zero_gfMul, zero_gfMul, zero_gfMul]; rfl
  rw [← alphaPow_log a ha, gfMul_iterate, gfMul_iterate, gfMul_iterate,
    gfDouble_iterate_linear]

set_option maxRecDepth 1000000 in
theorem byte_bits : ∀ b : Byte, (List.range 8).foldl
    (fun acc i => if b.val.testBit i then bxor acc (toByte (2 ^ i)) else acc) 0 = b := by
  decide!

theorem gfMul_fold (a : Byte) (t : Nat → Bool) (v : Nat → Byte) (l : List Nat) :
    ∀ acc : Byte, gfMul a (l.foldl (fun acc i => if t i then bxor acc (v i) else acc) acc)
      = l.foldl (fun acc i => if t i then bxor acc (gfMul a (v i)) else acc) (gfMul a acc) := by
  induction l with
  | nil => intro acc; rfl
  | cons i l ih =>
    intro acc
    rw [List.foldl_cons, List.foldl_cons, ih]
    cases t i
    · rfl
    · simp only [if_true, gfMul_bxor]

theorem reduce_fold (t : Nat → Bool) (w : Nat → Nat) (l : List Nat) :
    ∀ acc : Nat,
      toByte (reduce11D (l.foldl (fun acc i => if t i then acc ^^^ w i else acc) acc))
        = l.foldl (fun acc i => if t i then bxor acc (toByte (reduce11D (w i))) else acc)
            (toByte (reduce11D acc)) := by
  induction l with
  | nil => intro acc; rfl
  | cons i l ih =>
    intro acc
    rw [List.foldl_cons, List.foldl_cons, ih]
    cases t i
    · rfl
    · simp only [if_true, reduce11D_xor, toByte_xor]

set_option maxRecDepth 1000000 in
theorem mul_pow_two_table : ∀ a : Byte, ∀ i : Fin 8,
    (if a = 0 ∨ toByte (2 ^ i.val) = 0 then (0 : Byte)
      else expTable.getD ((logTable.getD a.val 0).val
        + (logTable.getD (toByte (2 ^ i.val)).val 0).val) 0)
      = toByte (reduce11D (a.val <<< i.val)) := by
  decide!

theorem gfMul_eq_gfMulRef (a b : Byte) : gfMul a b = gfMulRef a b := by
  have h1 : gfMul a b = gfMul a ((List.range 8).foldl
      (fun acc i => if b.val.testBit i then bxor acc (toByte (2 ^ i)) else acc) 0) :=
    congrArg (gfMul a) (byte_bits b).symm
  rw [h1, gfMul_fold a (fun i => b.val.testBit i) (fun i => toByte (2 ^ i)), gfMul_zero]
  unfold gfMulRef clmul
  rw [reduce_fold (fun i => b.val.testBit i) (fun i => a.val <<< i)]
  have h0 : toByte (reduce11D 0) = 0 := by rw [reduce11D_zero]; rfl
  rw [h0]
  apply List.foldl_ext
  intro acc i hi
  have hi8 : i < 8 := List.mem_range.mp hi
  have := mul_pow_two_table a ⟨i, hi8⟩
  rw [← gfMul_table] at this
  dsimp only at this ⊢
  rw [this]

/-- C27. `gfMul` is a field multiplication: for all octets `a`, `b`, `c` it is associative,
it distributes over exclusive or, `gfMul a b = 0` only if `a = 0` or `b = 0` (and then it
is), and it equals the carry-less product of `a` and `b` reduced modulo `0x11D`. -/
theorem gfMul_field (a b c : Byte) :
    gfMul a (gfMul b c) = gfMul (gfMul a b) c
      ∧ gfMul a (bxor b c) = bxor (gfMul a b) (gfMul a c)
      ∧ (gfMul a b = 0 ↔ a = 0 ∨ b = 0)
      ∧ gfMul a b = toByte (reduce11D (clmul a.val b.val)) := by
  refine ⟨gfMul_assoc a b c, gfMul_bxor a b c, ⟨gfMul_eq_zero a b, ?_⟩, gfMul_eq_gfMulRef a b⟩
  intro h
  rcases h with h | h
  · rw [h, zero_gfMul]
  · rw [h, gfMul_zero]

theorem gf256_ext (a b : GF256) (h : a.val = b.val) : a = b := by
  cases a; cases b; cases h; rfl

instance : CommRing GF256 where
  add_assoc a b c := gf256_ext _ _ (bxor_assoc a.val b.val c.val)
  zero_add a := gf256_ext _ _ (zero_bxor a.val)
  add_zero a := gf256_ext _ _ (bxor_zero a.val)
  add_comm a b := gf256_ext _ _ (bxor_comm a.val b.val)
  neg_add_cancel a := gf256_ext _ _ (bxor_self a.val)
  mul_assoc a b c := gf256_ext _ _ (gfMul_assoc a.val b.val c.val).symm
  one_mul a := gf256_ext _ _ (one_gfMul a.val)
  mul_one a := gf256_ext _ _ (gfMul_one a.val)
  mul_comm a b := gf256_ext _ _ (gfMul_comm a.val b.val)
  left_distrib a b c := gf256_ext _ _ (gfMul_bxor a.val b.val c.val)
  right_distrib a b c := gf256_ext _ _ (by
    show gfMul (bxor a.val b.val) c.val = bxor (gfMul a.val c.val) (gfMul b.val c.val)
    rw [gfMul_comm, gfMul_bxor, gfMul_comm c.val, gfMul_comm c.val])
  zero_mul a := gf256_ext _ _ (zero_gfMul a.val)
  mul_zero a := gf256_ext _ _ (gfMul_zero a.val)
  nsmul := nsmulRec
  zsmul := zsmulRec

instance : Field GF256 where
  exists_pair_ne := ⟨0, 1, by decide⟩
  mul_inv_cancel a h := gf256_ext _ _
    (gfMul_gfDiv_one a.val (fun e => h (gf256_ext _ _ e)))
  inv_zero := gf256_ext _ _ (by decide)
  nnqsmul := _
  qsmul := _

theorem gf256_mul_val (a b : GF256) : (a * b).val = gfMul a.val b.val := rfl

theorem gf256_add_self (a : GF256) : a + a = 0 := gf256_ext _ _ (bxor_self a.val)

theorem polyEval_from (p : List Byte) (x : Byte) :
    ∀ acc : GF256, p.foldl (fun acc c => bxor (gfMul acc x) c) acc.val
      = (p.foldl (fun (acc : GF256) c => acc * ⟨x⟩ + ⟨c⟩) acc).val := by
  induction p with
  | nil => intro acc; rfl
  | cons c p ih =>
    intro acc
    rw [List.foldl_cons, List.foldl_cons]
    exact ih (acc * ⟨x⟩ + ⟨c⟩)

theorem polyEval_eq (p : List Byte) (x : Byte) : polyEval p x = (evalGF p ⟨x⟩).val :=
  polyEval_from p x 0

theorem evalGF_from (p : List Byte) (x : GF256) :
    ∀ acc : GF256, p.foldl (fun acc c => acc * x + ⟨c⟩) acc = acc * x ^ p.length + evalGF p x := by
  induction p with
  | nil => intro acc; simp [evalGF]
  | cons c p ih =>
    intro acc
    unfold evalGF
    rw [List.foldl_cons, List.foldl_cons, ih, ih (0 * x + ⟨c⟩), List.length_cons]
    ring

theorem evalGF_append (a b : List Byte) (x : GF256) :
    evalGF (a ++ b) x = evalGF a x * x ^ b.length + evalGF b x := by
  unfold evalGF
  rw [List.foldl_append]
  exact evalGF_from b x _

theorem evalGF_zeros (n : Nat) (x : GF256) : evalGF (List.replicate n 0) x = 0 := by
  induction n with
  | zero => rfl
  | succ n ih =>
    have e : List.replicate (n + 1) (0 : Byte) = [0] ++ List.replicate n 0 := rfl
    rw [e, evalGF_append, ih]
    have : evalGF [0] x = 0 := by
      show (0 : GF256) * x + ⟨0⟩ = 0
      rw [zero_mul, zero_add]; rfl
    rw [this, zero_mul, add_zero]

theorem evalGF_sum (p : List Byte) (x : GF256) :
    evalGF p x = ∑ k in Finset.range p.length, (⟨p.getD k 0⟩ : GF256) * x ^ (p.length - 1 - k) := by
  induction p using List.reverseRecOn with
  | nil => rfl
  | append_singleton p c ih =>
    rw [evalGF_append, ih, List.length_append, List.length_singleton, Finset.sum_range_succ]
    have hc : evalGF [c] x = ⟨c⟩ := by
      show (0 : GF256) * x + ⟨c⟩ = ⟨c⟩
      rw [zero_mul, zero_add]
    have hlast : (p ++ [c]).getD p.length 0 = c := by
      rw [List.getD_eq_getElem?_getD, List.getElem?_append_right (Nat.le_refl _)]
      simp
    rw [hc, hlast, Finset.sum_mul]
    congr 1
    · apply Finset.sum_congr rfl
      intro k hk
      have hk2 : k < p.length := Finset.mem_range.mp hk
      have hget : (p ++ [c]).getD k 0 = p.getD k 0 := by
        rw [List.getD_eq_getElem?_getD, List.getD_eq_getElem?_getD, List.getElem?_append_left hk2]
      rw [hget, pow_one, mul_assoc, ← pow_succ]
      congr 2
      omega
    · have : p.length + 1 - 1 - p.length = 0 := by omega
      rw [this, pow_zero, mul_one]

theorem getD_set (l : List Byte) (n k : Nat) (a : Byte) :
    (l.set n a).getD k 0 = if n = k ∧ k < l.length then a else l.getD k 0 := by
  rw [List.getD_eq_getElem?_getD, List.getD_eq_getElem?_getD, List.getElem?_set]
  by_cases h : n = k
  · subst h
    by_cases h2 : n < l.length
    · rw [if_pos rfl, if_pos h2, if_pos ⟨rfl, h2⟩]; rfl
    · rw [if_pos rfl, if_neg h2, if_neg (fun hh => h2 hh.2),
        List.getElem?_eq_none (Nat.le_of_not_lt h2)]
  · rw [if_neg h, if_neg (fun hh => h hh.1)]

/-- The first `m` passes of the inner loop of the division add `gen[j] * coef` to the
entries `i + j`, `j < m`, and leave the others. -/
theorem rowFold_spec (gen : List Byte) (coef : Byte) (i : Nat) (result : List Byte) (m : Nat)
    (hm : i + m ≤ result.length) :
    ((List.range m).foldl
        (fun r j => r.set (i + j) (bxor (r.getD (i + j) 0) (gfMul (gen.getD j 0) coef)))
        result).length = result.length
      ∧ ∀ k, ((List.range m).foldl
          (fun r j => r.set (i + j) (bxor (r.getD (i + j) 0) (gfMul (gen.getD j 0) coef)))
          result).getD k 0
        = if i ≤ k ∧ k < i + m then bxor (result.getD k 0) (gfMul (gen.getD (k - i) 0) coef)
          else result.getD k 0 := by
  induction m with
  | zero =>
    refine ⟨rfl, fun k => ?_⟩
    rw [if_neg (by omega)]
    rfl
  | succ m ih =>
    obtain ⟨hl, hg⟩ := ih (by omega)
    rw [List.range_succ, List.foldl_append, List.foldl_cons, List.foldl_nil]
    refine ⟨by rw [List.length_set, hl], fun k => ?_⟩
    rw [getD_set, hl, hg (i + m), hg k]
    by_cases hk : i + m = k
    · subst hk
      rw [if_pos ⟨rfl, by omega⟩, if_neg (by omega), if_pos ⟨by omega, by omega⟩]
      have : i + m - i = m := by omega
      rw [this]
    · rw [if_neg (fun hh => hk hh.1)]
      by_cases h2 : i ≤ k ∧ k < i + m
      · rw [if_pos h2, if_pos ⟨h2.1, by omega⟩]
      · rw [if_neg h2, if_neg (by omega)]

theorem rsDivRow_spec (gen : List Byte) (coef : Byte) (i : Nat) (result : List Byte)
    (h : i + gen.length ≤ result.length) :
    (rsDivRow gen coef i result).length = result.length
      ∧ ∀ k, (rsDivRow gen coef i result).getD k 0
        = if i ≤ k ∧ k < i + gen.length
          then bxor (result.getD k 0) (gfMul (gen.getD (k - i) 0) coef)
          else result.getD k 0 :=
  rowFold_spec gen coef i result gen.length h

theorem gf256_mk_bxor (a b : Byte) : (⟨bxor a b⟩ : GF256) = ⟨a⟩ + ⟨b⟩ := rfl

theorem gf256_mk_gfMul (a b : Byte) : (⟨gfMul a b⟩ : GF256) = ⟨a⟩ * ⟨b⟩ := rfl

/-- A sum over `range N` of a function supported on `[i, i + G)` is a sum over `range G`. -/
theorem sum_window (N i G : Nat) (h : i + G ≤ N) (g : Nat → GF256) :
    ∑ k in Finset.range N, (if i ≤ k ∧ k < i + G then g (k - i) else 0)
      = ∑ j in Finset.range G, g j := by
  have hsub : Finset.Ico i (i + G) ⊆ Finset.range N := by
    intro k hk
    rw [Finset.mem_Ico] at hk
    exact Finset.mem_range.mpr (by omega)
  rw [← Finset.sum_subset hsub (fun k _ hk => by
    rw [Finset.mem_Ico] at hk
    rw [if_neg hk]), Finset.sum_Ico_eq_sum_range]
  have e : i + G - i = G := by omega
  rw [e]
  apply Finset.sum_congr rfl
  intro j hj
  have hj2 : j < G := Finset.mem_range.mp hj
  rw [if_pos ⟨by omega, by omega⟩]
  congr 1
  omega

/-- One row of the division adds `coef * x ^ d * gen(x)` to the value of the buffer. -/
theorem evalGF_rsDivRow (gen : List Byte) (coef : Byte) (i : Nat) (result : List Byte)
    (x : GF256) (h : i + gen.length ≤ result.length) :
    evalGF (rsDivRow gen coef i result) x
      = evalGF result x + ⟨coef⟩ * x ^ (result.length - i - gen.length) * evalGF gen x := by
  obtain ⟨hl, hg⟩ := rsDivRow_spec gen coef i result h
  rw [evalGF_sum, evalGF_sum result, evalGF_sum gen, hl, Finset.mul_sum,
    ← sum_window result.length i gen.length h, ← Finset.sum_add_distrib]
  apply Finset.sum_congr rfl
  intro k hk
  have hk2 : k < result.length := Finset.mem_range.mp hk
  rw [hg k]
  by_cases hc : i ≤ k ∧ k < i + gen.length
  · rw [if_pos hc, if_pos hc, gf256_mk_bxor, gf256_mk_gfMul]
    have e : result.length - 1 - k
        = (result.length - i - gen.length) + (gen.length - 1 - (k - i)) := by omega
    rw [e, pow_add]
    ring
  · rw [if_neg hc, if_neg hc, add_zero]

theorem rsDivStep_spec (gen : List Byte) (result : List Byte) (i : Nat) (x : GF256)
    (hg0 : gen.getD 0 0 = 1) (hG : 0 < gen.length) (hlen : i + gen.length ≤ result.length)
    (hroot : evalGF gen x = 0) :
    (rsDivStep gen result i).length = result.length
      ∧ evalGF (rsDivStep gen result i) x = evalGF result x
      ∧ (rsDivStep gen result i).getD i 0 = 0
      ∧ ∀ k, k < i → (rsDivStep gen result i).getD k 0 = result.getD k 0 := by
  unfold rsDivStep
  dsimp only
  by_cases hc : result.getD i 0 ≠ 0
  · rw [if_pos hc]
    obtain ⟨hl, hg⟩ := rsDivRow_spec gen (result.getD i 0) i result hlen
    refine ⟨hl, ?_, ?_, ?_⟩
    · rw [evalGF_rsDivRow gen _ i result x hlen, hroot, mul_zero, add_zero]
    · rw [hg i, if_pos ⟨Nat.le_refl _, by omega⟩, Nat.sub_self, hg0, one_gfMul, bxor_self]
    · intro k hk
      rw [hg k, if_neg (by omega)]
  · rw [if_neg hc]
    exact ⟨rfl, rfl, not_not.mp hc, fun _ _ => rfl⟩

/-- The division loop after `t` rows: the buffer keeps its length and its value at every
root of the generator, and its first `t` entries are zero. -/
theorem divLoop_spec (gen : List Byte) (r0 : List Byte) (x : GF256)
    (hg0 : gen.getD 0 0 = 1) (hG : 0 < gen.length) (hroot : evalGF gen x = 0) (t : Nat)
    (ht : t + gen.length ≤ r0.length + 1) :
    ((List.range t).foldl (rsDivStep gen) r0).length = r0.length
      ∧ evalGF ((List.range t).foldl (rsDivStep gen) r0) x = evalGF r0 x
      ∧ ∀ k, k < t → ((List.range t).foldl (rsDivStep gen) r0).getD k 0 = 0 := by
  induction t with
  | zero => exact ⟨rfl, rfl, fun k hk => absurd hk (Nat.not_lt_zero k)⟩
  | succ t ih =>
    obtain ⟨hl, he, hz⟩ := ih (by omega)
    rw [List.range_succ, List.foldl_append, List.foldl_cons, List.foldl_nil]
    obtain ⟨hl2, he2, hz2, hk2⟩ := rsDivStep_spec gen ((List.range t).foldl (rsDivStep gen) r0) t x
      hg0 hG (by rw [hl]; omega) hroot
    refine ⟨by rw [hl2, hl], by rw [he2, he], ?_⟩
    intro k hk
    by_cases hkt : k = t
    · rw [hkt]; exact hz2
    · rw [hk2 k (by omega)]; exact hz k (by omega)

theorem eq_zeros_append (r : List Byte) (n : Nat) (hn : n ≤ r.length)
    (hz : ∀ k, k < n → r.getD k 0 = 0) : r = List.replicate n 0 ++ r.drop n := by
  have ht : r.take n = List.replicate n 0 := by
    apply List.ext_getElem
    · rw [List.length_take, List.length_replicate]; omega
    · intro k h1 h2
      rw [List.getElem_take, List.getElem_replicate]
      rw [List.length_replicate] at h2
      have := hz k h2
      rw [List.getD_eq_getElem?_getD, List.getElem?_eq_getElem (by omega)] at this
      exact this
  rw [← ht, List.take_append_drop]

/-- A codeword of `rsEncode` vanishes at every root of the generator polynomial. -/
theorem evalGF_rsEncode (msg : List Byte) (nsym : Nat) (x : GF256)
    (hg0 : (rsGeneratorPoly nsym).getD 0 0 = 1) (hG : (rsGeneratorPoly nsym).length = nsym + 1)
    (hroot : evalGF (rsGeneratorPoly nsym) x = 0) :
    evalGF (rsEncode msg nsym) x = 0 := by
  unfold rsEncode
  dsimp only
  obtain ⟨hl, he, hz⟩ := divLoop_spec (rsGeneratorPoly nsym) (msg ++ List.replicate nsym 0) x
    hg0 (by omega) hroot msg.length (by rw [List.length_append, List.length_replicate, hG]; omega)
  rw [List.length_append, List.length_replicate] at hl
  have hsplit := eq_zeros_append _ msg.length (by rw [hl]; omega) hz
  have hdl : (((List.range msg.length).foldl (rsDivStep (rsGeneratorPoly nsym))
      (msg ++ List.replicate nsym 0)).drop msg.length).length = nsym := by
    rw [List.length_drop, hl]; omega
  have he2 : evalGF (((List.range msg.length).foldl (rsDivStep (rsGeneratorPoly nsym))
      (msg ++ List.replicate nsym 0)).drop msg.length) x = evalGF msg x * x ^ nsym := by
    rw [hsplit, evalGF_append, evalGF_zeros, zero_mul, zero_add] at he
    rw [he, evalGF_append, evalGF_zeros, add_zero, List.length_replicate]
  rw [evalGF_append, he2, hdl]
  exact gf256_add_self _

theorem evalGF_generator (i : Nat) (hi : i < 32) :
    evalGF (rsGeneratorPoly 32) ⟨gf_exp.getD i 0⟩ = 0 := by
  apply gf256_ext
  rw [← polyEval_eq, rsGeneratorPoly_32, polyEval_table, gf_exp_eq]
  exact genTable_roots ⟨i, hi⟩

theorem evalGF_codeword (m : List Byte) (i : Nat) (hi : i < 32) :
    evalGF (rsEncode m 32) ⟨gf_exp.getD i 0⟩ = 0 :=
  evalGF_rsEncode m 32 _ (by rw [rsGeneratorPoly_32]; rfl) (by rw [rsGeneratorPoly_32]; rfl)
    (evalGF_generator i hi)

/-- C26. Every codeword is a multiple of the generator: for every 223-byte block `m` the
255 bytes of `rsEncode m 32`, read as a polynomial over GF(256) with byte 0 as the
highest-degree coefficient, evaluate (Horner's rule with `gfMul` and exclusive or) to 0 at
`alpha ^ i = gf_exp[i]` for every `i` in `[0, 31]`. -/
theorem rsEncode_codeword_roots (m : List Byte) (hm : m.length = 223) (i : Nat) (hi : i < 32) :
    (rsEncode m 32).length = 255 ∧ polyEval (rsEncode m 32) (gf_exp.getD i 0) = 0 := by
  refine ⟨by rw [rsEncode_length, hm], ?_⟩
  rw [polyEval_eq, evalGF_codeword m i hi]
  rfl

/-- C26 at the block `01 00 ... 00` and `i = 7`. -/
theorem rsEncode_codeword_roots_witness :
    (rsEncode (1 :: List.replicate 222 0) 32).length = 255
      ∧ polyEval (rsEncode (1 :: List.replicate 222 0) 32) (gf_exp.getD 7 0) = 0 :=
  rsEncode_codeword_roots (1 :: List.replicate 222 0)
    (by rw [List.length_cons, List.length_replicate]) 7 (by decide)

/-- A word of weight at most `D` whose first `D` power sums over pairwise distinct points
vanish is the zero word (the BCH bound). -/
theorem bch_bound (N D : Nat) (e x : Nat → GF256)
    (hinj : ∀ j k, j < N → k < N → x j = x k → j = k)
    (hsyn : ∀ i, i < D → ∑ k in Finset.range N, e k * x k ^ i = 0)
    (hw : ((Finset.range N).filter (fun k => e k ≠ 0)).card ≤ D) :
    ∀ k, k < N → e k = 0 := by
  intro k0 hk0
  by_contra hne
  have hk0S : k0 ∈ (Finset.range N).filter (fun k => e k ≠ 0) :=
    Finset.mem_filter.mpr ⟨Finset.mem_range.mpr hk0, hne⟩
  have hdeg : (∏ k in ((Finset.range N).filter (fun k => e k ≠ 0)).erase k0,
      (Polynomial.X - Polynomial.C (x k))).natDegree < D := by
    calc (∏ k in ((Finset.range N).filter (fun k => e k ≠ 0)).erase k0,
          (Polynomial.X - Polynomial.C (x k))).natDegree
        ≤ ∑ k in ((Finset.range N).filter (fun k => e k ≠ 0)).erase k0,
            (Polynomial.X - Polynomial.C (x k)).natDegree := Polynomial.natDegree_prod_le _ _
      _ = ∑ k in ((Finset.range N).filter (fun k => e k ≠ 0)).erase k0, 1 :=
          Finset.sum_congr rfl (fun k _ => Polynomial.natDegree_X_sub_C _)
      _ = (((Finset.range N).filter (fun k => e k ≠ 0)).erase k0).card := by simp
      _ < ((Finset.range N).filter (fun k => e k ≠ 0)).card := Finset.card_erase_lt_of_mem hk0S
      _ ≤ D := hw
  generalize hP : (∏ k in ((Finset.range N).filter (fun k => e k ≠ 0)).erase k0,
      (Polynomial.X - Polynomial.C (x k))) = P at hdeg
  have h1 : ∑ k in Finset.range N, e k * P.eval (x k) = 0 := by
    have hexp : ∀ k, e k * P.eval (x k)
        = ∑ i in Finset.range (P.natDegree + 1), P.coeff i * (e k * x k ^ i) := by
      intro k
      rw [Polynomial.eval_eq_sum_range, Finset.mul_sum]
      apply Finset.sum_congr rfl
      intro i _
      ring
    rw [Finset.sum_congr rfl (fun k _ => hexp k), Finset.sum_comm]
    apply Finset.sum_eq_zero
    intro i hi
    have hi2 : i < D := by have := Finset.mem_range.mp hi; omega
    rw [← Finset.mul_sum, hsyn i hi2, mul_zero]
  have h2 : ∑ k in Finset.range N, e k * P.eval (x k) = e k0 * P.eval (x k0) := by
    apply Finset.sum_eq_single k0
    · intro k hk hkk
      by_cases hek : e k = 0
      · rw [hek, zero_mul]
      · have hkS : k ∈ ((Finset.range N).filter (fun k => e k ≠ 0)).erase k0 :=
          Finset.mem_erase.mpr ⟨hkk, Finset.mem_filter.mpr ⟨hk, hek⟩⟩
        have hz : P.eval (x k) = 0 := by
          rw [← hP, Polynomial.eval_prod]
          exact Finset.prod_eq_zero hkS (by simp)
        rw [hz, mul_zero]
    · intro h
      exact absurd (Finset.mem_range.mpr hk0) h
  have h3 : P.eval (x k0) ≠ 0 := by
    rw [← hP, Polynomial.eval_prod]
    apply Finset.prod_ne_zero_iff.mpr
    intro k hk
    simp only [Polynomial.eval_sub, Polynomial.eval_X, Polynomial.eval_C]
    intro h
    have hk2 := Finset.mem_erase.mp hk
    have hkN : k < N := Finset.mem_range.mp (Finset.mem_filter.mp hk2.2).1
    exact hk2.1 (hinj k k0 hkN hk0 (sub_eq_zero.mp h).symm)
  rw [h2] at h1
  rcases mul_eq_zero.mp h1 with h | h
  · exact hne h
  · exact h3 h

theorem alpha_pow (n : Nat) : (⟨2⟩ : GF256) ^ n = ⟨alphaPow n⟩ := by
  induction n with
  | zero => rw [pow_zero, alphaPow_zero]; rfl
  | succ n ih =>
    rw [pow_succ, ih]
    apply gf256_ext
    rw [gf256_mul_val, ← alphaPow_one, gfMul_alphaPow]

theorem gf_exp_alpha (i : Nat) (hi : i < 255) : (⟨gf_exp.getD i 0⟩ : GF256) = ⟨2⟩ ^ i := by
  rw [alpha_pow, gf_exp_eq]
  unfold alphaPow
  rw [Nat.mod_eq_of_lt hi]

theorem alpha_pow_inj (j k : Nat) (hj : j < 255) (hk : k < 255)
    (h : (⟨2⟩ : GF256) ^ j = ⟨2⟩ ^ k) : j = k := by
  rw [alpha_pow, alpha_pow] at h
  have h2 : alphaPow j = alphaPow k := congrArg GF256.val h
  have h3 := log_alphaPow j
  rw [h2, log_alphaPow k] at h3
  rw [Nat.mod_eq_of_lt hj, Nat.mod_eq_of_lt hk] at h3
  exact h3.symm

theorem countFold_card (p : Nat → Prop) [DecidablePred p] (N : Nat) :
    (List.range N).foldl (fun errors i => if p i then errors + 1 else errors) 0
      = ((Finset.range N).filter p).card := by
  induction N with
  | zero => rfl
  | succ N ih =>
    rw [List.range_succ, List.foldl_append, ih, List.foldl_cons, List.foldl_nil,
      Finset.range_succ, Finset.filter_insert]
    by_cases h : p N
    · rw [if_pos h, if_pos h, Finset.card_insert_of_not_mem]
      intro hm
      have := Finset.mem_range.mp (Finset.mem_filter.mp hm).1
      omega
    · rw [if_neg h, if_neg h]

theorem diffCount_card (a b : List Byte) (h : a.length = b.length) :
    diffCount a b
      = ((Finset.range a.length).filter (fun k => a.getD k 0 ≠ b.getD k 0)).card := by
  rw [← countErrors_eq_diffCount a b h]
  unfold countErrors
  exact countFold_card (fun k => a.getD k 0 ≠ b.getD k 0) a.length

theorem gf256_add_eq_zero (a b : Byte) : (⟨a⟩ : GF256) + ⟨b⟩ = 0 ↔ a = b := by
  constructor
  · intro h
    have h2 : (⟨a⟩ : GF256) = ⟨b⟩ := by
      calc (⟨a⟩ : GF256) = ⟨a⟩ + (⟨b⟩ + ⟨b⟩) := by rw [gf256_add_self, add_zero]
        _ = (⟨a⟩ + ⟨b⟩) + ⟨b⟩ := by rw [add_assoc]
        _ = ⟨b⟩ := by rw [h, zero_add]
    exact congrArg GF256.val h2
  · intro h
    rw [h]; exact gf256_add_self _

/-- Two codewords of `rsEncode _ 32` of the same length 255 that differ in at most 32
positions are equal: the code has minimum distance at least 33. -/
theorem codewords_distance (m d : List Byte) (hm : m.length = 223) (hd : d.length = 223)
    (hw : diffCount (rsEncode m 32) (rsEncode d 32) ≤ 32) : m = d := by
  have hlm : (rsEncode m 32).length = 255 := by rw [rsEncode_length, hm]
  have hld : (rsEncode d 32).length = 255 := by rw [rsEncode_length, hd]
  rw [diffCount_card _ _ (by rw [hlm, hld]), hlm] at hw
  have hall := bch_bound 255 32
    (fun k => (⟨(rsEncode m 32).getD k 0⟩ : GF256) + ⟨(rsEncode d 32).getD k 0⟩)
    (fun k => (⟨2⟩ : GF256) ^ (254 - k))
    (fun j k hj hk h => by
      have := alpha_pow_inj (254 - j) (254 - k) (by omega) (by omega) h
      omega)
    (fun i hi => by
      have h1 := evalGF_codeword m i hi
      have h2 := evalGF_codeword d i hi
      rw [gf_exp_alpha i (by omega), evalGF_sum, hlm] at h1
      rw [gf_exp_alpha i (by omega), evalGF_sum, hld] at h2
      have hterm : ∀ k, ((⟨(rsEncode m 32).getD k 0⟩ : GF256) + ⟨(rsEncode d 32).getD k 0⟩)
            * ((⟨2⟩ : GF256) ^ (254 - k)) ^ i
          = (⟨(rsEncode m 32).getD k 0⟩ : GF256) * ((⟨2⟩ : GF256) ^ i) ^ (255 - 1 - k)
            + ⟨(rsEncode d 32).getD k 0⟩ * ((⟨2⟩ : GF256) ^ i) ^ (255 - 1 - k) := by
        intro k
        have e : 255 - 1 - k = 254 - k := by omega
        rw [e, ← pow_mul, ← pow_mul, Nat.mul_comm, add_mul]
      rw [Finset.sum_congr rfl (fun k _ => hterm k), Finset.sum_add_distrib, h1, h2, add_zero])
    (by
      have hset : (Finset.range 255).filter
            (fun k => (⟨(rsEncode m 32).getD k 0⟩ : GF256) + ⟨(rsEncode d 32).getD k 0⟩ ≠ 0)
          = (Finset.range 255).filter
            (fun k => (rsEncode m 32).getD k 0 ≠ (rsEncode d 32).getD k 0) := by
        apply Finset.filter_congr
        intro k _
        rw [Ne, gf256_add_eq_zero]
      rw [hset]
      exact hw)
  have heq : rsEncode m 32 = rsEncode d 32 := by
    apply List.ext_getElem (by rw [hlm, hld])
    intro k h1 h2
    have := (gf256_add_eq_zero _ _).mp (hall k (by omega))
    rw [List.getD_eq_getElem?_getD, List.getD_eq_getElem?_getD, List.getElem?_eq_getElem h1,
      List.getElem?_eq_getElem h2] at this
    exact this
  have := rsEncode_take m 32
  rw [heq, hm, ← hd, rsEncode_take] at this
  exact this.symm

theorem diffCount_triangle (a b c : List Byte) (hab : a.length = b.length)
    (hbc : b.length = c.length) : diffCount a c ≤ diffCount a b + diffCount b c := by
  rw [diffCount_card a c (by omega), diffCount_card a b hab, diffCount_card b c hbc, ← hab]
  refine le_trans (Finset.card_le_card ?_) (Finset.card_union_le _ _)
  intro k hk
  rw [Finset.mem_filter] at hk
  rw [Finset.mem_union, Finset.mem_filter, Finset.mem_filter]
  by_cases h : a.getD k 0 = b.getD k 0
  · exact Or.inr ⟨hk.1, fun h2 => hk.2 (h.trans h2)⟩
  · exact Or.inl ⟨hk.1, h⟩

theorem take_eq_iff_getD (r c : List Byte) (n : Nat) (hr : n ≤ r.length) (hc : n ≤ c.length) :
    r.take n = c.take n ↔ ∀ k, k < n → r.getD k 0 = c.getD k 0 := by
  constructor
  · intro h k hk
    have h1 : (r.take n).getD k 0 = r.getD k 0 := by
      rw [List.getD_eq_getElem?_getD, List.getD_eq_getElem?_getD, List.getElem?_take_of_lt hk]
    have h2 : (c.take n).getD k 0 = c.getD k 0 := by
      rw [List.getD_eq_getElem?_getD, List.getD_eq_getElem?_getD, List.getElem?_take_of_lt hk]
    rw [← h1, ← h2, h]
  · intro h
    apply List.ext_getElem
    · rw [List.length_take, List.length_take]; omega
    · intro k h1 h2
      rw [List.length_take] at h1
      have hk : k < n := by omega
      have := h k hk
      rw [List.getD_eq_getElem?_getD, List.getD_eq_getElem?_getD,
        List.getElem?_eq_getElem (by omega), List.getElem?_eq_getElem (by omega)] at this
      rw [List.getElem_take, List.getElem_take]
      exact this

/-- C25. Verification-only decoding never returns a wrong message within the design
distance: for every 223-byte block `m` and every 255-byte block `r` that differs from
`rsEncode m 32` in at most 16 byte positions, `rsDecode r 32` is either `m` or the empty
vector, and it is `m` exactly when `r` agrees with the codeword on the first 223 bytes. -/
theorem rsDecode_within_distance (m r : List Byte) (hm : m.length = 223)
    (hr : r.length = 255) (hd : diffCount r (rsEncode m 32) ≤ 16) :
    (rsDecode r 32 = m ∨ rsDecode r 32 = [])
      ∧ (rsDecode r 32 = m ↔ ∀ k, k < 223 → r.getD k 0 = (rsEncode m 32).getD k 0) := by
  have hlm : (rsEncode m 32).length = 255 := by rw [rsEncode_length, hm]
  have hacc := rsDecode_eq r 32 (by omega)
  rw [hr] at hacc
  have e1 : 255 - 32 = 223 := rfl
  have e2 : 32 / 2 = 16 := rfl
  rw [e1, e2] at hacc
  have htm : (rsEncode m 32).take 223 = m := by
    have := rsEncode_take m 32
    rw [hm] at this
    exact this
  have hiff : r.take 223 = m ↔ ∀ k, k < 223 → r.getD k 0 = (rsEncode m 32).getD k 0 := by
    rw [← take_eq_iff_getD r (rsEncode m 32) 223 (by omega) (by omega), htm]
  have hmne : m ≠ [] := by
    intro h
    rw [h] at hm
    exact absurd hm (by decide)
  by_cases hdm : r.take 223 = m
  · have hres : rsDecode r 32 = m := by
      rw [hacc, hdm, diffCount_comm, if_pos hd]
    exact ⟨Or.inl hres, ⟨fun _ => hiff.mp hdm, fun _ => hres⟩⟩
  · have hdl : (r.take 223).length = 223 := by rw [List.length_take, hr]; rfl
    have hld : (rsEncode (r.take 223) 32).length = 255 := by rw [rsEncode_length, hdl]
    have hrej : ¬ diffCount (rsEncode (r.take 223) 32) r ≤ 16 := by
      intro h
      apply hdm
      apply codewords_distance (r.take 223) m hdl hm
      have := diffCount_triangle (rsEncode (r.take 223) 32) r (rsEncode m 32)
        (by rw [hld, hr]) (by rw [hr, hlm])
      omega
    have hres : rsDecode r 32 = [] := by
      rw [hacc, if_neg hrej]
    refine ⟨Or.inr hres, ⟨fun h => ?_, fun h => absurd (hiff.mpr h) hdm⟩⟩
    rw [hres] at h
    exact absurd h.symm hmne

/-- C25 at the all-zero message and the received block with one parity byte changed. -/
theorem rsDecode_within_distance_witness :
    (rsDecode (List.replicate 254 0 ++ [1]) 32 = List.replicate 223 0
        ∨ rsDecode (List.replicate 254 0 ++ [1]) 32 = [])
      ∧ (rsDecode (List.replicate 254 0 ++ [1]) 32 = List.replicate 223 0
        ↔ ∀ k, k < 223 → (List.replicate 254 (0 : Byte) ++ [1]).getD k 0
            = (rsEncode (List.replicate 223 0) 32).getD k 0) :=
  rsDecode_within_distance (List.replicate 223 0) (List.replicate 254 0 ++ [1])
    (List.length_replicate _ _)
    (by rw [List.length_append, List.length_replicate]; rfl)
    (by
      rw [rsEncode_zero]
      have e : List.replicate (223 + 32) (0 : Byte) = List.replicate 254 0 ++ [0] := by
        rw [← List.replicate_succ']
      rw [e, diffCount_append _ _ _ _ (by rfl), diffCount_self]
      decide)

theorem longRecording_length : longRecording.length = 2147483647 := List.length_replicate _ _

/-- With a sync test that holds for every window, the inner loop counts every window that
lies inside the recording. -/
theorem matchLoop_strong {S : Type} (samples : List S) (hsz : samples.length < 2 ^ 31)
    (i : Nat) (js : List Nat) :
    ∀ c : Nat, (∀ j ∈ js, i + j * 1323 + 1323 ≤ samples.length) →
      matchLoop (fun _ => true) samples i js c = some (c + js.length) := by
  induction js with
  | nil => intro c _; rfl
  | cons j js ih =>
    intro c h
    have hj := h j (List.mem_cons_self _ _)
    obtain ⟨w, hw⟩ := goertzelWindow_some samples ((i + j * 1323 : Nat) : Int) hsz
      (Int.natCast_nonneg _) (by exact_mod_cast hj)
    have e : matchLoop (fun _ => true) samples i (j :: js) c
        = (match goertzelWindow samples (toInt32 (sizeT (i + j * 1323))) with
          | none => none
          | some w => matchLoop (fun _ => true) samples i js
              (if (fun (_ : List S) => true) w then c + 1 else c)) := rfl
    rw [e, startIdx_eq i j (by omega), hw]
    dsimp only
    have hstrong : (if true = true then c + 1 else c) = c + 1 := if_pos rfl
    rw [hstrong]
    have hih := ih (c + 1) (fun k hk => h k (List.mem_cons_of_mem _ hk))
    rw [hih]
    have hl : c + 1 + js.length = c + (j :: js).length := by
      rw [List.length_cons]; omega
    rw [hl]

theorem bound_of_ge {S : Type} (samples : List S) (hlo : 6615 ≤ samples.length)
    (hsz : samples.length < 2 ^ 31) :
    sizeT (samples.length + 2 ^ 64 - 6615) = samples.length - 6615 := by
  unfold sizeT
  omega

/-- One iteration of the preamble search at a cursor where all five windows are strong:
the data start `i + 5 * 1323` is recorded and the cursor skips past the preamble. -/
theorem findPreambleLoop_strong_step {S : Type} (samples : List S)
    (hsz : samples.length < 2 ^ 31) (fuel i : Nat) (ps : List Int)
    (hi : i + 6615 < samples.length) :
    findPreambleLoop (fun _ => true) samples (fuel + 1) i ps
      = findPreambleLoop (fun _ => true) samples fuel (i + 7276)
          (ps ++ [((i + 6615 : Nat) : Int)]) := by
  rw [findPreambleLoop, bound_of_ge samples (by omega) hsz, if_pos (by omega)]
  rw [matchLoop_strong samples hsz i [0, 1, 2, 3, 4] 0 (by
    intro j hj
    simp only [List.mem_cons, List.mem_singleton, List.not_mem_nil, or_false] at hj
    rcases hj with hj | hj | hj | hj | hj <;> subst hj <;> omega)]
  dsimp only
  rw [if_pos (by decide), sizeT_of_lt (i + 6615) (by omega), sizeT_of_lt _ (by omega),
    toInt32_of_lt _ (by omega)]

theorem findPreambleLoop_strong {S : Type} (samples : List S) (hlo : 6615 ≤ samples.length)
    (hsz : samples.length < 2 ^ 31) (fuel : Nat) :
    ∀ (i : Nat) (ps : List Int), samples.length - 6615 - i + 7276 ≤ fuel * 7276 →
      ∃ rest, findPreambleLoop (fun _ => true) samples fuel i ps
        = PreambleResult.positions (ps ++ rest) := by
  induction fuel with
  | zero => intro i ps h; omega
  | succ fuel ih =>
    intro i ps h
    by_cases hi : i + 6615 < samples.length
    · rw [findPreambleLoop_strong_step samples hsz fuel i ps hi]
      obtain ⟨rest, hr⟩ := ih (i + 7276) (ps ++ [((i + 6615 : Nat) : Int)]) (by omega)
      exact ⟨((i + 6615 : Nat) : Int) :: rest, by rw [hr, List.append_assoc]; rfl⟩
    · refine ⟨[], ?_⟩
      rw [findPreambleLoop, bound_of_ge samples hlo hsz, if_neg (by omega), List.append_nil]

/-- On a recording in which every window is strong at the sync frequency the first data
start is `5 * 1323 = 6615`. -/
theorem findPreamble_strong {S : Type} (samples : List S) (hlo : 6615 < samples.length)
    (hsz : samples.length < 2 ^ 31) (fuel : Nat) (hf : samples.length + 7276 ≤ fuel * 7276) :
    ∃ rest, findPreamble (fun _ => true) samples fuel
      = PreambleResult.positions (6615 :: rest) := by
  obtain ⟨f, hf2⟩ : ∃ f, fuel = f + 1 := ⟨fuel - 1, by omega⟩
  unfold findPreamble
  rw [hf2, findPreambleLoop_strong_step samples hsz f 0 [] (by omega)]
  obtain ⟨rest, hr⟩ := findPreambleLoop_strong samples (by omega) hsz f (0 + 7276)
    ([] ++ [((0 + 6615 : Nat) : Int)]) (by omega)
  exact ⟨rest, by rw [hr]; rfl⟩

/-- On a recording of `2 ^ 31 - 1` samples the data loop cannot stop at the end of the
audio: when more symbols are announced than fit, the test `startPos + samplesPerSymbol >
(int)samples.size()` is reached with a sum above `INT_MAX`. -/
theorem dataLoop_overflow {S : Type} (goertzel : List S → Nat → ℚ) (samples : List S)
    (hsize : samples.length = 2147483647) (n : Nat) :
    ∀ (startPos : Int) (data : List Byte), 0 ≤ startPos → startPos ≤ samples.length →
      (samples.length - startPos.toNat) / 1323 < n →
      dataLoop goertzel samples n startPos data = none := by
  induction n with
  | zero => intro _ _ _ _ h; omega
  | succ n ih =>
    intro startPos data h0 hle hn
    have hc : toInt32 samples.length = (samples.length : Int) :=
      toInt32_of_lt _ (by rw [hsize]; norm_num)
    have e : dataLoop goertzel samples (n + 1) startPos data
        = (if startPos + 1323 > 2147483647 then none
          else if startPos + 1323 > toInt32 samples.length then some data
          else
            match detectTone goertzel samples startPos with
            | none => none
            | some tone =>
              dataLoop goertzel samples n (startPos + 1323)
                (data ++ [toByte (if tone < 0 ∨ tone ≥ 256 then (0 : Int) else tone).toNat])) := rfl
    rw [e]
    by_cases hov : startPos + 1323 > 2147483647
    · rw [if_pos hov]
    · rw [if_neg hov, hc, if_neg (by omega)]
      obtain ⟨w, hw⟩ := goertzelWindow_some samples startPos (by rw [hsize]; norm_num) h0
        (by omega)
      obtain ⟨tone, htone, _⟩ := detectTone_range goertzel samples startPos w hw
      rw [htone]
      dsimp only
      apply ih (startPos + 1323) _ (by omega) (by omega)
      have h2 : (startPos + 1323).toNat = startPos.toNat + 1323 := by omega
      rw [h2]
      have h3 : startPos.toNat + 1323 ≤ samples.length := by omega
      omega

/-- C22, at the failing input. On a recording of `2 ^ 31 - 1` samples in which the
preamble search returns a first data start `p` and the four length symbols decode to an
`L` above the number `floor((|samples| - p - 4 N) / N)` of symbols that fit, `N = 1323`,
`demodulate` does not return the bytes decoded so far: `(int)samples.size()` is `INT_MAX`,
so after the last symbol that fits the sum `startPos + samplesPerSymbol` of the end-of-audio
test overflows `int` (undefined behaviour). -/
theorem demodulate_overflows_at_int_max {S : Type} (syncStrong : List S → Bool)
    (goertzel : List S → Nat → ℚ) (samples : List S) (fuel : Nat) (p : Int) (L : Nat)
    (hsize : samples.length = 2147483647)
    (hp : ∃ rest, findPreamble syncStrong samples fuel = PreambleResult.positions (p :: rest))
    (hL : lengthLoop goertzel samples p [0, 1, 2, 3] 0 = LengthResult.length L)
    (hmore : (samples.length - p.toNat - 4 * 1323) / 1323 < L) :
    toInt32 samples.length = 2147483647
      ∧ demodulate syncStrong goertzel samples fuel = DemodResult.undefined := by
  have hc : toInt32 samples.length = (samples.length : Int) :=
    toInt32_of_lt _ (by rw [hsize]; norm_num)
  obtain ⟨hb0, t0, ht0, _, _, h1⟩ := lengthLoop_step goertzel samples p 0 _ _ _ hL
  obtain ⟨_, t1, _, _, _, h2⟩ := lengthLoop_step goertzel samples p 1 _ _ _ h1
  obtain ⟨_, t2, _, _, _, h3⟩ := lengthLoop_step goertzel samples p 2 _ _ _ h2
  obtain ⟨hb3, t3, _, _, _, _⟩ := lengthLoop_step goertzel samples p 3 _ _ _ h3
  rw [hc] at hb0 hb3
  have hp0 : 0 ≤ p := by
    unfold detectTone at ht0
    cases hw : goertzelWindow samples (p + ((0 : Nat) : Int) * 1323) with
    | none => rw [hw] at ht0; exact absurd ht0 (by simp)
    | some w =>
      have := goertzelWindow_nonneg samples _ w (by rw [hsize]; norm_num)
        (by push_cast at hb0 ⊢; omega) hw
      push_cast at this
      omega
  have hfit : p + 4 * 1323 ≤ samples.length := by push_cast at hb3; omega
  refine ⟨by rw [hc, hsize]; rfl, ?_⟩
  obtain ⟨rest, hrest⟩ := hp
  unfold demodulate
  rw [hrest]
  dsimp only
  unfold demodulateFrom
  rw [hL]
  dsimp only
  rw [dataLoop_overflow goertzel samples hsize L (p + 4 * 1323) [] (by omega) hfit (by
    have : (p + 4 * 1323).toNat = p.toNat + 4 * 1323 := by omega
    rw [this, ← Nat.sub_sub]
    exact hmore)]

theorem peak_detect (samples : List Unit) (hsz : samples.length < 2 ^ 31) (s : Int)
    (h0 : 0 ≤ s) (h1 : s + 1323 ≤ samples.length) :
    detectTone peakAt2050 samples s = some ((1 : Nat) : Int) := by
  obtain ⟨w, hw⟩ := goertzelWindow_some samples s hsz h0 h1
  refine detectTone_of_peak peakAt2050 samples s w hw 1 (by norm_num) ?_ ?_
  · unfold peakAt2050; norm_num
  · intro j _ hj
    unfold peakAt2050
    rw [if_neg (by omega), if_pos (by norm_num)]
    norm_num

theorem peak_lengthLoop (samples : List Unit) (hsz : samples.length < 2 ^ 31)
    (hfit : 11907 ≤ samples.length) :
    lengthLoop peakAt2050 samples 6615 [0, 1, 2, 3] 0 = LengthResult.length 16843009 := by
  have hc : toInt32 samples.length = (samples.length : Int) := toInt32_of_lt _ hsz
  rw [lengthLoop_cons peakAt2050 samples 6615 0 _ _ 1 (by norm_num)
      (by rw [hc]; push_cast; omega)
      (peak_detect samples hsz _ (by norm_num) (by push_cast; omega)) (by norm_num) (by norm_num),
    lengthLoop_cons peakAt2050 samples 6615 1 _ _ 1 (by norm_num)
      (by rw [hc]; push_cast; omega)
      (peak_detect samples hsz _ (by norm_num) (by push_cast; omega)) (by norm_num) (by norm_num),
    lengthLoop_cons peakAt2050 samples 6615 2 _ _ 1 (by norm_num)
      (by rw [hc]; push_cast; omega)
      (peak_detect samples hsz _ (by norm_num) (by push_cast; omega)) (by norm_num) (by norm_num),
    lengthLoop_cons peakAt2050 samples 6615 3 _ _ 1 (by norm_num)
      (by rw [hc]; push_cast; omega)
      (peak_detect samples hsz _ (by norm_num) (by push_cast; omega)) (by norm_num) (by norm_num)]
  have e : (u32 (u32 (u32 (u32 (0 ||| ((toByte (1 : Int).toNat).val <<< (0 * 8)))
      ||| ((toByte (1 : Int).toNat).val <<< (1 * 8)))
      ||| ((toByte (1 : Int).toNat).val <<< (2 * 8)))
      ||| ((toByte (1 : Int).toNat).val <<< (3 * 8)))) = 16843009 := by decide
  rw [e]
  rfl

/-- C22 at the failing input: `2 ^ 31 - 1` samples in which every window is strong at the
sync frequency and peaks at tone 1. The first data start is 6615, the length field reads
16843009, and 1623183 symbols fit. -/
theorem demodulate_overflows_at_int_max_witness :
    toInt32 longRecording.length = 2147483647
      ∧ demodulate (fun _ => true) peakAt2050 longRecording 300000 = DemodResult.undefined :=
  demodulate_overflows_at_int_max (fun _ => true) peakAt2050 longRecording 300000 6615 16843009
    longRecording_length
    (findPreamble_strong longRecording (by rw [longRecording_length]; norm_num)
      (by rw [longRecording_length]; norm_num) 300000 (by rw [longRecording_length]; norm_num))
    (peak_lengthLoop longRecording (by rw [longRecording_length]; norm_num)
      (by rw [longRecording_length]; norm_num))
    (by rw [longRecording_length]; decide)

theorem silentSymbol_length : silentSymbol.length = 1323 := List.length_replicate _ _

/-- The window of a symbol that lies inside the recording. -/
theorem goertzelWindow_eq {S : Type} (samples : List S) (s : Int)
    (hsize : samples.length < 2 ^ 31) (h0 : 0 ≤ s) (h1 : s + 1323 ≤ samples.length) :
    goertzelWindow samples s = some ((samples.drop s.toNat).take 1323) := by
  unfold goertzelWindow
  have hc : toInt32 samples.length = (samples.length : Int) := toInt32_of_lt _ hsize
  rw [if_neg (by omega)]
  dsimp only
  rw [hc, if_pos (by omega), if_neg (by omega)]
  have e : (min (s + 1323) (samples.length : Int) - s).toNat = 1323 := by omega
  rw [e]

theorem dataLoop_succ {S : Type} (goertzel : List S → Nat → ℚ) (samples : List S) (n : Nat)
    (startPos : Int) (data : List Byte) (tone : Int)
    (h1 : startPos + 1323 ≤ 2147483647) (h2 : startPos + 1323 ≤ toInt32 samples.length)
    (hd : detectTone goertzel samples startPos = some tone) :
    dataLoop goertzel samples (n + 1) startPos data
      = dataLoop goertzel samples n (startPos + 1323)
          (data ++ [toByte (if tone < 0 ∨ tone ≥ 256 then (0 : Int) else tone).toNat]) := by
  have e : dataLoop goertzel samples (n + 1) startPos data
      = (if startPos + 1323 > 2147483647 then none
        else if startPos + 1323 > toInt32 samples.length then some data
        else
          match detectTone goertzel samples startPos with
          | none => none
          | some tone =>
            dataLoop goertzel samples n (startPos + 1323)
              (data ++ [toByte (if tone < 0 ∨ tone ≥ 256 then (0 : Int) else tone).toNat])) := rfl
  rw [e, if_neg (by omega), if_neg (by omega), hd]

/-- C24, amended. On every window `detectTone` returns an index `t` in `[-1, 255]`; it is
`-1` exactly when none of the 256 candidate magnitudes is strictly positive, and it is in
`[0, 255]` exactly when some candidate magnitude is strictly positive. The out-of-range
branches of `demodulate` are taken exactly on `-1`: in the loop that reads the length field
the symbol with index `-1` abandons the read (and `demodulate` returns no data when this is
the first length symbol), any other index is accumulated; in the data loop the octet stored
is 0 on `-1` and the index itself otherwise. -/
theorem detectTone_minus_one_branches {S : Type} (goertzel : List S → Nat → ℚ)
    (samples : List S) (startIdx : Int) (w : List S)
    (hw : goertzelWindow samples startIdx = some w) :
    ∃ t, detectTone goertzel samples startIdx = some t ∧ -1 ≤ t ∧ t ≤ 255
      ∧ (t = -1 ↔ ∀ k, k < 256 → goertzel w (2000 + k * 50) ≤ 0)
      ∧ (0 ≤ t ↔ ∃ k, k < 256 ∧ goertzel w (2000 + k * 50) > 0)
      ∧ (∀ (startPos : Int) (i : Nat) (is : List Nat) (acc : Nat),
          startIdx = startPos + (i : Int) * 1323 →
          startPos + ((i : Int) + 1) * 1323 ≤ 2147483647 →
          startPos + ((i : Int) + 1) * 1323 ≤ toInt32 samples.length →
          lengthLoop goertzel samples startPos (i :: is) acc
            = if t = -1 then LengthResult.aborted
              else lengthLoop goertzel samples startPos is
                (u32 (acc ||| ((toByte t.toNat).val <<< (i * 8)))))
      ∧ (∀ (n : Nat) (data : List Byte),
          startIdx + 1323 ≤ 2147483647 → startIdx + 1323 ≤ toInt32 samples.length →
          dataLoop goertzel samples (n + 1) startIdx data
            = dataLoop goertzel samples n (startIdx + 1323)
                (data ++ [if t = -1 then 0 else toByte t.toNat]))
      ∧ (∀ (syncStrong : List S → Bool) (fuel : Nat) (rest : List Int),
          findPreamble syncStrong samples fuel = PreambleResult.positions (startIdx :: rest) →
          startIdx + 1323 ≤ 2147483647 → startIdx + 1323 ≤ toInt32 samples.length →
          t = -1 → demodulate syncStrong goertzel samples fuel = DemodResult.data []) := by
  obtain ⟨t, ht, h1, h2, hiff⟩ := detectTone_range goertzel samples startIdx w hw
  refine ⟨t, ht, h1, h2, hiff, ?_, ?_, ?_, ?_⟩
  · constructor
    · intro h0
      by_contra hno
      have : t = -1 := hiff.mpr (fun k hk => by
        by_contra hk2
        exact hno ⟨k, hk, not_le.mp hk2⟩)
      omega
    · rintro ⟨k, hk, hpos⟩
      by_contra hneg
      have : t = -1 := by omega
      exact absurd hpos (not_lt.mpr ((hiff.mp this) k hk))
  · intro startPos i is acc hs hov hfit
    rw [hs] at ht
    by_cases hm : t = -1
    · rw [if_pos hm]
      rw [hm] at ht
      exact lengthLoop_abort goertzel samples startPos i is acc hov hfit ht
    · rw [if_neg hm]
      exact lengthLoop_cons goertzel samples startPos i is acc t hov hfit ht (by omega) (by omega)
  · intro n data hov hfit
    rw [dataLoop_succ goertzel samples n startIdx data t hov hfit ht]
    by_cases hm : t = -1
    · rw [if_pos (by omega), if_pos hm]; rfl
    · rw [if_neg (by omega), if_neg hm]
  · intro syncStrong fuel rest hp hov hfit hm
    have hab : lengthLoop goertzel samples startIdx [0, 1, 2, 3] 0 = LengthResult.aborted := by
      apply lengthLoop_abort goertzel samples startIdx 0 [1, 2, 3] 0
      · push_cast; omega
      · push_cast; omega
      · rw [← hm]
        have e : startIdx + ((0 : Nat) : Int) * 1323 = startIdx := by push_cast; omega
        rw [e]; exact ht
    unfold demodulate
    rw [hp]
    dsimp only
    unfold demodulateFrom
    rw [hab]

/-- C24, amended, on one symbol of silence: the index is `-1`, a length read at this
symbol is abandoned and a data read stores the octet 0. -/
theorem detectTone_minus_one_branches_witness :
    ∃ t, detectTone silentMagnitude silentSymbol 0 = some t ∧ -1 ≤ t ∧ t ≤ 255
      ∧ (t = -1 ↔ ∀ k, k < 256 →
          silentMagnitude ((silentSymbol.drop (0 : Int).toNat).take 1323) (2000 + k * 50) ≤ 0)
      ∧ (0 ≤ t ↔ ∃ k, k < 256 ∧
          silentMagnitude ((silentSymbol.drop (0 : Int).toNat).take 1323) (2000 + k * 50) > 0)
      ∧ (∀ (startPos : Int) (i : Nat) (is : List Nat) (acc : Nat),
          (0 : Int) = startPos + (i : Int) * 1323 →
          startPos + ((i : Int) + 1) * 1323 ≤ 2147483647 →
          startPos + ((i : Int) + 1) * 1323 ≤ toInt32 silentSymbol.length →
          lengthLoop silentMagnitude silentSymbol startPos (i :: is) acc
            = if t = -1 then LengthResult.aborted
              else lengthLoop silentMagnitude silentSymbol startPos is
                (u32 (acc ||| ((toByte t.toNat).val <<< (i * 8)))))
      ∧ (∀ (n : Nat) (data : List Byte),
          (0 : Int) + 1323 ≤ 2147483647 → (0 : Int) + 1323 ≤ toInt32 silentSymbol.length →
          dataLoop silentMagnitude silentSymbol (n + 1) 0 data
            = dataLoop silentMagnitude silentSymbol n (0 + 1323)
                (data ++ [if t = -1 then 0 else toByte t.toNat]))
      ∧ (∀ (syncStrong : List ℚ → Bool) (fuel : Nat) (rest : List Int),
          findPreamble syncStrong silentSymbol fuel = PreambleResult.positions (0 :: rest) →
          (0 : Int) + 1323 ≤ 2147483647 → (0 : Int) + 1323 ≤ toInt32 silentSymbol.length →
          t = -1 → demodulate syncStrong silentMagnitude silentSymbol fuel = DemodResult.data []) :=
  detectTone_minus_one_branches silentMagnitude silentSymbol 0
    ((silentSymbol.drop (0 : Int).toNat).take 1323)
    (goertzelWindow_eq silentSymbol 0 (by rw [silentSymbol_length]; norm_num) (le_refl _)
      (by rw [silentSymbol_length]; norm_num))

/-- C1, at the failing input. For a file of `2 ^ 31` up to `2 ^ 32 - 269` octets (inside
the claimed bound `2 ^ 32 - 1`) and any path, the frame has at least `2 ^ 31` octets, the
`(int)` cast in `ErrorCorrection::encode` is negative and the block encoder returns no
encoding: `encodeFile` reaches undefined behaviour before the modulator is called, so no
audio is produced and nothing can be decoded back. -/
theorem encodeFile_undefined_from_2GiB (path F : List Byte) (h1 : 2 ^ 31 ≤ F.length)
    (h2 : F.length + 268 < 2 ^ 32) :
    F.length ≤ 2 ^ 32 - 1
      ∧ 2 ^ 31 ≤ (createDataPacket path F).length
      ∧ encode (createDataPacket path F) = none
      ∧ encodeFile path (some F) = EncodeOutcome.undefined := by
  have hlen := createDataPacket_length path F
  have hmin : min 255 (extractFileName path).length ≤ 255 := Nat.min_le_left _ _
  have henc : encode (createDataPacket path F) = none :=
    encode_none_of_ge _ (by omega) (by omega)
  refine ⟨by omega, by omega, henc, ?_⟩
  unfold encodeFile readInputFile
  dsimp only
  have hne : F.isEmpty = false := by
    cases F with
    | nil => rw [List.length_nil] at h1; omega
    | cons a l => rfl
  rw [hne, henc]
  rfl

/-- C1 at the path `x` and a file of `2 ^ 31` zero octets. -/
theorem encodeFile_undefined_from_2GiB_witness :
    (List.replicate (2 ^ 31) (0 : Byte)).length ≤ 2 ^ 32 - 1
      ∧ 2 ^ 31 ≤ (createDataPacket [120] (List.replicate (2 ^ 31) 0)).length
      ∧ encode (createDataPacket [120] (List.replicate (2 ^ 31) 0)) = none
      ∧ encodeFile [120] (some (List.replicate (2 ^ 31) 0)) = EncodeOutcome.undefined :=
  encodeFile_undefined_from_2GiB [120] (List.replicate (2 ^ 31) 0)
    (by rw [List.length_replicate]) (by rw [List.length_replicate]; norm_num)

theorem twoBlocksAndTail_length : twoBlocksAndTail.length = 511 := by
  unfold twoBlocksAndTail
  rw [List.length_append, List.length_append, List.length_replicate, List.length_cons,
    List.length_replicate, List.length_singleton]

theorem twoBlocksAndTail_block0 : blockAt twoBlocksAndTail 0 = List.replicate 255 0 := by
  unfold blockAt twoBlocksAndTail
  rw [Nat.mul_zero, List.drop_zero]
  exact List.take_left' (List.length_replicate _ _)

theorem twoBlocksAndTail_block1 :
    blockAt twoBlocksAndTail 1 = 1 :: List.replicate 254 0 := by
  unfold blockAt twoBlocksAndTail
  rw [Nat.mul_one, List.drop_left' (List.length_replicate _ _)]
  exact List.take_left' (by rw [List.length_cons, List.length_replicate])

theorem keptPart_zero_block : keptPart (List.replicate 255 0) = List.replicate 223 0 := by
  unfold keptPart
  have ht : (List.replicate 255 (0 : Byte)).take 223 = List.replicate 223 0 := by
    rw [List.take_replicate]; rfl
  rw [ht, rsEncode_zero, diffCount_self, if_pos (by decide)]

theorem keptPart_changed_block : keptPart (1 :: List.replicate 254 0) = [] := by
  unfold keptPart
  have ht : ((1 : Byte) :: List.replicate 254 0).take 223 = 1 :: List.replicate 222 0 := by
    rw [show (223 : Nat) = 222 + 1 from rfl, List.take_succ_cons, List.take_replicate]; rfl
  rw [ht]
  have hrej : ¬ diffCount (rsEncode (1 :: List.replicate 222 0) 32)
      (1 :: List.replicate 254 0) ≤ 16 := by
    intro h
    have hm : ((1 : Byte) :: List.replicate 222 0).length = 223 := by
      rw [List.length_cons, List.length_replicate]
    have hb : ((1 : Byte) :: List.replicate 254 0).length = 255 := by
      rw [List.length_cons, List.length_replicate]
    have hz : (rsEncode (List.replicate 223 0) 32) = 0 :: List.replicate 254 0 := by
      rw [rsEncode_zero]; rfl
    have h1 : diffCount ((1 : Byte) :: List.replicate 254 0) (rsEncode (List.replicate 223 0) 32)
        = 1 := by
      rw [hz, diffCount_cons, diffCount_self]; rfl
    have htri := diffCount_triangle (rsEncode (1 :: List.replicate 222 0) 32)
      (1 :: List.replicate 254 0) (rsEncode (List.replicate 223 0) 32)
      (by rw [rsEncode_length, hm, hb]) (by rw [rsEncode_length, hb, List.length_replicate])
    have heq := codewords_distance (1 :: List.replicate 222 0) (List.replicate 223 0) hm
      (List.length_replicate _ _) (by omega)
    have h0 := congrArg (fun l => l.getD 0 0) heq
    exact absurd h0 (by decide)
  rw [if_neg hrej]

theorem twoBlocksAndTail_decodeSpec : decodeSpec twoBlocksAndTail = List.replicate 223 0 := by
  unfold decodeSpec
  rw [twoBlocksAndTail_length]
  have e : List.range (511 / 255) = [0, 1] := by decide
  rw [e]
  simp only [List.map_cons, List.map_nil, concatBlocks]
  rw [twoBlocksAndTail_block0, twoBlocksAndTail_block1, keptPart_zero_block,
    keptPart_changed_block, List.append_nil, List.append_nil]

/-- C12 at an all-zero block, a block with one message octet changed and a trailing
octet: the first block is accepted, the second rejected, the tail ignored, and the output
is the 223 zero octets of the first block. -/
theorem decode_eq_decodeSpec_witness :
    (decode twoBlocksAndTail = decodeSpec twoBlocksAndTail
      ∧ (∀ k, k < twoBlocksAndTail.length / 255 →
          rsDecode (blockAt twoBlocksAndTail k) 32 = keptPart (blockAt twoBlocksAndTail k))
      ∧ ∃ m, m ≤ twoBlocksAndTail.length / 255 ∧ (decode twoBlocksAndTail).length = 223 * m)
      ∧ decodeSpec twoBlocksAndTail = List.replicate 223 0
      ∧ keptPart (blockAt twoBlocksAndTail 0) = List.replicate 223 0
      ∧ keptPart (blockAt twoBlocksAndTail 1) = [] :=
  ⟨decode_eq_decodeSpec twoBlocksAndTail (by rw [twoBlocksAndTail_length]; norm_num),
    twoBlocksAndTail_decodeSpec,
    by rw [twoBlocksAndTail_block0]; exact keptPart_zero_block,
    by rw [twoBlocksAndTail_block1]; exact keptPart_changed_block⟩

end Soundify
